import Mathlib

/-!
# strom: the MC³ chain ensemble (`strom.hpp`)

A shallow embedding of the chain-ensemble engine of `strom.hpp`:
the heating schedule (`calcHeatingPowers`), chain initialisation
(`initChains`) and the swap proposal (`swapChains`).

Conventions of the embedding

* `unsigned` is the 32-bit unsigned type: values are `Nat`, every
  arithmetic result is reduced modulo `UINT_MOD = 2^32`.
* `double` values are modelled by exact rationals (`ℚ`); where a claim depends
  on the rounding of an operation or on NaN, the section on double arithmetic
  gives the operations on the values of the type.
* An operation with undefined behaviour in C++ (out-of-range `operator[]`,
  remainder by zero, signed overflow) or a failing `assert` yields `none`.
* The random number generator `Lot` is an external collaborator: the values
  it returns are explicit arguments of the functions that draw them.
-/

namespace strom

/-- Number of values of the C++ type `unsigned` (32 bits). -/
def UINT_MOD : Nat := 4294967296

/-- Largest value of the C++ type `int` (32 bits). -/
def INT_MAX : Nat := 2147483647

/-- Modelled from the spec: the `Chain` class (`chain.hpp` is not among the
sources).  A chain owns a tree (together with its model-parameter state, type
`T`), a heating power, a tuning flag and the tuning values ("lambdas") of its
updaters.  The accessors below are the ones `strom.hpp` calls. -/
structure Chain (T : Type) where
  tree : T
  heating_power : ℚ
  lambdas : List ℚ
  tuning : Bool

namespace Chain

variable {T : Type}

/-- Modelled from the spec: `Chain::getHeatingPower`, the current tempering power. -/
def getHeatingPower (c : Chain T) : ℚ := c.heating_power

/-- Modelled from the spec: `Chain::setHeatingPower(p)`, replaces the tempering power. -/
def setHeatingPower (c : Chain T) (p : ℚ) : Chain T := { c with heating_power := p }

/-- Modelled from the spec: `Chain::getLambdas`, the tuning values of the chain. -/
def getLambdas (c : Chain T) : List ℚ := c.lambdas

/-- Modelled from the spec: `Chain::setLambdas(v)`, replaces the tuning values wholesale. -/
def setLambdas (c : Chain T) (v : List ℚ) : Chain T := { c with lambdas := v }

/-- Modelled from the spec: `Chain::startTuning`, switches updater adaptation on. -/
def startTuning (c : Chain T) : Chain T := { c with tuning := true }

/-- Modelled from the spec: `Chain::stopTuning`, switches updater adaptation off. -/
def stopTuning (c : Chain T) : Chain T := { c with tuning := false }

/-- Modelled from the spec: `Chain::setTreeFromNewick`, gives the chain its starting
tree; the tree built from the newick string is the argument `t`. -/
def setTreeFromNewick (c : Chain T) (t : T) : Chain T := { c with tree := t }

end Chain

/-- The data members of class `Strom` that the ensemble engine reads or writes.
The default values are the ones assigned by `Strom::clear`. -/
structure Strom (T : Type) where
  gamma_shape : ℚ := 1 / 2
  num_categ : Nat := 1
  state_frequencies : List ℚ := []
  exchangeabilities : List ℚ := []
  num_iter : Nat := 1000
  sample_freq : Nat := 1
  num_burnin_iter : Nat := 1000
  num_chains : Nat := 1
  heating_lambda : ℚ := 1 / 2
  chains : List (Chain T) := []
  heating_powers : List ℚ := []
  swaps : List Nat := []

section ensemble

variable {T : Type}

/-- The loop of `Strom::calcHeatingPowers`: the range-for over `_heating_powers`
with the `unsigned` counter `i` (post-incremented, hence modulo `UINT_MOD`). -/
def calcHeatingPowersLoop (heating_lambda : ℚ) : List ℚ → Nat → List ℚ
  | [], _ => []
  | _ :: hs, i =>
    (1 / (1 + heating_lambda * (i : ℚ))) ::
      calcHeatingPowersLoop heating_lambda hs ((i + 1) % UINT_MOD)

/-- `Strom::calcHeatingPowers`. -/
def calcHeatingPowers (s : Strom T) : Strom T :=
  { s with heating_powers := calcHeatingPowersLoop s.heating_lambda s.heating_powers 0 }

/-- The loop of `Strom::initChains` over `_chains` with the `int` counter
`chain_index`.  Of the calls made on each chain, `setTreeFromNewick`,
`startTuning` and `setHeatingPower` change the chain; `setOutputManager`,
`setLot`, `setLikelihood` and `start` only attach collaborators and print
headers.  `start_tree` is the tree built from the newick string. -/
def initChainsLoop (start_tree : T) (heating_powers : List ℚ) :
    List (Chain T) → Nat → Option (List (Chain T))
  | [], _ => some []
  | c :: cs, chain_index =>
    match heating_powers[chain_index]? with
    | none => none
    | some h =>
      if chain_index + 1 > INT_MAX then none
      else
        match initChainsLoop start_tree heating_powers cs (chain_index + 1) with
        | none => none
        | some cs1 =>
          some ((((c.setTreeFromNewick start_tree).startTuning).setHeatingPower h) :: cs1)

/-- `Strom::initChains`. -/
def initChains (start_tree : T) (s : Strom T) : Option (Strom T) :=
  match initChainsLoop start_tree s.heating_powers s.chains 0 with
  | none => none
  | some cs => some { s with chains := cs }

/-- The statement `_swaps.assign(_num_chains*_num_chains, 0)` of `Strom::run` (and
of `Strom::stopTuningChains`): the number of cells is computed in `unsigned`
arithmetic. -/
def assignSwaps (num_chains : Nat) : List Nat :=
  List.replicate ((num_chains * num_chains) % UINT_MOD) 0

/-- The statement `_chains.resize(_num_chains)` of `Strom::run`: the vector is
cut to `num_chains` elements or padded with default-constructed chains. -/
def resizeChains (num_chains : Nat) (fresh : Chain T) (chains : List (Chain T)) :
    List (Chain T) :=
  chains.take num_chains ++ List.replicate (num_chains - chains.length) fresh

/-- The part of `Strom::run` that builds the ensemble:
`_chains.resize(_num_chains)`, `_swaps.assign(_num_chains*_num_chains, 0)`,
`_heating_powers.assign(_num_chains, 1.0)`, `calcHeatingPowers()` and
`initChains(...)`.  `fresh` is a default-constructed chain. -/
def setupChains (fresh : Chain T) (start_tree : T) (s : Strom T) : Option (Strom T) :=
  let s1 : Strom T :=
    { s with
      chains := resizeChains s.num_chains fresh s.chains
      swaps := assignSwaps s.num_chains }
  let s2 : Strom T := { s1 with heating_powers := List.replicate s1.num_chains 1 }
  initChains start_tree (calcHeatingPowers s2)

/-- The chain index `j` of `Strom::swapChains`:
`j = i + 1 + randint(0, _num_chains-2); j %= _num_chains` in `unsigned` arithmetic. -/
def pickJ (num_chains i r : Nat) : Nat :=
  ((i + 1 + r) % UINT_MOD) % num_chains

/-- The variable `smaller` of `Strom::swapChains`. -/
def smallerOf (i j : Nat) : Nat := if j < i then j else i

/-- The variable `larger` of `Strom::swapChains`. -/
def largerOf (i j : Nat) : Nat := if j < i then i else j

/-- The variable `upper` of `Strom::swapChains`:
`smaller*_num_chains + larger` in `unsigned` arithmetic. -/
def upperCell (num_chains i j : Nat) : Nat :=
  (smallerOf i j * num_chains + largerOf i j) % UINT_MOD

/-- The variable `lower` of `Strom::swapChains`:
`larger*_num_chains + smaller` in `unsigned` arithmetic. -/
def lowerCell (num_chains i j : Nat) : Nat :=
  (largerOf i j * num_chains + smallerOf i j) % UINT_MOD

/-- The statement `_swaps[k]++` on a `std::vector<unsigned>`. -/
def incrCell (swaps : List Nat) (k : Nat) : Option (List Nat) :=
  match swaps[k]? with
  | none => none
  | some c => some (swaps.set k ((c + 1) % UINT_MOD))

/-- A statement `_chains[k].f(...)` that changes chain `k`. -/
def updateChain (chains : List (Chain T)) (k : Nat) (f : Chain T → Chain T) :
    Option (List (Chain T)) :=
  match chains[k]? with
  | none => none
  | some c => some (chains.set k (f c))

/-- The value of `logR` in `Strom::swapChains`. -/
def swapLogR (heat_i log_kernel_i heat_j log_kernel_j : ℚ) : ℚ :=
  (heat_i - heat_j) * (log_kernel_j - log_kernel_i)

/-- `Strom::swapChains`.  `calcLogLikelihood` and `calcLogJointPrior` are the
chain's evaluators (external collaborators); `i` is the value returned by
`randint(0, _num_chains-1)`, `r` the value returned by
`randint(0, _num_chains-2)` and `logu` the value returned by `logUniform()`. -/
def swapChains (calcLogLikelihood calcLogJointPrior : Chain T → ℚ)
    (s : Strom T) (i r : Nat) (logu : ℚ) : Option (Strom T) :=
  if s.num_chains = 1 then some s
  else if s.num_chains = 0 then none
  else
    let j := pickJ s.num_chains i r
    if ¬ (i ≠ j ∧ i < s.num_chains ∧ j < s.num_chains) then none
    else
      let upper := upperCell s.num_chains i j
      let lower := lowerCell s.num_chains i j
      match incrCell s.swaps upper with
      | none => none
      | some swaps1 =>
        match s.chains[i]?, s.chains[j]? with
        | some ci, some cj =>
          let heat_i := ci.getHeatingPower
          let log_kernel_i := calcLogLikelihood ci + calcLogJointPrior ci
          let heat_j := cj.getHeatingPower
          let log_kernel_j := calcLogLikelihood cj + calcLogJointPrior cj
          let logR := swapLogR heat_i log_kernel_i heat_j log_kernel_j
          if logu < logR then
            match incrCell swaps1 lower with
            | none => none
            | some swaps2 =>
              match updateChain s.chains j (fun c => c.setHeatingPower heat_i) with
              | none => none
              | some chains1 =>
                match updateChain chains1 i (fun c => c.setHeatingPower heat_j) with
                | none => none
                | some chains2 =>
                  match chains2[i]?, chains2[j]? with
                  | some ci2, some cj2 =>
                    let lambdas_i := ci2.getLambdas
                    let lambdas_j := cj2.getLambdas
                    match updateChain chains2 i (fun c => c.setLambdas lambdas_j) with
                    | none => none
                    | some chains3 =>
                      match updateChain chains3 j (fun c => c.setLambdas lambdas_i) with
                      | none => none
                      | some chains4 => some { s with swaps := swaps2, chains := chains4 }
                  | _, _ => none
          else some { s with swaps := swaps1 }
        | _, _ => none

/-- The class invariant of the ensemble once `Strom::run` has built it for a
chain count whose square is representable as an `unsigned`: `_chains` holds
`_num_chains` chains and `_swaps` holds `_num_chains * _num_chains` cells. -/
def Strom.WellFormed (s : Strom T) : Prop :=
  s.chains.length = s.num_chains ∧ s.swaps.length = s.num_chains * s.num_chains ∧
    s.num_chains * s.num_chains < UINT_MOD

/-- One swap proposal: the evaluators in force when it is made (the chains are
advanced between proposals, so the kernel values may differ from one proposal
to the next) and the three values drawn from the generator. -/
structure Proposal (T : Type) where
  calcLogLikelihood : Chain T → ℚ
  calcLogJointPrior : Chain T → ℚ
  i : Nat
  r : Nat
  logu : ℚ

/-- A finite sequence of `swapChains` calls. -/
def swapChainsSeq (s : Strom T) : List (Proposal T) → Option (Strom T)
  | [] => some s
  | p :: ps =>
    match swapChains p.calcLogLikelihood p.calcLogJointPrior s p.i p.r p.logu with
    | none => none
    | some s1 => swapChainsSeq s1 ps

end ensemble

/-! ## Derived notions used in the statements and proofs -/

section derived

variable {T : Type}

/-- What an accepted swap leaves in a chain slot: the chain `c` with the
heating power and the lambdas of the chain `d`. -/
def Chain.withTemperOf (c d : Chain T) : Chain T :=
  { c with heating_power := d.heating_power, lambdas := d.lambdas }

/-- The log-ratio `logR` that `swapChains` computes for the chains `ci`, `cj`. -/
def logROf (calcLogLikelihood calcLogJointPrior : Chain T → ℚ) (ci cj : Chain T) : ℚ :=
  swapLogR ci.getHeatingPower (calcLogLikelihood ci + calcLogJointPrior ci)
    cj.getHeatingPower (calcLogLikelihood cj + calcLogJointPrior cj)

/-- The state `swapChains` leaves after a rejected proposal. -/
def rejectedState (s : Strom T) (upper c : Nat) : Strom T :=
  { s with swaps := s.swaps.set upper ((c + 1) % UINT_MOD) }

/-- The state `swapChains` leaves after an accepted proposal. -/
def acceptedState (s : Strom T) (i j upper lower c d : Nat) (ci cj : Chain T) : Strom T :=
  { s with
    swaps := (s.swaps.set upper ((c + 1) % UINT_MOD)).set lower ((d + 1) % UINT_MOD)
    chains := (s.chains.set i (ci.withTemperOf cj)).set j (cj.withTemperOf ci) }

/-- The heating schedule for `n` chains and heating factor `lam`. -/
def schedule (n : Nat) (lam : ℚ) : List ℚ :=
  (List.range n).map (fun (i : Nat) => 1 / (1 + lam * (i : ℚ)))

/-- What `initChains` makes of chain `c` when the schedule gives it power `h`. -/
def Chain.initialised (start_tree : T) (c : Chain T) (h : ℚ) : Chain T :=
  ((c.setTreeFromNewick start_tree).startTuning).setHeatingPower h

/-- The ensemble that `setupChains` builds. -/
def builtEnsemble (fresh : Chain T) (t : T) (s : Strom T) : Strom T :=
  { s with
    chains := List.zipWith (Chain.initialised t) (resizeChains s.num_chains fresh s.chains)
      (schedule s.num_chains s.heating_lambda)
    swaps := assignSwaps s.num_chains
    heating_powers := schedule s.num_chains s.heating_lambda }

/-- The sum of the cells `(r, c)` of an `n x n` matrix, stored row by row (cell
`(r, c)` at index `r*n + c`, as `swapSummary` reads it), that `sel` selects. -/
def selSum (sel : Nat → Nat → Bool) (n : Nat) (swaps : List Nat) : Nat :=
  ∑ r ∈ Finset.range n, ∑ c ∈ Finset.range n,
    if sel r c then swaps.getD (r * n + c) 0 else 0

/-- The sum of the upper-triangle cells (row below column): attempted swaps. -/
def upperSum (n : Nat) (swaps : List Nat) : Nat :=
  selSum (fun r c => decide (r < c)) n swaps

/-- The sum of the lower-triangle cells (column below row): accepted swaps. -/
def lowerSum (n : Nat) (swaps : List Nat) : Nat :=
  selSum (fun r c => decide (c < r)) n swaps

/-- The invariant of the swap matrix after `k` proposals on a zeroed matrix. -/
def SwapInv (s : Strom T) (k : Nat) : Prop :=
  s.WellFormed ∧ upperSum s.num_chains s.swaps = k ∧ lowerSum s.num_chains s.swaps ≤ k ∧
    (∀ r, r < s.num_chains → s.swaps[r * s.num_chains + r]? = some 0) ∧
    (∀ (idx c : Nat), s.swaps[idx]? = some c → c ≤ k)

end derived

/-! ## Concrete ensembles used as inputs -/

section input_data

/-- An ensemble of three chains (trees 10, 11, 12) with the schedule of heating
factor 0.2 and an all-zero 3 x 3 swap matrix. -/
def ensemble3 : Strom Nat :=
  { num_chains := 3
    heating_lambda := 1 / 5
    chains :=
      [ { tree := 10, heating_power := 1, lambdas := [1 / 2], tuning := true },
        { tree := 11, heating_power := 5 / 6, lambdas := [1 / 3], tuning := true },
        { tree := 12, heating_power := 5 / 7, lambdas := [1 / 4], tuning := true } ]
    heating_powers := [1, 5 / 6, 5 / 7]
    swaps := [0, 0, 0, 0, 0, 0, 0, 0, 0] }

/-- A log-likelihood evaluator for the concrete inputs: minus the tree's number. -/
def demoLogLikelihood (c : Chain Nat) : ℚ := - (c.tree : ℚ)

/-- A log-prior evaluator for the concrete inputs: constantly zero. -/
def demoLogJointPrior (_c : Chain Nat) : ℚ := 0

/-- A default-constructed chain for the concrete inputs. -/
def freshChain : Chain Nat :=
  { tree := 0, heating_power := 1, lambdas := [], tuning := false }

/-- The `Strom` object configured with `--nchains 65536` (other options default). -/
def strom65536 : Strom Nat := { num_chains := 65536 }

/-- The `Strom` object configured with `--nchains 3 --heatfactor 0.2`. -/
def strom3 : Strom Nat := { num_chains := 3, heating_lambda := 1 / 5 }

/-- Two proposals for three chains: the pair (0, 1) with `logu = -1` and the pair
(2, 1) with `logu = -1/10`. -/
def proposals3 : List (Proposal Nat) :=
  [ { calcLogLikelihood := demoLogLikelihood, calcLogJointPrior := demoLogJointPrior,
      i := 0, r := 0, logu := -1 },
    { calcLogLikelihood := demoLogLikelihood, calcLogJointPrior := demoLogJointPrior,
      i := 2, r := 1, logu := -1 / 10 } ]

/-- An ensemble of two chains (trees 0 and 3, powers 1 and 2/3) with an all-zero
2 x 2 swap matrix. -/
def ensemble2 : Strom Nat :=
  { num_chains := 2
    chains :=
      [ { tree := 0, heating_power := 1, lambdas := [], tuning := true },
        { tree := 3, heating_power := 2 / 3, lambdas := [], tuning := true } ]
    heating_powers := [1, 2 / 3]
    swaps := [0, 0, 0, 0] }

/-- The proposal of the pair (0, 1) with `logu = -1`; on `ensemble2` its `logR`
is `(1 - 2/3) * (-3 - 0) = -1`, so it is rejected. -/
def proposal01 : Proposal Nat :=
  { calcLogLikelihood := demoLogLikelihood, calcLogJointPrior := demoLogJointPrior,
    i := 0, r := 0, logu := -1 }

end input_data

/-! ## The generator, `stopTuningChains` and the draw count -/

section ensemble_more

variable {T L : Type}

/-- Modelled from the spec: the pseudorandom generator `Lot` (`lot.hpp` is not
among the sources), as a state of type `L` with the two operations that
`swapChains` calls: `randint(lo, hi)` returns an integer in `[lo, hi]` and
`logUniform()` the logarithm of a uniform deviate; each returns the new state
of the generator as well. -/
structure Lot (L : Type) where
  randint : L → Nat → Nat → Nat × L
  logUniform : L → ℚ × L

/-- `Strom::swapChains` with the generator threaded through: the early return
for a single chain comes before any draw; otherwise the two `randint` calls and
the `logUniform` call are made in this order and `swapChains` gives the rest of
the body on the values drawn.  `_num_chains-1` and `_num_chains-2` are
`unsigned` expressions. -/
def swapChainsLot (lot_ops : Lot L) (calcLogLikelihood calcLogJointPrior : Chain T → ℚ)
    (s : Strom T) (lot : L) : Option (Strom T × L) :=
  if s.num_chains = 1 then some (s, lot)
  else
    let d1 := lot_ops.randint lot 0 ((s.num_chains + UINT_MOD - 1) % UINT_MOD)
    let d2 := lot_ops.randint d1.2 0 ((s.num_chains + UINT_MOD - 2) % UINT_MOD)
    let d3 := lot_ops.logUniform d2.2
    match swapChains calcLogLikelihood calcLogJointPrior s d1.1 d2.1 d3.1 with
    | none => none
    | some s1 => some (s1, d3.2)

/-- `Strom::stopTuningChains`. -/
def stopTuningChains (s : Strom T) : Strom T :=
  { s with
    swaps := assignSwaps s.num_chains
    chains := s.chains.map Chain.stopTuning }

/-- The number of the draw combinations `(i, r)`, `i` in `[0, n-1]` and `r` in
`[0, n-2]`, for which `swapChains` selects the unordered pair `{p, q}`. -/
def drawCount (n p q : Nat) : Nat :=
  ∑ i ∈ Finset.range n, ∑ r ∈ Finset.range (n - 1),
    if (i = p ∧ pickJ n i r = q) ∨ (i = q ∧ pickJ n i r = p) then 1 else 0

end ensemble_more

/-! ## Further concrete inputs -/

section input_lot

/-- An ensemble of a single chain with a 1 x 1 swap matrix. -/
def ensemble1 : Strom Nat :=
  { num_chains := 1
    chains := [ { tree := 10, heating_power := 1, lambdas := [1 / 2], tuning := true } ]
    heating_powers := [1]
    swaps := [0] }

/-- A generator for the concrete inputs: its state is the list of the raw values
still to come; `randint` maps the next one into `[lo, hi]` and `logUniform`
returns minus the next one minus one. -/
def listLot : Lot (List Nat) :=
  { randint := fun l lo hi => (lo + l.headD 0 % (hi - lo + 1), l.tail)
    logUniform := fun l => (- ((l.headD 0 : ℚ) + 1), l.tail) }

end input_lot

/-! ## Trees and their manipulation (`tree_manip.hpp`)

A `Node *` is modelled by the index of the node in `Tree::_nodes`, the null
pointer by `none`.  Dereferencing an index outside `_nodes`, or the null
`_tree` pointer, yields `none`.  Node numbers are unbounded integers. -/

section trees

/-- Modelled from the spec: class `Node` (`node.hpp` is not among the sources),
with the data members that `tree_manip.hpp` reads and writes. -/
structure Node where
  parent : Option Nat
  left_child : Option Nat
  right_sib : Option Nat
  number : Int
  name : String
  edge_length : ℚ
  deriving DecidableEq

/-- Modelled from the spec: class `Tree` (`tree.hpp` is not among the sources),
with the data members that `tree_manip.hpp` reads and writes: the node storage,
the root, the rooted flag, the leaf count and the preorder cache. -/
structure Tree where
  is_rooted : Bool
  root : Option Nat
  nleaves : Nat
  nodes : List Node
  preorder : List Nat
  deriving DecidableEq

/-- Class `TreeManip`: its only data member is the shared pointer `_tree`. -/
structure TreeManip where
  tree : Option Tree
  deriving DecidableEq

/-- The loop of `TreeManip::calcTreeLength` over `_preorder`, `TL` being the sum
so far. -/
def calcTreeLengthLoop (nodes : List Node) : List Nat → ℚ → Option ℚ
  | [], TL => some TL
  | nd :: rest, TL =>
    match nodes[nd]? with
    | none => none
    | some node => calcTreeLengthLoop nodes rest (TL + node.edge_length)

/-- `TreeManip::calcTreeLength`. -/
def calcTreeLength (tm : TreeManip) : Option ℚ :=
  match tm.tree with
  | none => none
  | some t => calcTreeLengthLoop t.nodes t.preorder 0

/-- The loop of `TreeManip::scaleAllEdgeLengths` over `_preorder`: each visit
multiplies the visited node's edge length in place. -/
def scaleLoop (scaler : ℚ) : List Nat → List Node → Option (List Node)
  | [], nodes => some nodes
  | nd :: rest, nodes =>
    match nodes[nd]? with
    | none => none
    | some node =>
      scaleLoop scaler rest (nodes.set nd { node with edge_length := node.edge_length * scaler })

/-- `TreeManip::scaleAllEdgeLengths`. -/
def scaleAllEdgeLengths (tm : TreeManip) (scaler : ℚ) : Option TreeManip :=
  match tm.tree with
  | none => none
  | some t =>
    match scaleLoop scaler t.preorder t.nodes with
    | none => none
    | some nodes1 => some { tree := some { t with nodes := nodes1 } }

/-- The tree that `TreeManip::createTestTree` builds: the six nodes are stored in
the order root, first internal, second internal, first leaf, second leaf, third
leaf, so the pointers `root_node`, ..., `third_leaf` are the indices 0, ..., 5. -/
def testTree : Tree :=
  { nodes :=
      [ { parent := none, left_child := some 1, right_sib := none, number := 5,
          name := "root node", edge_length := 0 },
        { parent := some 0, left_child := some 2, right_sib := none, number := 4,
          name := "first internal node", edge_length := 1 / 10 },
        { parent := some 1, left_child := some 3, right_sib := some 5, number := 3,
          name := "second internal node", edge_length := 1 / 10 },
        { parent := some 2, left_child := none, right_sib := some 4, number := 0,
          name := "first leaf", edge_length := 1 / 10 },
        { parent := some 2, left_child := none, right_sib := none, number := 1,
          name := "second leaf", edge_length := 1 / 10 },
        { parent := some 1, left_child := none, right_sib := none, number := 2,
          name := "third leaf", edge_length := 1 / 10 } ]
    is_rooted := true
    root := some 0
    nleaves := 3
    preorder := [1, 2, 3, 4, 5] }

/-- `TreeManip::createTestTree`: the tree held before is dropped and `_tree`
points to the newly built test tree. -/
def createTestTree (_tm : TreeManip) : TreeManip :=
  { tree := some testTree }

/-- One piece of text appended to `newick` by `TreeManip::makeNewick`, together
with the node it is appended for:
`lparen nd` is `"("` (node `nd` is pushed on the stack),
`rootTip number len` is `tip_node_format % number % len` for the root tip,
`tip nd number len` is `tip_node_format % number % len` for the leaf `nd`,
`comma` is `","`,
`rparen nd` is `")"` (node `nd` is popped and the stack is empty) and
`rparenLen nd len` is `internal_node_format % len` (node `nd` is popped). -/
inductive Piece where
  | lparen (nd : Nat)
  | rootTip (number : Int) (len : ℚ)
  | tip (nd : Nat) (number : Int) (len : ℚ)
  | comma
  | rparen (nd : Nat)
  | rparenLen (nd : Nat) (len : ℚ)
  deriving DecidableEq

/-- The text of a piece: `tip_node_format` is `"%d:%.<precision>f"` and
`internal_node_format` is `"):%.<precision>f"`; `fmt precision x` is the text
that `"%.<precision>f"` gives for `x` (the formatting library is external). -/
def renderPiece (fmt : Nat → ℚ → String) (precision : Nat) : Piece → String
  | .lparen _ => "("
  | .rootTip number len => toString number ++ ":" ++ fmt precision len
  | .tip _ number len => toString number ++ ":" ++ fmt precision len
  | .comma => ","
  | .rparen _ => ")"
  | .rparenLen _ len => "):" ++ fmt precision len

/-- The string made of the pieces appended in turn. -/
def renderPieces (fmt : Nat → ℚ → String) (precision : Nat) : List Piece → String
  | [] => ""
  | x :: xs => renderPiece fmt precision x ++ renderPieces fmt precision xs

/-- What `TreeManip::makeNewick` does after the text of a leaf without right
sibling: the `while` loop that pops the nodes without right sibling and the
`if` after it, which pops one node with a right sibling.  The argument is the
stack, top first; the result is the pieces appended and the stack left. -/
def closeNodes (nodes : List Node) : List Nat → Option (List Piece × List Nat)
  | [] => some ([], [])
  | top :: rest =>
    match nodes[top]? with
    | none => none
    | some popped =>
      if popped.right_sib.isSome then
        some ([.rparenLen top popped.edge_length, .comma], rest)
      else
        match rest with
        | [] => some ([.rparen top], [])
        | _ :: _ =>
          match closeNodes nodes rest with
          | none => none
          | some (ps, stack1) => some (.rparenLen top popped.edge_length :: ps, stack1)

/-- The loop of `TreeManip::makeNewick` over `_preorder`, from the state
(`node_stack`, `root_tip`): the pieces appended from here on and the stack at
the end of the traversal. -/
def newickLoop (nodes : List Node) :
    List Nat → List Nat → Option Nat → Option (List Piece × List Nat)
  | [], node_stack, _ => some ([], node_stack)
  | nd :: rest, node_stack, root_tip =>
    match nodes[nd]? with
    | none => none
    | some node =>
      if node.left_child.isSome then
        match root_tip with
        | some rt =>
          match nodes[rt]? with
          | none => none
          | some rnode =>
            match newickLoop nodes rest (nd :: node_stack) none with
            | none => none
            | some (ps, fin) =>
              some (.lparen nd :: .rootTip (rnode.number + 1) node.edge_length :: .comma :: ps,
                fin)
        | none =>
          match newickLoop nodes rest (nd :: node_stack) none with
          | none => none
          | some (ps, fin) => some (.lparen nd :: ps, fin)
      else if node.right_sib.isSome then
        match newickLoop nodes rest node_stack root_tip with
        | none => none
        | some (ps, fin) => some (.tip nd (node.number + 1) node.edge_length :: .comma :: ps, fin)
      else
        match closeNodes nodes node_stack with
        | none => none
        | some (cs, stack1) =>
          match newickLoop nodes rest stack1 root_tip with
          | none => none
          | some (ps, fin) =>
            some (.tip nd (node.number + 1) node.edge_length :: (cs ++ ps), fin)

/-- The pieces that `TreeManip::makeNewick` appends, in order, and the stack at
the end: `root_tip` starts as the root when the tree is unrooted. -/
def makeNewickPieces (tm : TreeManip) : Option (List Piece × List Nat) :=
  match tm.tree with
  | none => none
  | some t => newickLoop t.nodes t.preorder [] (if t.is_rooted then none else t.root)

/-- `TreeManip::makeNewick`. -/
def makeNewick (fmt : Nat → ℚ → String) (tm : TreeManip) (precision : Nat) : Option String :=
  match makeNewickPieces tm with
  | none => none
  | some (ps, _) => some (renderPieces fmt precision ps)

/-- The tree of `createTestTree` with the edge lengths of its six nodes replaced
by `e0` (root), `e1` (first internal), `e2` (second internal), `e3`, `e4`, `e5`
(first, second, third leaf). -/
def testTreeWith (e0 e1 e2 e3 e4 e5 : ℚ) : Tree :=
  { testTree with
    nodes := List.zipWith (fun (node : Node) (e : ℚ) => { node with edge_length := e })
      testTree.nodes [e0, e1, e2, e3, e4, e5] }

/-- The decimal digits of `m`, padded with zeros on the left to `width` digits. -/
def padDigits (width m : Nat) : String :=
  String.mk (List.replicate (width - (toString m).length) '0') ++ toString m

/-- A model of the external `"%.<precision>f"` on exact values: the decimal
notation of `x` rounded to `precision` places (to nearest, ties to even). -/
def formatFixed (precision : Nat) (x : ℚ) : String :=
  let scale : Nat := 10 ^ precision
  let a : Nat := x.num.natAbs * scale
  let q : Nat := a / x.den
  let r : Nat := a % x.den
  let m : Nat := if 2 * r < x.den then q else if x.den < 2 * r then q + 1
    else if q % 2 = 0 then q else q + 1
  (if x < 0 then "-" else "") ++ toString (m / scale) ++
    (if precision = 0 then "" else "." ++ padDigits precision (m % scale))

/-- Whether the node pointed to by `nd` has a left child, that is, is an internal
node. -/
def isInternalAt (nodes : List Node) (nd : Nat) : Bool :=
  match nodes[nd]? with
  | some node => node.left_child.isSome
  | none => false

/-- Whether a piece is an opening parenthesis. -/
def Piece.isLparen : Piece → Bool
  | .lparen _ => true
  | _ => false

/-- Whether a piece is the text of the root tip. -/
def Piece.isRootTip : Piece → Bool
  | .rootTip _ _ => true
  | _ => false

/-- The node, if any, that a piece records as popped from the stack. -/
def Piece.popped : Piece → Option Nat
  | .rparen nd => some nd
  | .rparenLen nd _ => some nd
  | _ => none

/-- The nodes popped from the stack, in the order of the pops. -/
def popsOf (ps : List Piece) : List Nat :=
  ps.filterMap Piece.popped

/-- `Forest nodes p l`: `l` is the preorder of the subtrees hanging from the
children of node `p`, from the child `l.head` along the right-sibling pointers
to the last child; every node has the parent, left-child and right-sibling
pointers that this shape requires. -/
inductive Forest (nodes : List Node) : Nat → List Nat → Prop where
  | lastLeaf (p nd : Nat) (node : Node) :
      nodes[nd]? = some node → node.parent = some p → node.left_child = none →
      node.right_sib = none → Forest nodes p [nd]
  | lastInner (p nd : Nat) (node : Node) (c : Nat) (cs : List Nat) :
      nodes[nd]? = some node → node.parent = some p → node.left_child = some c →
      node.right_sib = none → Forest nodes nd (c :: cs) → Forest nodes p (nd :: c :: cs)
  | consLeaf (p nd : Nat) (node : Node) (nxt : Nat) (rest : List Nat) :
      nodes[nd]? = some node → node.parent = some p → node.left_child = none →
      node.right_sib = some nxt → Forest nodes p (nxt :: rest) →
      Forest nodes p (nd :: nxt :: rest)
  | consInner (p nd : Nat) (node : Node) (c : Nat) (cs : List Nat) (nxt : Nat)
      (rest : List Nat) :
      nodes[nd]? = some node → node.parent = some p → node.left_child = some c →
      node.right_sib = some nxt → Forest nodes nd (c :: cs) → Forest nodes p (nxt :: rest) →
      Forest nodes p (nd :: (c :: cs ++ nxt :: rest))

/-- A well-formed tree: the root is a valid node without parent and without
sibling, it is not in the preorder cache, no node is repeated in the cache, and
the cache is the true preorder of the nodes below the root, linked as the
parent, left-child and right-sibling pointers say. -/
def Tree.WellFormed (t : Tree) : Prop :=
  ∃ r rnode, t.root = some r ∧ t.nodes[r]? = some rnode ∧ rnode.parent = none ∧
    rnode.right_sib = none ∧ r ∉ t.preorder ∧ t.preorder.Nodup ∧
    ((rnode.left_child = none ∧ t.preorder = []) ∨
      (∃ c cs, rnode.left_child = some c ∧ t.preorder = c :: cs ∧ Forest t.nodes r (c :: cs)))

/-- Every text `"):<len>"` among the pieces is the one of the popped node's edge
length and is followed by a comma exactly when that node has a right sibling. -/
def PopsFollowed (nodes : List Node) (ps : List Piece) : Prop :=
  ∀ (k nd : Nat) (len : ℚ), ps[k]? = some (Piece.rparenLen nd len) →
    ∃ node, nodes[nd]? = some node ∧ len = node.edge_length ∧
      (ps[k + 1]? = some Piece.comma ↔ node.right_sib.isSome = true)

/-- Every bare `")"` among the pieces is for a node without right sibling. -/
def BarePops (nodes : List Node) (ps : List Piece) : Prop :=
  ∀ (k nd : Nat), ps[k]? = some (Piece.rparen nd) →
    ∃ node, nodes[nd]? = some node ∧ node.right_sib = none

/-- The node `node` with its edge length multiplied by `scaler`. -/
def Node.scaled (scaler : ℚ) (node : Node) : Node :=
  { node with edge_length := node.edge_length * scaler }

/-- The edge lengths of the nodes in the preorder cache, in cache order. -/
def cachedEdgeLengths (t : Tree) : List ℚ :=
  t.preorder.filterMap (fun nd => (t.nodes[nd]?).map Node.edge_length)

end trees

/-! ## Option validation, the chain loop and `run` (`strom.hpp`) -/

section run_model

variable {T L : Type}

/-- A loop of `Strom::processCommandLineOptions` over a vector of option values:
`for (auto & x : v) { if (x <= 0.0) throw XStrom(msg); x /= sum; }`.  The result
is the exception's message or the vector after the loop. -/
def normalizeLoop (msg : String) (sum : ℚ) : List ℚ → Except String (List ℚ)
  | [] => .ok []
  | x :: xs =>
    if x ≤ 0 then .error msg
    else
      match normalizeLoop msg sum xs with
      | .error e => .error e
      | .ok ys => .ok (x / sum :: ys)

/-- The validation part of `Strom::processCommandLineOptions`: the statements
after the options have been parsed into the data members (the parsing library is
external) when neither `--help` nor `--version` is given.  The result is the
message of the `XStrom` thrown, or the object after the call. -/
def processCommandLineOptions (s : Strom T) : Except String (Strom T) :=
  let sum_freqs : ℚ := s.state_frequencies.foldl (fun a b => a + b) 0
  match normalizeLoop "all statefreq entries must be positive real numbers" sum_freqs
      s.state_frequencies with
  | .error e => .error e
  | .ok freqs =>
    let sum_xchg : ℚ := s.exchangeabilities.foldl (fun a b => a + b) 0
    match normalizeLoop "all rmatrix entries must be positive real numbers" sum_xchg
        s.exchangeabilities with
    | .error e => .error e
    | .ok xchg =>
      if s.gamma_shape ≤ 0 then .error "gamma shape must be a positive real number"
      else if s.num_categ < 1 then .error "ncateg must be a positive integer greater than 0"
      else if s.num_chains < 1 then
        .error "nchains must be a positive integer greater than 0"
      else if s.heating_lambda ≤ 0 ∨ s.heating_lambda > 1 then
        .error "heatfactor must be a real number in the interval (0.0,1.0]"
      else .ok { s with state_frequencies := freqs, exchangeabilities := xchg }

/-- A call made while `Strom::run` executes, recorded in the order of execution:
`nextStep k iteration sampling_freq` is the call `c.nextStep(iteration,
sampling_freq)` of `stepChains` on the chain at position `k` of `_chains`; the
others are the calls of `swapChains()`, `stopTuningChains()` and `stopChains()`. -/
inductive Call where
  | nextStep (chain_index iteration sampling_freq : Nat)
  | swapChains
  | stopTuningChains
  | stopChains
  deriving DecidableEq

/-- The state of a run: the `Strom` object, the state of the shared generator
`_lot` and the calls made so far. -/
structure RunState (T L : Type) where
  strom : Strom T
  lot : L
  calls : List Call

/-- The loop of `Strom::stepChains` over `_chains`, `k` being the position of the
chain visited.  `nextStep` is `Chain::nextStep` (modelled from the spec:
`chain.hpp` is not among the sources): one sweep of the chain's updaters, which
draw from the shared generator. -/
def stepChainsLoop (nextStep : Chain T → Nat → Nat → L → Chain T × L)
    (iteration sampling_freq : Nat) : List (Chain T) → Nat → L → List (Chain T) × L × List Call
  | [], _, lot => ([], lot, [])
  | c :: cs, k, lot =>
    let r := nextStep c iteration sampling_freq lot
    let rs := stepChainsLoop nextStep iteration sampling_freq cs (k + 1) r.2
    (r.1 :: rs.1, rs.2.1, Call.nextStep k iteration sampling_freq :: rs.2.2)

/-- `Strom::stepChains`. -/
def stepChains (nextStep : Chain T → Nat → Nat → L → Chain T × L) (st : RunState T L)
    (iteration : Nat) (sampling : Bool) : RunState T L :=
  let r := stepChainsLoop nextStep iteration (if sampling then st.strom.sample_freq else 0)
    st.strom.chains 0 st.lot
  { strom := { st.strom with chains := r.1 }, lot := r.2.1, calls := st.calls ++ r.2.2 }

/-- `Strom::stopChains`; `stop` is `Chain::stop` (modelled from the spec: the
footer emission of a chain). -/
def stopChains (stop : Chain T → Chain T) (st : RunState T L) : RunState T L :=
  { st with
    strom := { st.strom with chains := st.strom.chains.map stop }
    calls := st.calls ++ [Call.stopChains] }

/-- A call on the output manager made by `Strom::sample`, with its arguments (the
console line is given by the three values it formats). -/
inductive OutputCall where
  | outputConsole (iteration : Nat) (logLike logPrior : ℚ)
  | outputTree (iteration : Nat) (tm : TreeManip)
  | outputParameters (iteration : Nat) (logLike logPrior TL : ℚ)
  deriving DecidableEq

/-- `Strom::sample`.  `output_manager` is the member `_output_manager`: `none` is
the null pointer, otherwise the calls it has received; the result is its state
after the call.  The remainder by a zero `_sample_freq` and the dereference of
a null pointer are undefined. -/
def sample (calcLogLikelihood calcLogJointPrior : Chain T → ℚ) (s : Strom T)
    (output_manager : Option (List OutputCall)) (iteration : Nat) (chain : Chain T)
    (tm : TreeManip) : Option (List OutputCall) :=
  if s.sample_freq = 0 then none
  else if iteration % s.sample_freq = 0 then
    let logLike := calcLogLikelihood chain
    let logPrior := calcLogJointPrior chain
    match calcTreeLength tm, output_manager with
    | some TL, some out =>
      some (out ++ [OutputCall.outputConsole iteration logLike logPrior,
        OutputCall.outputTree iteration tm,
        OutputCall.outputParameters iteration logLike logPrior TL])
    | _, _ => none
  else output_manager

/-- The body of the two loops of `Strom::run`: `stepChains(iteration, sampling);
swapChains();`. -/
def iterationBody (lot_ops : Lot L) (calcLogLikelihood calcLogJointPrior : Chain T → ℚ)
    (nextStep : Chain T → Nat → Nat → L → Chain T × L) (sampling : Bool) (iteration : Nat)
    (st : RunState T L) : Option (RunState T L) :=
  let st1 := stepChains nextStep st iteration sampling
  match swapChainsLot lot_ops calcLogLikelihood calcLogJointPrior st1.strom st1.lot with
  | none => none
  | some r => some { strom := r.1, lot := r.2, calls := st1.calls ++ [Call.swapChains] }

/-- A loop `for (unsigned iteration = ...; iteration <= num_iter; ++iteration) body`
of `Strom::run`, from the current value of `iteration`; `fuel` bounds the number
of times the condition is tested, and `none` is also the result when the bound
is reached. -/
def iterationLoop (body : Nat → RunState T L → Option (RunState T L)) (num_iter : Nat) :
    Nat → Nat → RunState T L → Option (RunState T L)
  | 0, _, _ => none
  | fuel + 1, iteration, st =>
    if iteration ≤ num_iter then
      match body iteration st with
      | none => none
      | some st1 => iterationLoop body num_iter fuel ((iteration + 1) % UINT_MOD) st1
    else some st

/-- `Strom::run` from the creation of the chains to `stopChains()`: `setupChains`,
the burn-in loop, `stopTuningChains()`, the sampling loop and `stopChains()`.
Reading the data and tree files, setting up the model and printing are external;
`lot` is the state of the generator after `setSeed`. -/
def run (lot_ops : Lot L) (calcLogLikelihood calcLogJointPrior : Chain T → ℚ)
    (nextStep : Chain T → Nat → Nat → L → Chain T × L) (stop : Chain T → Chain T)
    (fresh : Chain T) (start_tree : T) (fuel : Nat) (s : Strom T) (lot : L) :
    Option (RunState T L) :=
  match setupChains fresh start_tree s with
  | none => none
  | some s1 =>
    match iterationLoop
        (iterationBody lot_ops calcLogLikelihood calcLogJointPrior nextStep false)
        s1.num_burnin_iter fuel 1 { strom := s1, lot := lot, calls := [] } with
    | none => none
    | some st2 =>
      let st3 : RunState T L :=
        { st2 with
          strom := stopTuningChains st2.strom
          calls := st2.calls ++ [Call.stopTuningChains] }
      match iterationLoop
          (iterationBody lot_ops calcLogLikelihood calcLogJointPrior nextStep true)
          st3.strom.num_iter fuel 1 st3 with
      | none => none
      | some st4 => some (stopChains stop st4)

/-- The calls of one iteration of `run` on `n` chains: `nextStep` on the chains
0, ..., n-1 in turn, then `swapChains`. -/
def iterationCalls (n sampling_freq iteration : Nat) : List Call :=
  (List.range n).map (fun k => Call.nextStep k iteration sampling_freq) ++ [Call.swapChains]

/-- The calls of the iterations 1, ..., `num_iter`. -/
def loopCalls (n sampling_freq num_iter : Nat) : List Call :=
  (List.range num_iter).flatMap (fun k => iterationCalls n sampling_freq (k + 1))

end run_model

/-! ## Concrete inputs for the run -/

section input_run

/-- A sweep for the concrete inputs: the chain's tree moves to the next number and
one value of the generator is used up. -/
def demoNextStep (c : Chain Nat) (_iteration _sampling_freq : Nat) (lot : List Nat) :
    Chain Nat × List Nat :=
  ({ c with tree := c.tree + 1 }, lot.tail)

/-- The chain's `stop` for the concrete inputs: it only emits a footer. -/
def demoStop (c : Chain Nat) : Chain Nat := c

/-- The `Strom` object configured with `--nchains 2 --burnin 1 --niter 2`. -/
def strom2 : Strom Nat := { num_chains := 2, num_burnin_iter := 1, num_iter := 2 }

/-- The `Strom` object after the options have been parsed when only the required
options are given: every other option has its default value. -/
def stromDefaults : Strom Nat :=
  { state_frequencies := [1 / 4, 1 / 4, 1 / 4, 1 / 4]
    exchangeabilities := [1, 1, 1, 1, 1, 1]
    num_burnin_iter := 100 }

/-- The `Strom` object configured with `--nchains 2 --burnin 0 --niter 4294967295`. -/
def stromMaxIter : Strom Nat :=
  { num_chains := 2, num_burnin_iter := 0, num_iter := 4294967295 }

/-- The run state before any call: the ensemble of three chains and a generator
with no values left. -/
def runState3 : RunState Nat (List Nat) :=
  { strom := ensemble3, lot := [], calls := [] }

end input_run

/-! ## The recursive serializer -/

section serializer

mutual

/-- The recursive serializer `S` on the linked nodes: `S(leaf)` is
`"<number+1>:<len>"` and `S(internal)` is `"(" + S(child_1) + "," + ... + "," +
S(child_k) + "):<len>"`.  `fuel` bounds the depth of the recursion; `none` is the
result when the bound is reached or a pointer is invalid. -/
def serializeNode (fmt : Nat → ℚ → String) (precision : Nat) (nodes : List Node) :
    Nat → Nat → Option String
  | 0, _ => none
  | fuel + 1, nd =>
    match nodes[nd]? with
    | none => none
    | some node =>
      match node.left_child with
      | none => some (toString (node.number + 1) ++ ":" ++ fmt precision node.edge_length)
      | some child =>
        match serializeSiblings fmt precision nodes fuel child with
        | none => none
        | some inner => some ("(" ++ inner ++ "):" ++ fmt precision node.edge_length)

/-- The text `S(nd) + "," + S(next sibling) + "," + ...` for the node `nd` and the
siblings that follow it. -/
def serializeSiblings (fmt : Nat → ℚ → String) (precision : Nat) (nodes : List Node) :
    Nat → Nat → Option String
  | 0, _ => none
  | fuel + 1, nd =>
    match nodes[nd]? with
    | none => none
    | some node =>
      match serializeNode fmt precision nodes fuel nd with
      | none => none
      | some own =>
        match node.right_sib with
        | none => some own
        | some sib =>
          match serializeSiblings fmt precision nodes fuel sib with
          | none => none
          | some others => some (own ++ "," ++ others)

end

/-- The recursive serializer at top level: a leaf is written as `S(leaf)`, an
internal node as `"(" + S(child_1) + "," + ... + "," + S(child_k) + ")"`, closed
with `")"` alone. -/
def serializeTop (fmt : Nat → ℚ → String) (precision : Nat) (nodes : List Node)
    (fuel nd : Nat) : Option String :=
  match nodes[nd]? with
  | none => none
  | some node =>
    match node.left_child with
    | none => some (toString (node.number + 1) ++ ":" ++ fmt precision node.edge_length)
    | some child =>
      match serializeSiblings fmt precision nodes fuel child with
      | none => none
      | some inner => some ("(" ++ inner ++ ")")

/-- The recursive serialization of a tree: the serializer at top level applied to
the root's child. -/
def makeNewickRec (fmt : Nat → ℚ → String) (tm : TreeManip) (precision fuel : Nat) :
    Option String :=
  match tm.tree with
  | none => none
  | some t =>
    match t.root with
    | none => none
    | some r =>
      match t.nodes[r]? with
      | none => none
      | some rnode =>
        match rnode.left_child with
        | none => none
        | some child => serializeTop fmt precision t.nodes fuel child

/-- The depth of nesting after the pieces `ps`, from depth `d`: an opening
parenthesis adds one, a closing one (with or without edge length) takes one
off; `none` when a parenthesis is closed at depth 0. -/
def parenDepth : List Piece → Nat → Option Nat
  | [], d => some d
  | Piece.lparen _ :: ps, d => parenDepth ps (d + 1)
  | Piece.rparen _ :: ps, d => if d = 0 then none else parenDepth ps (d - 1)
  | Piece.rparenLen _ _ :: ps, d => if d = 0 then none else parenDepth ps (d - 1)
  | _ :: ps, d => parenDepth ps d

/-- The leaves written among the pieces, in order: the node and the label. -/
def tipsOf : List Piece → List (Nat × Int)
  | [] => []
  | Piece.tip nd number _ :: ps => (nd, number) :: tipsOf ps
  | _ :: ps => tipsOf ps

/-- The leaves among the nodes `l` (a part of the preorder cache), in the order
of `l`, each with its label `number + 1`. -/
def leafLabels (nodes : List Node) (l : List Nat) : List (Nat × Int) :=
  l.filterMap (fun nd =>
    match nodes[nd]? with
    | some node => if node.left_child.isSome then none else some (nd, node.number + 1)
    | none => none)

end serializer

/-! ## The rule of the pops in `makeNewick` -/

section pop_rule

/-- Whether a piece follows the rule of the pops for the tree with root pointer
`root`: a bare `")"` is for a node without right sibling whose parent is the
root (the pop leaves the stack empty), and a text `"):<len>"` is for a node that
has a right sibling or whose parent is not the root, with that node's own edge
length.  Every other piece follows the rule. -/
def popRule (nodes : List Node) (root : Option Nat) : Piece → Bool
  | Piece.rparen nd =>
    match nodes[nd]? with
    | some node => decide (node.right_sib = none ∧ node.parent = root)
    | none => false
  | Piece.rparenLen nd len =>
    match nodes[nd]? with
    | some node =>
      decide (len = node.edge_length ∧ ¬ (node.right_sib = none ∧ node.parent = root))
    | none => false
  | _ => true

end pop_rule

/-! ## Double arithmetic

Where a claim depends on the rounding of `double` operations or on NaN, the
operations are modelled on the values of the type: a finite `double` is the
rational it denotes, and each arithmetic operation rounds its exact result to
the nearest `double` (53 significant bits, ties to even).  Results outside the
normal range of the type (subnormal numbers, overflow to infinity) are not
modelled. -/

section doubles

variable {T : Type}

/-- The integer nearest to `m`, the even one of the two when `m` is half-way
between two integers. -/
def roundTiesEven (m : ℚ) : Int :=
  if m - (⌊m⌋ : ℚ) < 1 / 2 then ⌊m⌋
  else if 1 / 2 < m - (⌊m⌋ : ℚ) then ⌊m⌋ + 1
  else if ⌊m⌋ % 2 = 0 then ⌊m⌋ else ⌊m⌋ + 1

/-- The `double` nearest to `x` (round to nearest, ties to even): with `e` the
binary exponent of `x` (`2^e <= |x| < 2^(e+1)`), the multiple of `2^(e-52)`
nearest to `x`. -/
def roundDouble (x : ℚ) : ℚ :=
  if x = 0 then 0
  else
    (roundTiesEven (x / (2 : ℚ) ^ (Int.log 2 |x| - 52)) : ℚ) *
      (2 : ℚ) ^ (Int.log 2 |x| - 52)

/-- The product `a * b` of two `double` values. -/
def mulDouble (a b : ℚ) : ℚ := roundDouble (a * b)

/-- The sum `a + b` of two `double` values. -/
def addDouble (a b : ℚ) : ℚ := roundDouble (a + b)

/-- The quotient `a / b` of two `double` values, for `b` other than zero. -/
def divDouble (a b : ℚ) : ℚ := roundDouble (a / b)

/-- The loop of `Strom::calcHeatingPowers` in `double` arithmetic:
`h = 1.0/(1.0 + _heating_lambda*i++)`, the counter `i` being converted to
`double` (exactly, as it is below 2^32). -/
def calcHeatingPowersLoopDouble (heating_lambda : ℚ) : List ℚ → Nat → List ℚ
  | [], _ => []
  | _ :: hs, i =>
    divDouble 1 (addDouble 1 (mulDouble heating_lambda (i : ℚ))) ::
      calcHeatingPowersLoopDouble heating_lambda hs ((i + 1) % UINT_MOD)

/-- `Strom::calcHeatingPowers` in `double` arithmetic. -/
def calcHeatingPowersDouble (s : Strom T) : Strom T :=
  { s with
    heating_powers := calcHeatingPowersLoopDouble s.heating_lambda s.heating_powers 0 }

/-- The part of `Strom::run` that builds the ensemble (see `setupChains`), with
`calcHeatingPowers()` in `double` arithmetic. -/
def setupChainsDouble (fresh : Chain T) (start_tree : T) (s : Strom T) : Option (Strom T) :=
  let s1 : Strom T :=
    { s with
      chains := resizeChains s.num_chains fresh s.chains
      swaps := assignSwaps s.num_chains }
  let s2 : Strom T := { s1 with heating_powers := List.replicate s1.num_chains 1 }
  initChains start_tree (calcHeatingPowersDouble s2)

/-- A value of type `double` as the option parser can store it: a number or NaN
(`--heatfactor nan`). -/
inductive DoubleValue where
  | nan
  | num (x : ℚ)
  deriving DecidableEq

/-- The comparison `a <= b` of two `double` values: false when one is NaN. -/
def DoubleValue.le : DoubleValue → DoubleValue → Bool
  | DoubleValue.num x, DoubleValue.num y => decide (x ≤ y)
  | _, _ => false

/-- The comparison `a > b` of two `double` values: false when one is NaN. -/
def DoubleValue.gt : DoubleValue → DoubleValue → Bool
  | DoubleValue.num x, DoubleValue.num y => decide (x > y)
  | _, _ => false

/-- Whether a `double` value is a real number in the interval `(0.0, 1.0]`. -/
def DoubleValue.inUnitInterval : DoubleValue → Bool
  | DoubleValue.num x => decide (0 < x ∧ x ≤ 1)
  | DoubleValue.nan => false

/-- The validation part of `Strom::processCommandLineOptions` (see
`processCommandLineOptions`) with the member `_heating_lambda` as a `double`
that may be NaN: `heating_lambda` is its value, and the field of that name in
`s` is not read.  The test of line 178 is
`_heating_lambda <= 0.0 || _heating_lambda > 1.0`. -/
def processCommandLineOptionsDouble (s : Strom T) (heating_lambda : DoubleValue) :
    Except String (Strom T) :=
  let sum_freqs : ℚ := s.state_frequencies.foldl (fun a b => a + b) 0
  match normalizeLoop "all statefreq entries must be positive real numbers" sum_freqs
      s.state_frequencies with
  | .error e => .error e
  | .ok freqs =>
    let sum_xchg : ℚ := s.exchangeabilities.foldl (fun a b => a + b) 0
    match normalizeLoop "all rmatrix entries must be positive real numbers" sum_xchg
        s.exchangeabilities with
    | .error e => .error e
    | .ok xchg =>
      if s.gamma_shape ≤ 0 then .error "gamma shape must be a positive real number"
      else if s.num_categ < 1 then .error "ncateg must be a positive integer greater than 0"
      else if s.num_chains < 1 then
        .error "nchains must be a positive integer greater than 0"
      else if (heating_lambda.le (DoubleValue.num 0) || heating_lambda.gt (DoubleValue.num 1))
          = true then
        .error "heatfactor must be a real number in the interval (0.0,1.0]"
      else .ok { s with state_frequencies := freqs, exchangeabilities := xchg }

/-- The `double` nearest to 1e-17, the value that `--heatfactor 1e-17` stores:
6490371073168535 * 2^-109. -/
def heatFactorTiny : ℚ := 6490371073168535 / 649037107316853453566312041152512

/-- The `Strom` object after the options `--nchains 2 --heatfactor 1e-17` have
been parsed (every other option at its default). -/
def stromTiny : Strom Nat :=
  { stromDefaults with num_chains := 2, heating_lambda := heatFactorTiny }

end doubles

/-! ## Lemmas on the heating schedule -/

section schedule

variable {T : Type}

theorem UINT_MOD_pos : 0 < UINT_MOD := by decide

theorem calcHeatingPowersLoop_eq (lam : ℚ) (hs : List ℚ) (k : Nat) (hk : k < UINT_MOD) :
    calcHeatingPowersLoop lam hs k =
      (List.range hs.length).map
        (fun (i : Nat) => 1 / (1 + lam * (((k + i) % UINT_MOD : Nat) : ℚ))) := by
  induction hs generalizing k with
  | nil => simp [calcHeatingPowersLoop]
  | cons h hs ih =>
    rw [calcHeatingPowersLoop, ih _ (Nat.mod_lt _ UINT_MOD_pos)]
    simp only [List.length_cons, List.range_succ_eq_map, List.map_cons, List.map_map,
      Nat.add_zero, Nat.mod_eq_of_lt hk]
    congr 1
    apply List.map_congr_left
    intro i _
    simp only [Function.comp_apply]
    have : ((k + 1) % UINT_MOD + i) % UINT_MOD = (k + (i + 1)) % UINT_MOD := by
      rw [Nat.add_mod, Nat.mod_mod, ← Nat.add_mod]
      congr 1
      omega
    rw [this]

theorem calcHeatingPowers_eq_map (s : Strom T) (hu : s.heating_powers.length ≤ UINT_MOD) :
    (calcHeatingPowers s).heating_powers =
      (List.range s.heating_powers.length).map
        (fun (i : Nat) => 1 / (1 + s.heating_lambda * (i : ℚ))) := by
  unfold calcHeatingPowers
  simp only
  rw [calcHeatingPowersLoop_eq _ _ 0 UINT_MOD_pos]
  apply List.map_congr_left
  intro i hi
  have hi2 : i < s.heating_powers.length := List.mem_range.mp hi
  simp only [Nat.zero_add]
  rw [Nat.mod_eq_of_lt (by omega)]

theorem calcHeatingPowers_getElem (s : Strom T) (hu : s.heating_powers.length ≤ UINT_MOD)
    (i : Nat) (hi : i < s.heating_powers.length) :
    (calcHeatingPowers s).heating_powers[i]? =
      some (1 / (1 + s.heating_lambda * (i : ℚ))) := by
  rw [calcHeatingPowers_eq_map s hu, List.getElem?_map, List.getElem?_range hi]
  rfl

end schedule

/-! ## Lemmas on `swapChains` -/

section swap_lemmas

variable {T : Type}

theorem pickJ_spec (n i r : Nat) (hn : 2 ≤ n) (h2 : 2 * n - 2 < UINT_MOD)
    (hi : i ≤ n - 1) (hr : r ≤ n - 2) : pickJ n i r ≠ i ∧ pickJ n i r < n := by
  have hM : UINT_MOD = 4294967296 := rfl
  unfold pickJ
  rw [Nat.mod_eq_of_lt (by omega : i + 1 + r < UINT_MOD)]
  by_cases h : i + 1 + r < n
  · rw [Nat.mod_eq_of_lt h]
    omega
  · rw [Nat.mod_eq_sub_mod (by omega), Nat.mod_eq_of_lt (by omega : i + 1 + r - n < n)]
    omega

theorem tri_lt (n a b : Nat) (hab : a < b) (hb : b < n) :
    a * n + b < n * n ∧ b * n + a < n * n ∧ a * n + b < b * n + a := by
  have h1 : (a + 1) * n ≤ b * n := Nat.mul_le_mul_right n hab
  have h2 : (b + 1) * n ≤ n * n := Nat.mul_le_mul_right n hb
  have h3 : (a + 1) * n = a * n + n := by ring
  have h4 : (b + 1) * n = b * n + n := by ring
  omega

theorem tri_diag_lt (n r : Nat) (hr : r < n) : r * n + r < n * n := by
  have h2 : (r + 1) * n ≤ n * n := Nat.mul_le_mul_right n hr
  have h3 : (r + 1) * n = r * n + n := by ring
  omega

theorem smallerOf_eq_min (i j : Nat) : smallerOf i j = min i j := by
  unfold smallerOf
  split <;> omega

theorem largerOf_eq_max (i j : Nat) : largerOf i j = max i j := by
  unfold largerOf
  split <;> omega

theorem cells_spec (n i j : Nat) (hi : i < n) (hj : j < n) (hij : i ≠ j)
    (hfit : n * n < UINT_MOD) :
    upperCell n i j = min i j * n + max i j ∧ lowerCell n i j = max i j * n + min i j ∧
    upperCell n i j < n * n ∧ lowerCell n i j < n * n ∧
    upperCell n i j < lowerCell n i j := by
  have hlt : min i j < max i j := by omega
  have hmax : max i j < n := by omega
  obtain ⟨h1, h2, h3⟩ := tri_lt n (min i j) (max i j) hlt hmax
  unfold upperCell lowerCell
  rw [smallerOf_eq_min, largerOf_eq_max, Nat.mod_eq_of_lt (by omega),
    Nat.mod_eq_of_lt (by omega)]
  exact ⟨rfl, rfl, h1, h2, h3⟩

theorem succ_mod_ne (c : Nat) : (c + 1) % UINT_MOD ≠ c := by
  have hM : UINT_MOD = 4294967296 := rfl
  rw [hM]
  omega

theorem swapChains_reject_eq (LL LP : Chain T → ℚ) (s : Strom T) (i r : Nat) (logu : ℚ)
    (c : Nat) (ci cj : Chain T)
    (hn1 : s.num_chains ≠ 1) (hn0 : s.num_chains ≠ 0)
    (hij : i ≠ pickJ s.num_chains i r) (hi : i < s.num_chains)
    (hj : pickJ s.num_chains i r < s.num_chains)
    (hc : s.swaps[upperCell s.num_chains i (pickJ s.num_chains i r)]? = some c)
    (hci : s.chains[i]? = some ci) (hcj : s.chains[pickJ s.num_chains i r]? = some cj)
    (hrej : ¬ logu < logROf LL LP ci cj) :
    swapChains LL LP s i r logu =
      some { s with
        swaps := s.swaps.set (upperCell s.num_chains i (pickJ s.num_chains i r))
          ((c + 1) % UINT_MOD) } := by
  unfold logROf at hrej
  simp only [swapChains, hn1, hn0, if_false, hij, hi, hj, incrCell, hc, hci, hcj, hrej,
    ne_eq, not_false_eq_true, and_self, not_true_eq_false]

theorem swapChains_accept_eq (LL LP : Chain T → ℚ) (s : Strom T) (i r : Nat) (logu : ℚ)
    (c d : Nat) (ci cj : Chain T)
    (hn1 : s.num_chains ≠ 1) (hn0 : s.num_chains ≠ 0)
    (hij : i ≠ pickJ s.num_chains i r) (hi : i < s.num_chains)
    (hj : pickJ s.num_chains i r < s.num_chains)
    (hc : s.swaps[upperCell s.num_chains i (pickJ s.num_chains i r)]? = some c)
    (hci : s.chains[i]? = some ci) (hcj : s.chains[pickJ s.num_chains i r]? = some cj)
    (hacc : logu < logROf LL LP ci cj)
    (hd : (s.swaps.set (upperCell s.num_chains i (pickJ s.num_chains i r))
      ((c + 1) % UINT_MOD))[lowerCell s.num_chains i (pickJ s.num_chains i r)]? = some d) :
    swapChains LL LP s i r logu =
      some { s with
        swaps := (s.swaps.set (upperCell s.num_chains i (pickJ s.num_chains i r))
          ((c + 1) % UINT_MOD)).set (lowerCell s.num_chains i (pickJ s.num_chains i r))
          ((d + 1) % UINT_MOD)
        chains := (s.chains.set i (ci.withTemperOf cj)).set (pickJ s.num_chains i r)
          (cj.withTemperOf ci) } := by
  unfold logROf at hacc
  simp only [swapChains, hn1, hn0, if_false, hij, hi, hj, incrCell, hc, hci, hcj, hacc,
    ne_eq, not_false_eq_true, and_self, not_true_eq_false, if_true, hd, updateChain]
  generalize pickJ s.num_chains i r = j at *
  have hil : i < s.chains.length := (List.getElem?_eq_some.mp hci).1
  have hjl : j < s.chains.length := (List.getElem?_eq_some.mp hcj).1
  have hji : ¬ j = i := fun h => hij h.symm
  have hij2 : ¬ i = j := hij
  simp only [List.getElem?_set, hji, hij2, if_false, if_true, hci, hcj, hil, hjl,
    List.length_set, Chain.getLambdas, Chain.getHeatingPower, Chain.setHeatingPower,
    Chain.setLambdas]
  congr 2
  apply List.ext_getElem?
  intro k
  simp only [List.getElem?_set, List.length_set, hil, hjl, if_true, Chain.withTemperOf]
  by_cases hk : j = k
  · subst hk
    simp [hij2]
  · by_cases hk2 : i = k
    · subst hk2
      simp [hk]
    · simp [hk, hk2]

theorem swapChains_inv (LL LP : Chain T → ℚ) (s s1 : Strom T) (i r : Nat) (logu : ℚ)
    (hn1 : s.num_chains ≠ 1) (h : swapChains LL LP s i r logu = some s1) :
    s.num_chains ≠ 0 ∧ i ≠ pickJ s.num_chains i r ∧ i < s.num_chains ∧
    pickJ s.num_chains i r < s.num_chains ∧
    ∃ c ci cj, s.swaps[upperCell s.num_chains i (pickJ s.num_chains i r)]? = some c ∧
      s.chains[i]? = some ci ∧ s.chains[pickJ s.num_chains i r]? = some cj ∧
      (logu < logROf LL LP ci cj →
        ∃ d, (s.swaps.set (upperCell s.num_chains i (pickJ s.num_chains i r))
          ((c + 1) % UINT_MOD))[lowerCell s.num_chains i (pickJ s.num_chains i r)]? = some d) := by
  unfold swapChains at h
  rw [if_neg hn1] at h
  split at h
  · cases h
  rename_i hn0
  simp only at h
  split at h
  · cases h
  rename_i hassert
  rw [not_not] at hassert
  obtain ⟨hij, hi, hj⟩ := hassert
  refine ⟨hn0, hij, hi, hj, ?_⟩
  cases hc : s.swaps[upperCell s.num_chains i (pickJ s.num_chains i r)]? with
  | none => simp [incrCell, hc] at h
  | some c =>
    cases hci : s.chains[i]? with
    | none => simp [incrCell, hc, hci] at h
    | some ci =>
      cases hcj : s.chains[pickJ s.num_chains i r]? with
      | none => simp [incrCell, hc, hci, hcj] at h
      | some cj =>
        refine ⟨c, ci, cj, rfl, rfl, rfl, ?_⟩
        intro hacc
        unfold logROf at hacc
        cases hd : (s.swaps.set (upperCell s.num_chains i (pickJ s.num_chains i r))
          ((c + 1) % UINT_MOD))[lowerCell s.num_chains i (pickJ s.num_chains i r)]? with
        | none => simp [incrCell, hc, hci, hcj, hacc, hd] at h
        | some d => exact ⟨d, rfl⟩

theorem swapChains_total (LL LP : Chain T → ℚ) (s : Strom T) (i r : Nat) (logu : ℚ)
    (hwf : s.WellFormed) (hn : 2 ≤ s.num_chains)
    (hi : i ≤ s.num_chains - 1) (hr : r ≤ s.num_chains - 2) :
    ∃ c d ci cj,
      s.swaps[upperCell s.num_chains i (pickJ s.num_chains i r)]? = some c ∧
      s.swaps[lowerCell s.num_chains i (pickJ s.num_chains i r)]? = some d ∧
      s.chains[i]? = some ci ∧ s.chains[pickJ s.num_chains i r]? = some cj ∧
      swapChains LL LP s i r logu =
        some (if logu < logROf LL LP ci cj then
          acceptedState s i (pickJ s.num_chains i r)
            (upperCell s.num_chains i (pickJ s.num_chains i r))
            (lowerCell s.num_chains i (pickJ s.num_chains i r)) c d ci cj
        else rejectedState s (upperCell s.num_chains i (pickJ s.num_chains i r)) c) := by
  obtain ⟨hcl, hsl, hfit⟩ := hwf
  have hM : UINT_MOD = 4294967296 := rfl
  have h2n : 2 * s.num_chains ≤ s.num_chains * s.num_chains := Nat.mul_le_mul_right _ hn
  have h2 : 2 * s.num_chains - 2 < UINT_MOD := by omega
  obtain ⟨hji, hj⟩ := pickJ_spec s.num_chains i r hn h2 hi hr
  have hi2 : i < s.num_chains := by omega
  have hij : i ≠ pickJ s.num_chains i r := fun h => hji h.symm
  obtain ⟨-, -, hu, hl, hul⟩ := cells_spec s.num_chains i _ hi2 hj hij hfit
  have hus : upperCell s.num_chains i (pickJ s.num_chains i r) < s.swaps.length := by omega
  have hls : lowerCell s.num_chains i (pickJ s.num_chains i r) < s.swaps.length := by omega
  have hil : i < s.chains.length := by omega
  have hjl : pickJ s.num_chains i r < s.chains.length := by omega
  refine ⟨s.swaps[upperCell s.num_chains i (pickJ s.num_chains i r)],
    s.swaps[lowerCell s.num_chains i (pickJ s.num_chains i r)],
    s.chains[i], s.chains[pickJ s.num_chains i r],
    List.getElem?_eq_getElem hus, List.getElem?_eq_getElem hls,
    List.getElem?_eq_getElem hil, List.getElem?_eq_getElem hjl, ?_⟩
  by_cases hacc : logu < logROf LL LP s.chains[i] s.chains[pickJ s.num_chains i r]
  · rw [if_pos hacc]
    apply swapChains_accept_eq LL LP s i r logu _ _ _ _ (by omega) (by omega) hij hi2 hj
      (List.getElem?_eq_getElem hus) (List.getElem?_eq_getElem hil)
      (List.getElem?_eq_getElem hjl) hacc
    rw [List.getElem?_set_ne (by omega)]
    exact List.getElem?_eq_getElem hls
  · rw [if_neg hacc]
    exact swapChains_reject_eq LL LP s i r logu _ _ _ (by omega) (by omega) hij hi2 hj
      (List.getElem?_eq_getElem hus) (List.getElem?_eq_getElem hil)
      (List.getElem?_eq_getElem hjl) hacc

/-- Every completed call of `swapChains` on more than one chain ends in the
rejected or in the accepted state of the selected pair. -/
theorem swapChains_cases (LL LP : Chain T → ℚ) (s s1 : Strom T) (i r : Nat) (logu : ℚ)
    (hn1 : s.num_chains ≠ 1) (h : swapChains LL LP s i r logu = some s1) :
    i ≠ pickJ s.num_chains i r ∧ i < s.num_chains ∧ pickJ s.num_chains i r < s.num_chains ∧
    ∃ c ci cj, s.swaps[upperCell s.num_chains i (pickJ s.num_chains i r)]? = some c ∧
      s.chains[i]? = some ci ∧ s.chains[pickJ s.num_chains i r]? = some cj ∧
      ((¬ logu < logROf LL LP ci cj ∧
          s1 = rejectedState s (upperCell s.num_chains i (pickJ s.num_chains i r)) c) ∨
        (logu < logROf LL LP ci cj ∧ ∃ d,
          (s.swaps.set (upperCell s.num_chains i (pickJ s.num_chains i r))
            ((c + 1) % UINT_MOD))[lowerCell s.num_chains i (pickJ s.num_chains i r)]? =
              some d ∧
          s1 = acceptedState s i (pickJ s.num_chains i r)
            (upperCell s.num_chains i (pickJ s.num_chains i r))
            (lowerCell s.num_chains i (pickJ s.num_chains i r)) c d ci cj)) := by
  obtain ⟨hn0, hij, hi, hj, c, ci, cj, hc, hci, hcj, hd⟩ :=
    swapChains_inv LL LP s s1 i r logu hn1 h
  refine ⟨hij, hi, hj, c, ci, cj, hc, hci, hcj, ?_⟩
  by_cases hacc : logu < logROf LL LP ci cj
  · right
    obtain ⟨d, hd⟩ := hd hacc
    refine ⟨hacc, d, hd, ?_⟩
    have := swapChains_accept_eq LL LP s i r logu c d ci cj hn1 hn0 hij hi hj hc hci hcj hacc hd
    rw [h] at this
    exact Option.some.inj this
  · left
    refine ⟨hacc, ?_⟩
    have := swapChains_reject_eq LL LP s i r logu c ci cj hn1 hn0 hij hi hj hc hci hcj hacc
    rw [h] at this
    exact Option.some.inj this

theorem swap_entries_perm {α : Type} [DecidableEq α] (l : List α) (i j : Nat) (a b : α)
    (hij : i ≠ j) (ha : l[i]? = some a) (hb : l[j]? = some b) :
    ((l.set i b).set j a).Perm l := by
  obtain ⟨hil, hai⟩ := List.getElem?_eq_some.mp ha
  obtain ⟨hjl, hbj⟩ := List.getElem?_eq_some.mp hb
  rw [List.perm_iff_count]
  intro x
  have hjl2 : j < (l.set i b).length := by simpa using hjl
  rw [List.count_set _ _ _ _ hjl2, List.count_set _ _ _ _ hil,
    List.getElem_set_ne hij, hai, hbj]
  have h1 := List.boole_getElem_le_count x l i hil
  rw [hai] at h1
  split_ifs at h1 ⊢ <;> omega

theorem swapChains_frame (LL LP : Chain T → ℚ) (s s1 : Strom T) (i r : Nat) (logu : ℚ)
    (h : swapChains LL LP s i r logu = some s1) :
    s1.num_chains = s.num_chains ∧ s1.heating_lambda = s.heating_lambda ∧
    s1.chains.length = s.chains.length ∧ s1.swaps.length = s.swaps.length ∧
    (s1.chains.map Chain.heating_power).Perm (s.chains.map Chain.heating_power) := by
  by_cases hn1 : s.num_chains = 1
  · simp only [swapChains, hn1, if_true, Option.some.injEq] at h
    subst h
    exact ⟨rfl, rfl, rfl, rfl, List.Perm.refl _⟩
  · obtain ⟨hij, -, -, c, ci, cj, -, hci, hcj, hcase⟩ := swapChains_cases LL LP s s1 i r logu hn1 h
    rcases hcase with ⟨-, rfl⟩ | ⟨-, d, -, rfl⟩
    · simp [rejectedState]
    · refine ⟨rfl, rfl, by simp [acceptedState], by simp [acceptedState], ?_⟩
      simp only [acceptedState, List.map_set, Chain.withTemperOf]
      apply swap_entries_perm _ _ _ _ _ hij
      · rw [List.getElem?_map, hci]; rfl
      · rw [List.getElem?_map, hcj]; rfl

theorem swapChainsSeq_frame (ps : List (Proposal T)) (s s1 : Strom T)
    (h : swapChainsSeq s ps = some s1) :
    s1.num_chains = s.num_chains ∧ s1.heating_lambda = s.heating_lambda ∧
    s1.chains.length = s.chains.length ∧ s1.swaps.length = s.swaps.length ∧
    (s1.chains.map Chain.heating_power).Perm (s.chains.map Chain.heating_power) := by
  induction ps generalizing s with
  | nil =>
    simp only [swapChainsSeq, Option.some.injEq] at h
    subst h
    exact ⟨rfl, rfl, rfl, rfl, List.Perm.refl _⟩
  | cons p ps ih =>
    rw [swapChainsSeq] at h
    cases h1 : swapChains p.calcLogLikelihood p.calcLogJointPrior s p.i p.r p.logu with
    | none => simp [h1] at h
    | some s2 =>
      simp only [h1] at h
      obtain ⟨a1, a2, a3, a4, a5⟩ := swapChains_frame _ _ s s2 _ _ _ h1
      obtain ⟨b1, b2, b3, b4, b5⟩ := ih s2 h
      exact ⟨b1.trans a1, b2.trans a2, b3.trans a3, b4.trans a4, b5.trans a5⟩

end swap_lemmas

/-! ## Lemmas on the construction of the ensemble -/

section setup_lemmas

variable {T : Type}

theorem resizeChains_length (n : Nat) (fresh : Chain T) (cs : List (Chain T)) :
    (resizeChains n fresh cs).length = n := by
  simp only [resizeChains, List.length_append, List.length_take, List.length_replicate]
  omega

theorem initChainsLoop_eq (t : T) (hp : List ℚ) (cs : List (Chain T)) (k : Nat)
    (h1 : k + cs.length ≤ hp.length) (h2 : k + cs.length ≤ INT_MAX) :
    initChainsLoop t hp cs k = some (List.zipWith (Chain.initialised t) cs (hp.drop k)) := by
  induction cs generalizing k with
  | nil => simp [initChainsLoop]
  | cons c cs ih =>
    simp only [List.length_cons] at h1 h2
    have hk : k < hp.length := by omega
    rw [initChainsLoop, List.getElem?_eq_getElem hk]
    simp only
    rw [if_neg (by omega), ih (k + 1) (by omega) (by omega), List.drop_eq_getElem_cons hk]
    rfl

theorem zipWith_initialised_heat (t : T) (cs : List (Chain T)) (hp : List ℚ)
    (h : cs.length = hp.length) :
    (List.zipWith (Chain.initialised t) cs hp).map Chain.heating_power = hp := by
  induction cs generalizing hp with
  | nil =>
    cases hp with
    | nil => rfl
    | cons a hp => simp at h
  | cons c cs ih =>
    cases hp with
    | nil => simp at h
    | cons a hp =>
      simp only [List.length_cons, Nat.add_right_cancel_iff] at h
      simp only [List.zipWith_cons_cons, List.map_cons, ih hp h]
      rfl

theorem setupChains_eq_built (fresh : Chain T) (t : T) (s : Strom T)
    (hn : s.num_chains ≤ INT_MAX) :
    setupChains fresh t s = some (builtEnsemble fresh t s) := by
  show setupChains fresh t s =
    some { s with
      chains := List.zipWith (Chain.initialised t) (resizeChains s.num_chains fresh s.chains)
        (schedule s.num_chains s.heating_lambda)
      swaps := assignSwaps s.num_chains
      heating_powers := schedule s.num_chains s.heating_lambda }
  have hM : UINT_MOD = 4294967296 := rfl
  have hI : INT_MAX = 2147483647 := rfl
  unfold setupChains initChains
  simp only
  have hs : (calcHeatingPowers
      ({ s with
          chains := resizeChains s.num_chains fresh s.chains
          swaps := assignSwaps s.num_chains
          heating_powers := List.replicate s.num_chains 1 } : Strom T)).heating_powers =
      schedule s.num_chains s.heating_lambda := by
    rw [calcHeatingPowers_eq_map _ (by simp only [List.length_replicate]; omega)]
    simp [schedule]
  rw [hs]
  have hc : (calcHeatingPowers
      ({ s with
          chains := resizeChains s.num_chains fresh s.chains
          swaps := assignSwaps s.num_chains
          heating_powers := List.replicate s.num_chains 1 } : Strom T)).chains =
      resizeChains s.num_chains fresh s.chains := rfl
  rw [hc, initChainsLoop_eq t _ _ 0 (by simp [schedule, resizeChains_length])
    (by simpa [resizeChains_length] using hn)]
  simp only [List.drop_zero]
  rw [← hs]
  rfl

theorem builtEnsemble_chain (fresh : Chain T) (t : T) (s : Strom T) (k : Nat)
    (hs : s.chains = []) (hk : k < s.num_chains) :
    (builtEnsemble fresh t s).chains[k]? =
      some (Chain.initialised t fresh (1 / (1 + s.heating_lambda * (k : ℚ)))) := by
  simp only [builtEnsemble, schedule, resizeChains, hs, List.take_nil, List.nil_append,
    List.length_nil, Nat.sub_zero]
  rw [List.getElem?_zipWith, List.getElem?_replicate, if_pos hk, List.getElem?_map,
    List.getElem?_range hk]
  rfl

theorem swapChains_none_of_no_cells (LL LP : Chain T → ℚ) (s : Strom T) (i r : Nat)
    (logu : ℚ) (hn1 : s.num_chains ≠ 1) (hs : s.swaps = []) :
    swapChains LL LP s i r logu = none := by
  unfold swapChains
  rw [if_neg hn1]
  split
  · rfl
  · simp only
    split
    · rfl
    · simp [incrCell, hs]

end setup_lemmas

section totality

variable {T : Type}

theorem initChainsLoop_bound (t : T) (hp : List ℚ) (cs cs1 : List (Chain T)) (k : Nat)
    (h : initChainsLoop t hp cs k = some cs1) : cs.length = 0 ∨ k + cs.length ≤ INT_MAX := by
  induction cs generalizing k cs1 with
  | nil => exact Or.inl rfl
  | cons c cs ih =>
    right
    rw [initChainsLoop] at h
    cases hk : hp[k]? with
    | none => simp [hk] at h
    | some x =>
      simp only [hk] at h
      split at h
      · cases h
      · rename_i hlt
        cases hrec : initChainsLoop t hp cs (k + 1) with
        | none => simp [hrec] at h
        | some cs2 =>
          rcases ih cs2 (k + 1) hrec with h0 | h0
          · simp only [List.length_cons, h0]; omega
          · simp only [List.length_cons]; omega

theorem setupChains_inv (fresh : Chain T) (t : T) (s s0 : Strom T)
    (h : setupChains fresh t s = some s0) : s0 = builtEnsemble fresh t s := by
  have hI : s.num_chains ≤ INT_MAX := by
    unfold setupChains initChains at h
    simp only at h
    split at h
    · cases h
    · rename_i cs hcs
      have hb := initChainsLoop_bound _ _ _ _ _ hcs
      have hl : (calcHeatingPowers
          ({ s with
              chains := resizeChains s.num_chains fresh s.chains
              swaps := assignSwaps s.num_chains
              heating_powers := List.replicate s.num_chains 1 } : Strom T)).chains.length =
          s.num_chains := by
        simp [calcHeatingPowers, resizeChains_length]
      rw [hl] at hb
      omega
  rw [setupChains_eq_built fresh t s hI] at h
  exact (Option.some.inj h).symm

theorem builtEnsemble_wf (fresh : Chain T) (t : T) (s : Strom T)
    (hfit : s.num_chains * s.num_chains < UINT_MOD) : (builtEnsemble fresh t s).WellFormed := by
  refine ⟨?_, ?_, hfit⟩
  · simp [builtEnsemble, schedule, resizeChains_length]
  · simp [builtEnsemble, assignSwaps, Nat.mod_eq_of_lt hfit]

theorem builtEnsemble_heats (fresh : Chain T) (t : T) (s : Strom T) :
    (builtEnsemble fresh t s).chains.map Chain.heating_power =
      schedule s.num_chains s.heating_lambda := by
  simp only [builtEnsemble]
  apply zipWith_initialised_heat
  simp [schedule, resizeChains_length]

theorem schedule_mem_range (n : Nat) (lam : ℚ) (hpos : 0 < lam) (x : ℚ)
    (hx : x ∈ schedule n lam) : 0 < x ∧ x ≤ 1 := by
  simp only [schedule, List.mem_map, List.mem_range] at hx
  obtain ⟨i, -, rfl⟩ := hx
  have hi0 : (0 : ℚ) ≤ (i : ℚ) := Nat.cast_nonneg i
  have hden : (1 : ℚ) ≤ 1 + lam * (i : ℚ) := by nlinarith
  constructor
  · positivity
  · rw [div_le_one (by linarith)]
    exact hden

theorem schedule_count_one (n : Nat) (lam : ℚ) (hn : 1 ≤ n) (hpos : 0 < lam) :
    (schedule n lam).count 1 = 1 := by
  obtain ⟨m, rfl⟩ : ∃ m, n = m + 1 := ⟨n - 1, by omega⟩
  simp only [schedule, List.range_succ_eq_map, List.map_cons, List.map_map]
  have h0 : (1 : ℚ) / (1 + lam * ((0 : Nat) : ℚ)) = 1 := by simp
  rw [h0, List.count_cons_self]
  have hz : List.count (1 : ℚ)
      (List.map ((fun (i : Nat) => 1 / (1 + lam * (i : ℚ))) ∘ Nat.succ) (List.range m)) = 0 := by
    rw [List.count_eq_zero]
    intro hmem
    simp only [List.mem_map, List.mem_range, Function.comp_apply] at hmem
    obtain ⟨i, -, hi⟩ := hmem
    have hi0 : (0 : ℚ) ≤ (i : ℚ) := Nat.cast_nonneg i
    have hden : (1 : ℚ) < 1 + lam * ((Nat.succ i : Nat) : ℚ) := by
      push_cast
      nlinarith
    have hlt : 1 / (1 + lam * ((Nat.succ i : Nat) : ℚ)) < 1 := by
      rw [div_lt_one (by linarith)]
      exact hden
    linarith
  rw [hz]

theorem swapChains_wf (LL LP : Chain T → ℚ) (s s1 : Strom T) (i r : Nat) (logu : ℚ)
    (hwf : s.WellFormed) (h : swapChains LL LP s i r logu = some s1) : s1.WellFormed := by
  obtain ⟨a1, -, a3, a4, -⟩ := swapChains_frame LL LP s s1 i r logu h
  obtain ⟨h1, h2, h3⟩ := hwf
  exact ⟨by rw [a3, a1, h1], by rw [a4, a1, h2], by rw [a1]; exact h3⟩

theorem swapChainsSeq_total (ps : List (Proposal T)) (s : Strom T) (hwf : s.WellFormed)
    (hn : 2 ≤ s.num_chains)
    (hd : ∀ p ∈ ps, p.i ≤ s.num_chains - 1 ∧ p.r ≤ s.num_chains - 2) :
    ∃ s1, swapChainsSeq s ps = some s1 := by
  induction ps generalizing s with
  | nil => exact ⟨s, rfl⟩
  | cons p ps ih =>
    obtain ⟨c, d, ci, cj, -, -, -, -, h⟩ :=
      swapChains_total p.calcLogLikelihood p.calcLogJointPrior s p.i p.r p.logu hwf hn
        (hd p (List.mem_cons_self _ _)).1 (hd p (List.mem_cons_self _ _)).2
    have hwf2 := swapChains_wf _ _ _ _ _ _ _ hwf h
    have hnc := (swapChains_frame _ _ _ _ _ _ _ h).1
    obtain ⟨s1, hs1⟩ := ih _ hwf2 (by rw [hnc]; exact hn)
      (fun q hq => by rw [hnc]; exact hd q (List.mem_cons_of_mem _ hq))
    exact ⟨s1, by rw [swapChainsSeq, h]; exact hs1⟩

theorem pair_selection_total (LL LP : Chain T → ℚ) (s : Strom T) (i r : Nat) (logu : ℚ)
    (hwf : s.WellFormed) (hn : 2 ≤ s.num_chains)
    (hi : i ≤ s.num_chains - 1) (hr : r ≤ s.num_chains - 2) :
    ∃ s1, swapChains LL LP s i r logu = some s1 := by
  obtain ⟨c, d, ci, cj, -, -, -, -, h⟩ := swapChains_total LL LP s i r logu hwf hn hi hr
  exact ⟨_, h⟩

end totality

/-! ## Facts about the concrete inputs -/

section inputs

theorem ensemble3_wf : ensemble3.WellFormed := ⟨rfl, rfl, by decide⟩

theorem proposals3_draws (n : Nat) (hn : 3 ≤ n) :
    ∀ p ∈ proposals3, p.i ≤ n - 1 ∧ p.r ≤ n - 2 := by
  intro p hp
  simp only [proposals3, List.mem_cons, List.mem_singleton, List.not_mem_nil, or_false] at hp
  rcases hp with rfl | rfl
  · exact ⟨by simp, by simp⟩
  · constructor
    · show 2 ≤ n - 1
      omega
    · show 1 ≤ n - 2
      omega

theorem ensemble2_step (c : Nat) :
    swapChains demoLogLikelihood demoLogJointPrior
        ({ ensemble2 with swaps := [0, c, 0, 0] } : Strom Nat) 0 0 (-1) =
      some ({ ensemble2 with swaps := [0, (c + 1) % UINT_MOD, 0, 0] } : Strom Nat) := by
  have h := swapChains_reject_eq demoLogLikelihood demoLogJointPrior
    ({ ensemble2 with swaps := [0, c, 0, 0] } : Strom Nat) 0 0 (-1) c
    { tree := 0, heating_power := 1, lambdas := [], tuning := true }
    { tree := 3, heating_power := 2 / 3, lambdas := [], tuning := true }
    (by show (2 : Nat) ≠ 1; decide) (by show (2 : Nat) ≠ 0; decide)
    (by show 0 ≠ pickJ 2 0 0; decide) (by show 0 < 2; decide)
    (by show pickJ 2 0 0 < 2; decide) rfl rfl rfl
    (by norm_num [logROf, swapLogR, Chain.getHeatingPower, demoLogLikelihood,
      demoLogJointPrior])
  rw [h]
  rfl

theorem ensemble2_seq (k c : Nat) (hc : c < UINT_MOD) :
    swapChainsSeq ({ ensemble2 with swaps := [0, c, 0, 0] } : Strom Nat)
        (List.replicate k proposal01) =
      some ({ ensemble2 with swaps := [0, (c + k) % UINT_MOD, 0, 0] } : Strom Nat) := by
  induction k generalizing c with
  | zero => simp [swapChainsSeq, Nat.mod_eq_of_lt hc]
  | succ k ih =>
    rw [List.replicate_succ, swapChainsSeq]
    have hs := ensemble2_step c
    simp only [proposal01] at hs ⊢
    rw [hs]
    simp only
    have := ih ((c + 1) % UINT_MOD) (Nat.mod_lt _ UINT_MOD_pos)
    simp only [proposal01] at this
    rw [this]
    have he : ((c + 1) % UINT_MOD + k) % UINT_MOD = (c + (k + 1)) % UINT_MOD := by
      rw [Nat.add_mod, Nat.mod_mod, ← Nat.add_mod]
      congr 1
      omega
    rw [he]

theorem assignSwaps_65536 : assignSwaps 65536 = [] := by decide

end inputs

/-! ## The heating schedule (C4, C5) and the swap log-ratio (C10) -/

section claims_schedule

variable {T : Type}

/-- C4: for a schedule vector of `n >= 1` entries (`n` an `unsigned`) and every
heating lambda, `calcHeatingPowers` stores `1/(1 + lambda*i)` at every index
`i < n`; entry 0 is exactly 1; and the whole result is the list of these
values, a function of `(n, lambda)` alone. -/
theorem calcHeatingPowers_formula (s : Strom T)
    (hlen : s.heating_powers.length = s.num_chains) (hn : 1 ≤ s.num_chains)
    (hu : s.num_chains < UINT_MOD) :
    (∀ i, i < s.num_chains →
        (calcHeatingPowers s).heating_powers[i]? =
          some (1 / (1 + s.heating_lambda * (i : ℚ)))) ∧
    (calcHeatingPowers s).heating_powers[0]? = some 1 ∧
    (calcHeatingPowers s).heating_powers =
      (List.range s.num_chains).map
        (fun (i : Nat) => 1 / (1 + s.heating_lambda * (i : ℚ))) := by
  have hu2 : s.heating_powers.length ≤ UINT_MOD := by omega
  refine ⟨?_, ?_, ?_⟩
  · intro i hi
    exact calcHeatingPowers_getElem s hu2 i (by omega)
  · rw [calcHeatingPowers_getElem s hu2 0 (by omega)]
    simp
  · rw [calcHeatingPowers_eq_map s hu2, hlen]

/-- Witness of C4: three chains and heating lambda 0.2, as in the source comment. -/
theorem calcHeatingPowers_formula_witness :
    (calcHeatingPowers
        ({ num_chains := 3, heating_lambda := 1 / 5, heating_powers := [1, 1, 1] } :
          Strom Unit)).heating_powers = [1, 5 / 6, 5 / 7] := by
  have h := (calcHeatingPowers_formula
    ({ num_chains := 3, heating_lambda := 1 / 5, heating_powers := [1, 1, 1] } : Strom Unit)
    rfl (by decide) (by decide)).2.2
  rw [h]
  norm_num [List.range_succ]

/-- C5: for more than one chain and heating lambda in `(0, 1]`, the heating
powers computed by `calcHeatingPowers` are strictly decreasing in the chain
index: entry `i+1` is smaller than entry `i` whenever `i+1 < n`. -/
theorem calcHeatingPowers_strictly_decreasing (s : Strom T)
    (hlen : s.heating_powers.length = s.num_chains) (_hn : 1 < s.num_chains)
    (hu : s.num_chains < UINT_MOD)
    (hpos : 0 < s.heating_lambda) (_hle : s.heating_lambda ≤ 1) :
    ∀ i, i + 1 < s.num_chains →
      ∃ a b, (calcHeatingPowers s).heating_powers[i]? = some a ∧
        (calcHeatingPowers s).heating_powers[i + 1]? = some b ∧ b < a := by
  intro i hi
  have hu2 : s.heating_powers.length ≤ UINT_MOD := by omega
  refine ⟨_, _, calcHeatingPowers_getElem s hu2 i (by omega),
    calcHeatingPowers_getElem s hu2 (i + 1) (by omega), ?_⟩
  have hi0 : (0 : ℚ) ≤ (i : ℚ) := Nat.cast_nonneg i
  have hden : (0 : ℚ) < 1 + s.heating_lambda * (i : ℚ) := by positivity
  apply one_div_lt_one_div_of_lt hden
  push_cast
  nlinarith

/-- Witness of C5: three chains and heating lambda 0.2. -/
theorem calcHeatingPowers_strictly_decreasing_witness :
    ∃ a b,
      (calcHeatingPowers
        ({ num_chains := 3, heating_lambda := 1 / 5, heating_powers := [1, 1, 1] } :
          Strom Unit)).heating_powers[1]? = some a ∧
      (calcHeatingPowers
        ({ num_chains := 3, heating_lambda := 1 / 5, heating_powers := [1, 1, 1] } :
          Strom Unit)).heating_powers[1 + 1]? = some b ∧ b < a :=
  calcHeatingPowers_strictly_decreasing
    ({ num_chains := 3, heating_lambda := 1 / 5, heating_powers := [1, 1, 1] } : Strom Unit)
    rfl (by decide) (by decide) (by norm_num) (by norm_num) 1 (by decide)

/-- C10, as stated, fails: for powers 1 and 1/2 and log-kernels 0 and 2 the
log-ratio is 1, and with the roles of the two chains exchanged it is again 1,
not -1. -/
theorem swapLogR_roles_exchanged_not_neg :
    swapLogR (1 / 2) 2 1 0 ≠ - swapLogR 1 0 (1 / 2) 2 := by
  norm_num [swapLogR]

/-- C10, amended: recomputing the swap log-ratio with the roles of the two
chains exchanged yields the same value as the original `logR`. -/
theorem swapLogR_exchange (a Li b Lj : ℚ) :
    swapLogR b Lj a Li = swapLogR a Li b Lj := by
  unfold swapLogR
  ring

end claims_schedule

/-! ## Pair selection and the acceptance test (C1, C2, C3) -/

section claims_swap

variable {T : Type}

/-- C3, as stated, fails: with 65536 chains (so that 2n-2 is representable),
first draw 0 and second draw 0, the swap matrix allocated by
`_swaps.assign(_num_chains*_num_chains, 0)` has no cell at all, so the cell
`upper` (index 1) is not a valid index of it. -/
theorem pair_selection_cell_invalid :
    2 ≤ 65536 ∧ 2 * 65536 - 2 < UINT_MOD ∧ 0 ≤ 65536 - 1 ∧ 0 ≤ 65536 - 2 ∧
    upperCell 65536 0 (pickJ 65536 0 0) = 1 ∧ (assignSwaps 65536).length = 0 ∧
    ¬ upperCell 65536 0 (pickJ 65536 0 0) < (assignSwaps 65536).length := by
  decide

/-- C3, amended: for every `n >= 2` whose square is representable as an
`unsigned`, every first draw `i` in `[0, n-1]` and every second draw `r` in
`[0, n-2]`, the chosen `j = (i + 1 + r) % n` satisfies `j != i`, `i < n` and
`j < n`; the cells `upper` and `lower` are `min*n + max` and `max*n + min`, both
are valid indices of the swap matrix, which has `n*n` cells; and `swapChains`
completes on every well-formed ensemble of `n` chains. -/
theorem pair_selection_valid (n i r : Nat) (hn : 2 ≤ n) (hfit : n * n < UINT_MOD)
    (hi : i ≤ n - 1) (hr : r ≤ n - 2) :
    pickJ n i r ≠ i ∧ i < n ∧ pickJ n i r < n ∧
    upperCell n i (pickJ n i r) = min i (pickJ n i r) * n + max i (pickJ n i r) ∧
    lowerCell n i (pickJ n i r) = max i (pickJ n i r) * n + min i (pickJ n i r) ∧
    (assignSwaps n).length = n * n ∧
    upperCell n i (pickJ n i r) < (assignSwaps n).length ∧
    lowerCell n i (pickJ n i r) < (assignSwaps n).length ∧
    ∀ (LL LP : Chain T → ℚ) (s : Strom T) (logu : ℚ), s.num_chains = n → s.WellFormed →
      ∃ s1, swapChains LL LP s i r logu = some s1 := by
  have h2n : 2 * n ≤ n * n := Nat.mul_le_mul_right _ hn
  have hM : UINT_MOD = 4294967296 := rfl
  obtain ⟨hji, hj⟩ := pickJ_spec n i r hn (by omega) hi hr
  have hi2 : i < n := by omega
  obtain ⟨hu, hl, hu2, hl2, -⟩ := cells_spec n i _ hi2 hj (fun h => hji h.symm) hfit
  have hlen : (assignSwaps n).length = n * n := by
    simp [assignSwaps, Nat.mod_eq_of_lt hfit]
  refine ⟨hji, hi2, hj, hu, hl, hlen, by omega, by omega, ?_⟩
  intro LL LP s logu hs hwf
  subst hs
  obtain ⟨c, d, ci, cj, -, -, -, -, h⟩ := swapChains_total LL LP s i r logu hwf hn hi hr
  exact ⟨_, h⟩

/-- Witness of C3 (amended): three chains, draws 2 and 1, which select `j = 1`. -/
theorem pair_selection_valid_witness :
    pickJ 3 2 1 = 1 ∧ upperCell 3 2 (pickJ 3 2 1) = 5 ∧ lowerCell 3 2 (pickJ 3 2 1) = 7 ∧
    ∃ s1, swapChains demoLogLikelihood demoLogJointPrior ensemble3 2 1 (-1) = some s1 :=
  ⟨by decide, by decide, by decide,
    (pair_selection_valid 3 2 1 (by decide) (by decide) (by decide) (by decide)).2.2.2.2.2.2.2.2
      demoLogLikelihood demoLogJointPrior ensemble3 (-1) rfl ensemble3_wf⟩

/-- C1, as stated, fails: in the ensemble that `run` builds for 65536 chains the
swap matrix has no cell (its size `65536*65536` wraps to 0), so for the draws
`i = 0`, `r = 0` (pair 0, 1) and `logu = -1`, which is below `logR = 0`, the call
has no defined result and no accepted-swap cell is incremented. -/
theorem swapChains_accept_cell_missing :
    ∃ s ci cj, setupChains freshChain 0 strom65536 = some s ∧ s.num_chains = 65536 ∧
      s.chains[0]? = some ci ∧ s.chains[pickJ 65536 0 0]? = some cj ∧
      (-1 : ℚ) < (ci.heating_power - cj.heating_power) *
        ((demoLogLikelihood cj + demoLogJointPrior cj) -
          (demoLogLikelihood ci + demoLogJointPrior ci)) ∧
      s.swaps = [] ∧
      swapChains demoLogLikelihood demoLogJointPrior s 0 0 (-1) = none := by
  refine ⟨_, _, _, setupChains_eq_built freshChain 0 strom65536 (by decide), rfl,
    builtEnsemble_chain freshChain 0 strom65536 0 rfl (by decide),
    builtEnsemble_chain freshChain 0 strom65536 1 rfl (by decide), ?_, assignSwaps_65536, ?_⟩
  · norm_num [Chain.initialised, Chain.setHeatingPower, Chain.startTuning,
      Chain.setTreeFromNewick, demoLogLikelihood, demoLogJointPrior, freshChain]
  · exact swapChains_none_of_no_cells _ _ _ _ _ _ (by decide) assignSwaps_65536

/-- C1, amended: for every well-formed ensemble of `n >= 2` chains with `n*n`
representable as an `unsigned`, and every outcome of the three draws,
`swapChains` completes, and the accepted-swap cell `max(i,j)*n + min(i,j)` is
incremented by one (in `unsigned` arithmetic) if and only if
`logu < (heat_i - heat_j) * (logKernel_j - logKernel_i)`, the powers and kernels
being those of the chains before the call; otherwise that cell is unchanged. -/
theorem swapChains_accept_iff (LL LP : Chain T → ℚ) (s : Strom T) (i r : Nat) (logu : ℚ)
    (hwf : s.WellFormed) (hn : 2 ≤ s.num_chains)
    (hi : i ≤ s.num_chains - 1) (hr : r ≤ s.num_chains - 2) :
    ∃ s1 ci cj c, swapChains LL LP s i r logu = some s1 ∧
      s.chains[i]? = some ci ∧ s.chains[pickJ s.num_chains i r]? = some cj ∧
      s.swaps[max i (pickJ s.num_chains i r) * s.num_chains +
        min i (pickJ s.num_chains i r)]? = some c ∧
      (logu < (ci.heating_power - cj.heating_power) *
          ((LL cj + LP cj) - (LL ci + LP ci)) ↔
        s1.swaps[max i (pickJ s.num_chains i r) * s.num_chains +
          min i (pickJ s.num_chains i r)]? = some ((c + 1) % UINT_MOD)) ∧
      (¬ logu < (ci.heating_power - cj.heating_power) *
          ((LL cj + LP cj) - (LL ci + LP ci)) →
        s1.swaps[max i (pickJ s.num_chains i r) * s.num_chains +
          min i (pickJ s.num_chains i r)]? = some c) := by
  obtain ⟨c, d, ci, cj, hc, hd, hci, hcj, h⟩ := swapChains_total LL LP s i r logu hwf hn hi hr
  obtain ⟨hcl, hsl, hfit⟩ := hwf
  have h2n : 2 * s.num_chains ≤ s.num_chains * s.num_chains := Nat.mul_le_mul_right _ hn
  have hM : UINT_MOD = 4294967296 := rfl
  obtain ⟨hji, hj⟩ := pickJ_spec s.num_chains i r hn (by omega) hi hr
  obtain ⟨hu, hl, hu2, hl2, hul⟩ :=
    cells_spec s.num_chains i _ (by omega) hj (fun h => hji h.symm) hfit
  rw [← hl]
  have hls : lowerCell s.num_chains i (pickJ s.num_chains i r) < s.swaps.length := by omega
  by_cases hacc : logu < (ci.heating_power - cj.heating_power) *
      ((LL cj + LP cj) - (LL ci + LP ci))
  · have hacc2 : logu < logROf LL LP ci cj := hacc
    rw [if_pos hacc2] at h
    refine ⟨_, ci, cj, d, h, hci, hcj, hd, ?_, fun hne => absurd hacc hne⟩
    simp only [acceptedState, hacc, true_iff]
    rw [List.getElem?_set_eq_of_lt]
    simpa using hls
  · have hacc2 : ¬ logu < logROf LL LP ci cj := hacc
    rw [if_neg hacc2] at h
    have hrej : (rejectedState s (upperCell s.num_chains i (pickJ s.num_chains i r))
        c).swaps[lowerCell s.num_chains i (pickJ s.num_chains i r)]? = some d := by
      simp only [rejectedState]
      rw [List.getElem?_set_ne (by omega)]
      exact hd
    refine ⟨_, ci, cj, d, h, hci, hcj, hd, ?_, fun _ => hrej⟩
    rw [hrej]
    simp only [hacc, false_iff, Option.some.injEq]
    exact fun h => succ_mod_ne d h.symm

/-- Witness of C1 (amended): three chains, pair (0, 1), `logR = -1/6`; the draw
`logu = -1` is accepted and cell `1*3 + 0` goes from 0 to 1. -/
theorem swapChains_accept_iff_witness :
    ensemble3.WellFormed ∧ 2 ≤ ensemble3.num_chains ∧
    ∃ s1 ci cj c, swapChains demoLogLikelihood demoLogJointPrior ensemble3 0 0 (-1) = some s1 ∧
      ensemble3.chains[0]? = some ci ∧
      ensemble3.chains[pickJ ensemble3.num_chains 0 0]? = some cj ∧
      ensemble3.swaps[max 0 (pickJ ensemble3.num_chains 0 0) * ensemble3.num_chains +
        min 0 (pickJ ensemble3.num_chains 0 0)]? = some c ∧
      ((-1 : ℚ) < (ci.heating_power - cj.heating_power) *
          ((demoLogLikelihood cj + demoLogJointPrior cj) -
            (demoLogLikelihood ci + demoLogJointPrior ci)) ↔
        s1.swaps[max 0 (pickJ ensemble3.num_chains 0 0) * ensemble3.num_chains +
          min 0 (pickJ ensemble3.num_chains 0 0)]? = some ((c + 1) % UINT_MOD)) ∧
      (¬ (-1 : ℚ) < (ci.heating_power - cj.heating_power) *
          ((demoLogLikelihood cj + demoLogJointPrior cj) -
            (demoLogLikelihood ci + demoLogJointPrior ci)) →
        s1.swaps[max 0 (pickJ ensemble3.num_chains 0 0) * ensemble3.num_chains +
          min 0 (pickJ ensemble3.num_chains 0 0)]? = some c) :=
  ⟨ensemble3_wf, by decide,
    swapChains_accept_iff demoLogLikelihood demoLogJointPrior ensemble3 0 0 (-1)
      ensemble3_wf (by decide) (by decide) (by decide)⟩

/-- C2: for every accepted swap between chains `i` and `j` in `swapChains`
(a completed call on more than one chain whose draw `logu` is below `logR`),
afterwards chain `i` holds exactly the heating power and the lambdas that chain
`j` held before the call, and chain `j` holds exactly those chain `i` held. -/
theorem swapChains_accepted_exchange (LL LP : Chain T → ℚ) (s s1 : Strom T) (i r : Nat)
    (logu : ℚ) (ci cj : Chain T) (hn1 : s.num_chains ≠ 1)
    (h : swapChains LL LP s i r logu = some s1)
    (hci : s.chains[i]? = some ci) (hcj : s.chains[pickJ s.num_chains i r]? = some cj)
    (hacc : logu < (ci.getHeatingPower - cj.getHeatingPower) *
      ((LL cj + LP cj) - (LL ci + LP ci))) :
    ∃ ci1 cj1, s1.chains[i]? = some ci1 ∧ s1.chains[pickJ s.num_chains i r]? = some cj1 ∧
      ci1.getHeatingPower = cj.getHeatingPower ∧ ci1.getLambdas = cj.getLambdas ∧
      cj1.getHeatingPower = ci.getHeatingPower ∧ cj1.getLambdas = ci.getLambdas := by
  obtain ⟨hij, -, -, c, ci2, cj2, -, hci2, hcj2, hcase⟩ :=
    swapChains_cases LL LP s s1 i r logu hn1 h
  rw [hci] at hci2
  rw [hcj] at hcj2
  cases hci2
  cases hcj2
  have hil : i < s.chains.length := (List.getElem?_eq_some.mp hci).1
  have hjl : pickJ s.num_chains i r < s.chains.length := (List.getElem?_eq_some.mp hcj).1
  rcases hcase with ⟨hrej, -⟩ | ⟨-, d, -, rfl⟩
  · exact absurd hacc hrej
  · refine ⟨ci.withTemperOf cj, cj.withTemperOf ci, ?_, ?_, rfl, rfl, rfl, rfl⟩
    · simp only [acceptedState]
      rw [List.getElem?_set_ne (fun h => hij h.symm), List.getElem?_set_eq_of_lt _ hil]
    · simp only [acceptedState]
      rw [List.getElem?_set_eq_of_lt _ (by simpa using hjl)]

/-- Witness of C2: in the three-chain ensemble the proposal (0, 1) with
`logu = -1 < logR = -1/6` is accepted; chain 0 then holds power 5/6 and lambdas
`[1/3]`, chain 1 holds power 1 and lambdas `[1/2]`. -/
theorem swapChains_accepted_exchange_witness :
    ∃ s1 ci1 cj1,
      swapChains demoLogLikelihood demoLogJointPrior ensemble3 0 0 (-1) = some s1 ∧
      s1.chains[0]? = some ci1 ∧ s1.chains[pickJ ensemble3.num_chains 0 0]? = some cj1 ∧
      ci1.getHeatingPower = 5 / 6 ∧ ci1.getLambdas = [1 / 3] ∧
      cj1.getHeatingPower = 1 ∧ cj1.getLambdas = [1 / 2] := by
  obtain ⟨s1, h⟩ := (pair_selection_total demoLogLikelihood demoLogJointPrior ensemble3 0 0 (-1)
    ensemble3_wf (by decide) (by decide) (by decide))
  obtain ⟨ci1, cj1, h1, h2, h3, h4, h5, h6⟩ :=
    swapChains_accepted_exchange demoLogLikelihood demoLogJointPrior ensemble3 s1 0 0 (-1)
      { tree := 10, heating_power := 1, lambdas := [1 / 2], tuning := true }
      { tree := 11, heating_power := 5 / 6, lambdas := [1 / 3], tuning := true }
      (by decide) h rfl rfl
      (by norm_num [Chain.getHeatingPower, demoLogLikelihood, demoLogJointPrior])
  exact ⟨s1, ci1, cj1, h, h1, h2, h3, h4, h5, h6⟩

end claims_swap

/-! ## Swap statistics and frame properties (C7, C9) -/

section claims_frame

variable {T : Type}

/-- C7, as stated, fails: in the ensemble that `run` builds for 65536 chains the
swap matrix has no cell, so for the draws `i = 1`, `r = 0` (pair 1, 2) the call
has no defined result and no attempted-swap cell is incremented. -/
theorem swapChains_attempt_cell_missing :
    ∃ s, setupChains freshChain 0 strom65536 = some s ∧ 2 ≤ s.num_chains ∧
      1 ≤ s.num_chains - 1 ∧ 0 ≤ s.num_chains - 2 ∧ s.swaps.length = 0 ∧
      swapChains demoLogLikelihood demoLogJointPrior s 1 0 (-1) = none := by
  refine ⟨_, setupChains_eq_built freshChain 0 strom65536 (by decide), by decide, by decide,
    by decide, ?_, ?_⟩
  · exact congrArg List.length assignSwaps_65536
  · exact swapChains_none_of_no_cells _ _ _ _ _ _ (by decide) assignSwaps_65536

/-- C7, amended: for every well-formed ensemble of `n >= 2` chains with `n*n`
representable as an `unsigned`, each call of `swapChains` completes and adds one
(in `unsigned` arithmetic) to the upper-triangle cell `min(i,j)*n + max(i,j)` of
the selected pair, whether or not the swap is accepted; the matrix keeps its
size and every cell other than that one and the mirrored cell
`max(i,j)*n + min(i,j)` is unchanged. -/
theorem swapChains_attempt_count (LL LP : Chain T → ℚ) (s : Strom T) (i r : Nat) (logu : ℚ)
    (hwf : s.WellFormed) (hn : 2 ≤ s.num_chains)
    (hi : i ≤ s.num_chains - 1) (hr : r ≤ s.num_chains - 2) :
    ∃ s1 c, swapChains LL LP s i r logu = some s1 ∧
      min i (pickJ s.num_chains i r) < max i (pickJ s.num_chains i r) ∧
      s.swaps[min i (pickJ s.num_chains i r) * s.num_chains +
        max i (pickJ s.num_chains i r)]? = some c ∧
      s1.swaps[min i (pickJ s.num_chains i r) * s.num_chains +
        max i (pickJ s.num_chains i r)]? = some ((c + 1) % UINT_MOD) ∧
      s1.swaps.length = s.swaps.length ∧
      ∀ k, k ≠ min i (pickJ s.num_chains i r) * s.num_chains +
            max i (pickJ s.num_chains i r) →
          k ≠ max i (pickJ s.num_chains i r) * s.num_chains +
            min i (pickJ s.num_chains i r) →
          s1.swaps[k]? = s.swaps[k]? := by
  obtain ⟨c, d, ci, cj, hc, hd, hci, hcj, h⟩ := swapChains_total LL LP s i r logu hwf hn hi hr
  obtain ⟨hcl, hsl, hfit⟩ := hwf
  have h2n : 2 * s.num_chains ≤ s.num_chains * s.num_chains := Nat.mul_le_mul_right _ hn
  have hM : UINT_MOD = 4294967296 := rfl
  obtain ⟨hji, hj⟩ := pickJ_spec s.num_chains i r hn (by omega) hi hr
  obtain ⟨hu, hl, hu2, hl2, hul⟩ :=
    cells_spec s.num_chains i _ (by omega) hj (fun h => hji h.symm) hfit
  rw [← hl, ← hu]
  have hus : upperCell s.num_chains i (pickJ s.num_chains i r) < s.swaps.length := by omega
  refine ⟨_, c, h, by omega, hc, ?_, ?_, ?_⟩
  · split
    · simp only [acceptedState]
      rw [List.getElem?_set_ne (by omega), List.getElem?_set_eq_of_lt _ hus]
    · simp only [rejectedState]
      rw [List.getElem?_set_eq_of_lt _ hus]
  · split <;> simp [acceptedState, rejectedState]
  · intro k hk1 hk2
    split
    · simp only [acceptedState]
      rw [List.getElem?_set_ne (Ne.symm hk2), List.getElem?_set_ne (Ne.symm hk1)]
    · simp only [rejectedState]
      rw [List.getElem?_set_ne (Ne.symm hk1)]

/-- Witness of C7 (amended): the three-chain ensemble, draws 2 and 1 (pair 2, 1),
a rejected proposal. -/
theorem swapChains_attempt_count_witness :
    ensemble3.WellFormed ∧
    ∃ s1 c, swapChains demoLogLikelihood demoLogJointPrior ensemble3 2 1 (-1 / 10) = some s1 ∧
      min 2 (pickJ ensemble3.num_chains 2 1) < max 2 (pickJ ensemble3.num_chains 2 1) ∧
      ensemble3.swaps[min 2 (pickJ ensemble3.num_chains 2 1) * ensemble3.num_chains +
        max 2 (pickJ ensemble3.num_chains 2 1)]? = some c ∧
      s1.swaps[min 2 (pickJ ensemble3.num_chains 2 1) * ensemble3.num_chains +
        max 2 (pickJ ensemble3.num_chains 2 1)]? = some ((c + 1) % UINT_MOD) ∧
      s1.swaps.length = ensemble3.swaps.length ∧
      ∀ k, k ≠ min 2 (pickJ ensemble3.num_chains 2 1) * ensemble3.num_chains +
            max 2 (pickJ ensemble3.num_chains 2 1) →
          k ≠ max 2 (pickJ ensemble3.num_chains 2 1) * ensemble3.num_chains +
            min 2 (pickJ ensemble3.num_chains 2 1) →
          s1.swaps[k]? = ensemble3.swaps[k]? :=
  ⟨ensemble3_wf,
    swapChains_attempt_count demoLogLikelihood demoLogJointPrior ensemble3 2 1 (-1 / 10)
      ensemble3_wf (by decide) (by decide) (by decide)⟩

/-- C9: `swapChains` never changes a chain's tree: after any completed call,
accepted or rejected, the chains are as many as before and every chain's tree
is the one it had; chains other than the selected `i` and `j` are entirely
unchanged; and when the swap is rejected (`logu` is not below `logR`) no chain
changes at all. -/
theorem swapChains_trees_unchanged (LL LP : Chain T → ℚ) (s s1 : Strom T) (i r : Nat)
    (logu : ℚ) (h : swapChains LL LP s i r logu = some s1) :
    s1.chains.length = s.chains.length ∧
    s1.chains.map Chain.tree = s.chains.map Chain.tree ∧
    (∀ k, k ≠ i → k ≠ pickJ s.num_chains i r → s1.chains[k]? = s.chains[k]?) ∧
    ((∀ ci cj, s.chains[i]? = some ci → s.chains[pickJ s.num_chains i r]? = some cj →
        ¬ logu < (ci.getHeatingPower - cj.getHeatingPower) *
          ((LL cj + LP cj) - (LL ci + LP ci))) →
      s1.chains = s.chains) := by
  by_cases hn1 : s.num_chains = 1
  · simp only [swapChains, hn1, if_true, Option.some.injEq] at h
    subst h
    exact ⟨rfl, rfl, fun _ _ _ => rfl, fun _ => rfl⟩
  · obtain ⟨hij, -, -, c, ci, cj, -, hci, hcj, hcase⟩ :=
      swapChains_cases LL LP s s1 i r logu hn1 h
    rcases hcase with ⟨-, rfl⟩ | ⟨hacc, d, -, rfl⟩
    · exact ⟨rfl, rfl, fun _ _ _ => rfl, fun _ => rfl⟩
    · refine ⟨by simp [acceptedState], ?_, ?_, fun hrej => absurd hacc (hrej ci cj hci hcj)⟩
      · simp only [acceptedState, List.map_set, Chain.withTemperOf]
        apply List.ext_getElem?
        intro k
        simp only [List.getElem?_set, List.length_set, List.length_map, List.getElem?_map]
        split
        · rename_i hk
          subst hk
          split
          · rw [hcj]; rfl
          · rename_i hlt
            rw [List.getElem?_eq_none (by omega)]
            rfl
        · split
          · rename_i hk
            subst hk
            split
            · rw [hci]; rfl
            · rename_i hlt
              rw [List.getElem?_eq_none (by omega)]
              rfl
          · rfl
      · intro k hk1 hk2
        simp only [acceptedState]
        rw [List.getElem?_set_ne (Ne.symm hk2), List.getElem?_set_ne (Ne.symm hk1)]

/-- Witness of C9: an accepted swap of chains 0 and 1 of the three-chain
ensemble leaves the trees 10, 11, 12 in place and chain 2 untouched. -/
theorem swapChains_trees_unchanged_witness :
    ∃ s1, swapChains demoLogLikelihood demoLogJointPrior ensemble3 0 0 (-1) = some s1 ∧
      s1.chains.map Chain.tree = [10, 11, 12] ∧ s1.chains[2]? = ensemble3.chains[2]? := by
  obtain ⟨s1, h⟩ := (pair_selection_total demoLogLikelihood demoLogJointPrior ensemble3 0 0 (-1)
    ensemble3_wf (by decide) (by decide) (by decide))
  obtain ⟨-, h2, h3, -⟩ :=
    swapChains_trees_unchanged demoLogLikelihood demoLogJointPrior ensemble3 s1 0 0 (-1) h
  exact ⟨s1, h, h2, h3 2 (by decide) (by decide)⟩

end claims_frame

/-! ## Sums over the triangles of the swap matrix -/

section sums

variable {T : Type}

theorem index_inj (n r c a b : Nat) (hc : c < n) (hb : b < n)
    (h : r * n + c = a * n + b) : r = a ∧ c = b := by
  have hr : r = a := by
    rcases Nat.lt_trichotomy r a with hlt | heq | hgt
    · have h1 : (r + 1) * n ≤ a * n := Nat.mul_le_mul_right n hlt
      have h2 : (r + 1) * n = r * n + n := by ring
      omega
    · exact heq
    · have h1 : (a + 1) * n ≤ r * n := Nat.mul_le_mul_right n hgt
      have h2 : (a + 1) * n = a * n + n := by ring
      omega
  subst hr
  exact ⟨rfl, by omega⟩

theorem selSum_set (sel : Nat → Nat → Bool) (n : Nat) (swaps : List Nat) (a b x : Nat)
    (ha : a < n) (hb : b < n) (hx : swaps[a * n + b]? = some x) :
    selSum sel n (swaps.set (a * n + b) (x + 1)) =
      selSum sel n swaps + (if sel a b then 1 else 0) := by
  unfold selSum
  have hlen : a * n + b < swaps.length := (List.getElem?_eq_some.mp hx).1
  have key : ∀ r ∈ Finset.range n, ∀ c ∈ Finset.range n,
      (if sel r c then (swaps.set (a * n + b) (x + 1)).getD (r * n + c) 0 else 0) =
        (if sel r c then swaps.getD (r * n + c) 0 else 0) +
          (if a = r then (if b = c then (if sel a b then 1 else 0) else 0) else 0) := by
    intro r _ c hc
    have hc2 : c < n := Finset.mem_range.mp hc
    by_cases hrc : a * n + b = r * n + c
    · obtain ⟨h1, h2⟩ := index_inj n r c a b hc2 hb hrc.symm
      subst h1
      subst h2
      simp only [List.getD_eq_getElem?_getD, List.getElem?_set, if_true, hlen, hx,
        Option.getD_some]
      split <;> rfl
    · have hne : ¬ (a = r ∧ b = c) := fun h => hrc (by rw [h.1, h.2])
      simp only [List.getD_eq_getElem?_getD, List.getElem?_set, hrc, if_false]
      by_cases har : a = r
      · have hbc : ¬ b = c := fun h => hne ⟨har, h⟩
        simp [har, hbc]
      · simp [har]
  rw [Finset.sum_congr rfl (fun r hr => Finset.sum_congr rfl (key r hr))]
  simp only [Finset.sum_add_distrib]
  congr 1
  have hinner : ∀ r ∈ Finset.range n,
      (∑ c ∈ Finset.range n,
        (if a = r then (if b = c then (if sel a b then 1 else 0) else 0) else 0)) =
      (if a = r then (if sel a b then 1 else 0) else 0) := by
    intro r _
    split
    · rw [Finset.sum_ite_eq]
      simp [hb]
    · simp
  rw [Finset.sum_congr rfl hinner, Finset.sum_ite_eq]
  simp [ha]

theorem swapChains_inv_step (LL LP : Chain T → ℚ) (s : Strom T) (i r : Nat) (logu : ℚ)
    (k : Nat) (hinv : SwapInv s k) (hn : 2 ≤ s.num_chains) (hk : k + 1 < UINT_MOD)
    (hi : i ≤ s.num_chains - 1) (hr : r ≤ s.num_chains - 2) :
    ∃ s1, swapChains LL LP s i r logu = some s1 ∧ s1.num_chains = s.num_chains ∧
      SwapInv s1 (k + 1) := by
  obtain ⟨hwf, hup, hlow, hdiag, hbd⟩ := hinv
  obtain ⟨c, d, ci, cj, hc, hd, hci, hcj, h⟩ := swapChains_total LL LP s i r logu hwf hn hi hr
  have hwf0 := hwf
  obtain ⟨hcl, hsl, hfit⟩ := hwf
  have h2n : 2 * s.num_chains ≤ s.num_chains * s.num_chains := Nat.mul_le_mul_right _ hn
  have hM : UINT_MOD = 4294967296 := rfl
  obtain ⟨hji, hj⟩ := pickJ_spec s.num_chains i r hn (by omega) hi hr
  obtain ⟨hu, hl, hu2, hl2, hul⟩ :=
    cells_spec s.num_chains i _ (by omega) hj (fun h => hji h.symm) hfit
  have hck : c ≤ k := hbd _ _ hc
  have hdk : d ≤ k := hbd _ _ hd
  have hcm : (c + 1) % UINT_MOD = c + 1 := Nat.mod_eq_of_lt (by omega)
  have hdm : (d + 1) % UINT_MOD = d + 1 := Nat.mod_eq_of_lt (by omega)
  generalize hA : min i (pickJ s.num_chains i r) = a at *
  generalize hB : max i (pickJ s.num_chains i r) = b at *
  have hab : a < b := by omega
  have hbn : b < s.num_chains := by omega
  have han : a < s.num_chains := by omega
  rw [hu] at hc h
  rw [hl] at hd h
  have hwf1 := swapChains_wf _ _ _ _ _ _ _ hwf0 h
  have hnc := (swapChains_frame _ _ _ _ _ _ _ h).1
  refine ⟨_, h, hnc, hwf1, ?_⟩
  have hup1 : upperSum s.num_chains (s.swaps.set (a * s.num_chains + b) (c + 1)) = k + 1 := by
    unfold upperSum
    rw [selSum_set _ _ _ _ _ _ han hbn hc]
    unfold upperSum at hup
    simp [hup, hab]
  have hlow1 : lowerSum s.num_chains (s.swaps.set (a * s.num_chains + b) (c + 1)) =
      lowerSum s.num_chains s.swaps := by
    unfold lowerSum
    rw [selSum_set _ _ _ _ _ _ han hbn hc]
    simp [Nat.lt_asymm hab]
  have hd1 : (s.swaps.set (a * s.num_chains + b) (c + 1))[b * s.num_chains + a]? = some d := by
    rw [List.getElem?_set_ne (by omega)]
    exact hd
  have hdg : ∀ q, q < s.num_chains →
      q * s.num_chains + q ≠ a * s.num_chains + b ∧
      q * s.num_chains + q ≠ b * s.num_chains + a := by
    intro q hq
    constructor
    · intro he
      have := index_inj _ _ _ _ _ hq hbn he
      omega
    · intro he
      have := index_inj _ _ _ _ _ hq han he
      omega
  split
  · simp only [acceptedState, hdm, hcm]
    refine ⟨?_, ?_, ?_, ?_⟩
    · unfold upperSum
      rw [selSum_set _ _ _ _ _ _ hbn han hd1]
      unfold upperSum at hup1
      simp [hup1, Nat.lt_asymm hab]
    · unfold lowerSum
      rw [selSum_set _ _ _ _ _ _ hbn han hd1]
      unfold lowerSum at hlow1 hlow
      rw [hlow1]
      simp only [hab, decide_True, if_true]
      omega
    · intro q hq
      obtain ⟨n1, n2⟩ := hdg q hq
      rw [List.getElem?_set_ne (Ne.symm n2), List.getElem?_set_ne (Ne.symm n1)]
      exact hdiag q hq
    · intro idx v hv
      rw [List.getElem?_set] at hv
      split at hv
      · split at hv
        · cases hv; omega
        · cases hv
      · rw [List.getElem?_set] at hv
        split at hv
        · split at hv
          · cases hv; omega
          · cases hv
        · have := hbd _ _ hv
          omega
  · simp only [rejectedState, hcm]
    refine ⟨hup1, by rw [hlow1]; omega, ?_, ?_⟩
    · intro q hq
      obtain ⟨n1, -⟩ := hdg q hq
      rw [List.getElem?_set_ne (Ne.symm n1)]
      exact hdiag q hq
    · intro idx v hv
      rw [List.getElem?_set] at hv
      split at hv
      · split at hv
        · cases hv; omega
        · cases hv
      · have := hbd _ _ hv
        omega

theorem swapChainsSeq_inv (ps : List (Proposal T)) (s : Strom T) (k : Nat)
    (hinv : SwapInv s k) (hn : 2 ≤ s.num_chains) (hk : k + ps.length < UINT_MOD)
    (hd : ∀ p ∈ ps, p.i ≤ s.num_chains - 1 ∧ p.r ≤ s.num_chains - 2) :
    ∃ s1, swapChainsSeq s ps = some s1 ∧ s1.num_chains = s.num_chains ∧
      SwapInv s1 (k + ps.length) := by
  induction ps generalizing s k with
  | nil => exact ⟨s, rfl, rfl, hinv⟩
  | cons p ps ih =>
    simp only [List.length_cons] at hk
    obtain ⟨s2, h2, hnc, hinv2⟩ :=
      swapChains_inv_step p.calcLogLikelihood p.calcLogJointPrior s p.i p.r p.logu k hinv hn
        (by omega) (hd p (List.mem_cons_self _ _)).1 (hd p (List.mem_cons_self _ _)).2
    obtain ⟨s1, h1, hnc1, hinv1⟩ := ih s2 (k + 1) hinv2 (by rw [hnc]; exact hn) (by omega)
      (fun q hq => by rw [hnc]; exact hd q (List.mem_cons_of_mem _ hq))
    refine ⟨s1, by rw [swapChainsSeq, h2]; exact h1, hnc1.trans hnc, ?_⟩
    have he : k + (ps.length + 1) = k + 1 + ps.length := by omega
    simp only [List.length_cons, he]
    exact hinv1

theorem selSum_replicate_zero (sel : Nat → Nat → Bool) (n m : Nat) :
    selSum sel n (List.replicate m 0) = 0 := by
  unfold selSum
  apply Finset.sum_eq_zero
  intro r _
  apply Finset.sum_eq_zero
  intro c _
  split
  · rw [List.getD_eq_getElem?_getD, List.getElem?_replicate]
    split <;> rfl
  · rfl

end sums

/-! ## The ensemble invariant on heating powers (C6) -/

section claims_invariant

variable {T : Type}

/-- C6, amended: taking the arithmetic as exact, once the ensemble has been built
(`initChains` gives chain `i` the power `1/(1 + lambda*i)`, with `lambda` in
`(0, 1]` and at least one chain), after any finite sequence of completed
`swapChains` calls the chains' heating powers are a permutation of the initial
schedule, every power lies in `(0, 1]`, and exactly one chain holds power 1. -/
theorem heating_powers_invariant (fresh : Chain T) (t : T) (s s0 s1 : Strom T)
    (ps : List (Proposal T)) (hn : 1 ≤ s.num_chains)
    (hpos : 0 < s.heating_lambda) (_hle : s.heating_lambda ≤ 1)
    (h0 : setupChains fresh t s = some s0) (h1 : swapChainsSeq s0 ps = some s1) :
    s0.chains.map Chain.getHeatingPower =
      (List.range s.num_chains).map
        (fun (i : Nat) => 1 / (1 + s.heating_lambda * (i : ℚ))) ∧
    (s1.chains.map Chain.getHeatingPower).Perm
      ((List.range s.num_chains).map
        (fun (i : Nat) => 1 / (1 + s.heating_lambda * (i : ℚ)))) ∧
    (∀ c ∈ s1.chains, 0 < c.getHeatingPower ∧ c.getHeatingPower ≤ 1) ∧
    (s1.chains.map Chain.getHeatingPower).count 1 = 1 := by
  have hs0 := setupChains_inv fresh t s s0 h0
  subst hs0
  have hheat := builtEnsemble_heats fresh t s
  obtain ⟨-, -, -, -, hperm⟩ := swapChainsSeq_frame ps _ s1 h1
  rw [hheat] at hperm
  refine ⟨hheat, hperm, ?_, ?_⟩
  · intro c hc
    apply schedule_mem_range s.num_chains s.heating_lambda hpos
    exact hperm.mem_iff.mp (List.mem_map_of_mem _ hc)
  · exact (hperm.count_eq 1).trans (schedule_count_one _ _ hn hpos)

/-- Witness of C6 (amended): three chains with heating factor 0.2, two proposals. -/
theorem heating_powers_invariant_witness :
    ∃ s0 s1, setupChains freshChain 0 strom3 = some s0 ∧
      swapChainsSeq s0 proposals3 = some s1 ∧
      (∀ c ∈ s1.chains, 0 < c.getHeatingPower ∧ c.getHeatingPower ≤ 1) ∧
      (s1.chains.map Chain.getHeatingPower).count 1 = 1 := by
  have h0 := setupChains_eq_built freshChain 0 strom3 (by decide)
  obtain ⟨s1, h1⟩ := swapChainsSeq_total proposals3 (builtEnsemble freshChain 0 strom3)
    (builtEnsemble_wf freshChain 0 strom3 (by decide)) (by decide)
    (proposals3_draws 3 (by decide))
  have h := heating_powers_invariant freshChain 0 strom3 _ s1 proposals3 (by decide)
    (by norm_num [strom3]) (by norm_num [strom3]) h0 h1
  exact ⟨_, s1, h0, h1, h.2.2.1, h.2.2.2⟩

end claims_invariant

/-! ## The swap matrix after a sequence of proposals (C8) -/

section claims_matrix

variable {T : Type}

/-- C8, as stated, fails: the cells are `unsigned` counters.  On two chains with
an all-zero 2 x 2 matrix, 4294967296 proposals of the pair (0, 1) wrap the
attempted-swap cell back to 0, so the upper-triangle sum is 0 and not the
number of calls. -/
theorem swap_counter_wraps :
    ensemble2.WellFormed ∧ ensemble2.swaps = List.replicate (2 * 2) 0 ∧
    (List.replicate 4294967296 proposal01).length = 4294967296 ∧
    ∃ s1, swapChainsSeq ensemble2 (List.replicate 4294967296 proposal01) = some s1 ∧
      upperSum 2 s1.swaps = 0 := by
  refine ⟨⟨rfl, rfl, by decide⟩, rfl, List.length_replicate _ _, _,
    ensemble2_seq 4294967296 0 (by decide), ?_⟩
  have h : (0 + 4294967296) % UINT_MOD = 0 := by decide
  simp only [h]
  exact selSum_replicate_zero _ 2 4

/-- C8, amended: for every well-formed ensemble of `n >= 2` chains (`n*n`
representable as an `unsigned`) with an all-zero `n*n` swap matrix and every
sequence of fewer than 2^32 `swapChains` calls (any draws in range, any kernel
values), all the calls complete and afterwards the sum of the upper-triangle
cells equals the number of calls, the sum of the lower-triangle cells is at
most that number, and every diagonal cell is still zero. -/
theorem swap_matrix_sums (s : Strom T) (ps : List (Proposal T)) (hwf : s.WellFormed)
    (hn : 2 ≤ s.num_chains)
    (hzero : s.swaps = List.replicate (s.num_chains * s.num_chains) 0)
    (hd : ∀ p ∈ ps, p.i ≤ s.num_chains - 1 ∧ p.r ≤ s.num_chains - 2)
    (hk : ps.length < UINT_MOD) :
    ∃ s1, swapChainsSeq s ps = some s1 ∧
      upperSum s.num_chains s1.swaps = ps.length ∧
      lowerSum s.num_chains s1.swaps ≤ ps.length ∧
      ∀ r, r < s.num_chains → s1.swaps[r * s.num_chains + r]? = some 0 := by
  have hinv : SwapInv s 0 := by
    refine ⟨hwf, ?_, ?_, ?_, ?_⟩
    · rw [hzero]
      exact selSum_replicate_zero _ _ _
    · rw [hzero, lowerSum, selSum_replicate_zero]
    · intro r hr
      rw [hzero, List.getElem?_replicate, if_pos]
      exact (tri_diag_lt s.num_chains r hr)
    · intro idx c hc
      rw [hzero, List.getElem?_replicate] at hc
      split at hc
      · cases hc
        exact Nat.le_refl 0
      · cases hc
  obtain ⟨s1, h1, hnc, -, hup, hlow, hdiag, -⟩ :=
    swapChainsSeq_inv ps s 0 hinv hn (by omega) hd
  rw [hnc, Nat.zero_add] at hup hlow
  refine ⟨s1, h1, hup, hlow, ?_⟩
  intro r hr
  have := hdiag r (by rw [hnc]; exact hr)
  rw [hnc] at this
  exact this

/-- Witness of C8 (amended): the three-chain ensemble and two proposals. -/
theorem swap_matrix_sums_witness :
    ∃ s1, swapChainsSeq ensemble3 proposals3 = some s1 ∧
      upperSum ensemble3.num_chains s1.swaps = proposals3.length ∧
      lowerSum ensemble3.num_chains s1.swaps ≤ proposals3.length ∧
      ∀ r, r < ensemble3.num_chains → s1.swaps[r * ensemble3.num_chains + r]? = some 0 :=
  swap_matrix_sums ensemble3 proposals3 ensemble3_wf (by decide) rfl
    (proposals3_draws 3 (by decide)) (by decide)

end claims_matrix

/-! ## Reachability and uniformity of the pair selection (C11, C12) -/

section claims_pairs

theorem pickJ_eq (n i r : Nat) (h2 : 2 * n - 2 < UINT_MOD) (hi : i < n) (hr : r + 2 ≤ n) :
    pickJ n i r = if i + 1 + r < n then i + 1 + r else i + 1 + r - n := by
  have hM : UINT_MOD = 4294967296 := rfl
  unfold pickJ
  rw [Nat.mod_eq_of_lt (by omega : i + 1 + r < UINT_MOD)]
  split
  · rename_i h
    exact Nat.mod_eq_of_lt h
  · rw [Nat.mod_eq_sub_mod (by omega), Nat.mod_eq_of_lt (by omega)]

/-- For a first draw `i` and a chain `j` other than `i`, exactly one second
draw selects `j`. -/
theorem drawCount_inner (n i j : Nat) (h2 : 2 * n - 2 < UINT_MOD) (hi : i < n) (hj : j < n)
    (hij : i ≠ j) :
    (∑ r ∈ Finset.range (n - 1), if pickJ n i r = j then 1 else 0) = 1 := by
  have key : ∀ r ∈ Finset.range (n - 1),
      (if pickJ n i r = j then 1 else 0) =
        (if (if i < j then j - i - 1 else j + n - i - 1) = r then 1 else 0) := by
    intro r hr
    have hr2 : r < n - 1 := Finset.mem_range.mp hr
    rw [pickJ_eq n i r h2 hi (by omega)]
    by_cases h : i + 1 + r < n
    · rw [if_pos h]
      split <;> split <;> split <;> omega
    · rw [if_neg h]
      split <;> split <;> split <;> omega
  rw [Finset.sum_congr rfl key, Finset.sum_ite_eq]
  rw [if_pos]
  rw [Finset.mem_range]
  split <;> omega

/-- C11: for every `n >= 2` (an `unsigned`) and every unordered pair `{p, q}` of
distinct chain indices below `n`, there are draws `i` in `[0, n-1]` and `r` in
`[0, n-2]` for which `swapChains` selects exactly that pair: `i = p` and
`(i + 1 + r) % n = q`, or the reverse. -/
theorem pair_reachable (n p q : Nat) (hn : 2 ≤ n) (hu : n < UINT_MOD)
    (hp : p < n) (hq : q < n) (hpq : p ≠ q) :
    ∃ i r, i ≤ n - 1 ∧ r ≤ n - 2 ∧
      ((i = p ∧ pickJ n i r = q) ∨ (i = q ∧ pickJ n i r = p)) := by
  have hM : UINT_MOD = 4294967296 := rfl
  have hmax : ∀ a b, a < b → b < n → pickJ n a (b - a - 1) = b := by
    intro a b hab hb
    unfold pickJ
    have h1 : a + 1 + (b - a - 1) = b := by omega
    rw [h1, Nat.mod_eq_of_lt (show b < UINT_MOD by omega), Nat.mod_eq_of_lt hb]
  rcases Nat.lt_or_gt_of_ne hpq with h | h
  · exact ⟨p, q - p - 1, by omega, by omega, Or.inl ⟨rfl, hmax p q h hq⟩⟩
  · exact ⟨q, p - q - 1, by omega, by omega, Or.inr ⟨rfl, hmax q p h hp⟩⟩

/-- Witness of C11: with five chains the pair {1, 4} is selected by `i = 1`, `r = 2`. -/
theorem pair_reachable_witness :
    pickJ 5 1 2 = 4 ∧
    ∃ i r, i ≤ 5 - 1 ∧ r ≤ 5 - 2 ∧
      ((i = 4 ∧ pickJ 5 i r = 1) ∨ (i = 1 ∧ pickJ 5 i r = 4)) :=
  ⟨by decide, pair_reachable 5 4 1 (by decide) (by decide) (by decide) (by decide) (by decide)⟩

/-- The count of draws that select an unordered pair is two whenever the sum
`i + 1 + r` cannot wrap. -/
theorem drawCount_eq_two (n p q : Nat) (h2 : 2 * n - 2 < UINT_MOD)
    (hp : p < n) (hq : q < n) (hpq : p ≠ q) : drawCount n p q = 2 := by
  unfold drawCount
  have key : ∀ i ∈ Finset.range n,
      (∑ r ∈ Finset.range (n - 1),
        if (i = p ∧ pickJ n i r = q) ∨ (i = q ∧ pickJ n i r = p) then 1 else 0) =
      (if p = i then 1 else 0) + (if q = i then 1 else 0) := by
    intro i _
    by_cases h1 : i = p
    · subst h1
      have : ∀ r ∈ Finset.range (n - 1),
          (if (i = i ∧ pickJ n i r = q) ∨ (i = q ∧ pickJ n i r = i) then 1 else 0) =
            (if pickJ n i r = q then 1 else 0) := by
        intro r _
        simp [hpq]
      rw [Finset.sum_congr rfl this, drawCount_inner n i q h2 hp hq hpq]
      simp [Ne.symm hpq]
    · by_cases h2' : i = q
      · subst h2'
        have : ∀ r ∈ Finset.range (n - 1),
            (if (i = p ∧ pickJ n i r = i) ∨ (i = i ∧ pickJ n i r = p) then 1 else 0) =
              (if pickJ n i r = p then 1 else 0) := by
          intro r _
          simp [h1]
        rw [Finset.sum_congr rfl this, drawCount_inner n i p h2 hq hp (Ne.symm hpq)]
        simp [hpq]
      · have : ∀ r ∈ Finset.range (n - 1),
            (if (i = p ∧ pickJ n i r = q) ∨ (i = q ∧ pickJ n i r = p) then 1 else 0) =
              0 := by
          intro r _
          simp [h1, h2']
        rw [Finset.sum_congr rfl this]
        simp [Ne.symm h1, Ne.symm h2']
  rw [Finset.sum_congr rfl key, Finset.sum_add_distrib, Finset.sum_ite_eq, Finset.sum_ite_eq]
  simp [hp, hq]

/-- An ensemble that `run` can build has at most `INT_MAX` chains: `initChains`
counts them with an `int`. -/
theorem setupChains_count_le {T : Type} (fresh : Chain T) (t : T) (s s0 : Strom T)
    (h : setupChains fresh t s = some s0) : s.num_chains ≤ INT_MAX := by
  unfold setupChains initChains at h
  simp only at h
  split at h
  · cases h
  · rename_i cs hcs
    have hb := initChainsLoop_bound _ _ _ _ _ hcs
    have hl : (calcHeatingPowers
        ({ s with
            chains := resizeChains s.num_chains fresh s.chains
            swaps := assignSwaps s.num_chains
            heating_powers := List.replicate s.num_chains 1 } : Strom T)).chains.length =
        s.num_chains := by
      simp [calcHeatingPowers, resizeChains_length]
    rw [hl] at hb
    omega

/-- C12, as stated, fails: the selection is uniform over unordered pairs.  With
three chains each of the pairs {0,1}, {0,2}, {1,2} is produced by exactly two
of the six draw combinations, and no ensemble that `run` can build has two
unordered pairs produced by different numbers of draw combinations. -/
theorem pair_selection_not_skewed :
    drawCount 3 0 1 = 2 ∧ drawCount 3 0 2 = 2 ∧ drawCount 3 1 2 = 2 ∧
    ¬ ∃ (s s0 : Strom Nat) (p q p1 q1 : Nat),
      setupChains freshChain 0 s = some s0 ∧ 2 ≤ s.num_chains ∧
      p < s.num_chains ∧ q < s.num_chains ∧ p ≠ q ∧
      p1 < s.num_chains ∧ q1 < s.num_chains ∧ p1 ≠ q1 ∧
      drawCount s.num_chains p q ≠ drawCount s.num_chains p1 q1 := by
  refine ⟨drawCount_eq_two 3 0 1 (by decide) (by decide) (by decide) (by decide),
    drawCount_eq_two 3 0 2 (by decide) (by decide) (by decide) (by decide),
    drawCount_eq_two 3 1 2 (by decide) (by decide) (by decide) (by decide), ?_⟩
  rintro ⟨s, s0, p, q, p1, q1, hs, hn, hp, hq, hpq, hp1, hq1, hpq1, hne⟩
  have hI := setupChains_count_le freshChain 0 s s0 hs
  have hM : UINT_MOD = 4294967296 := rfl
  have hIM : INT_MAX = 2147483647 := rfl
  have h2 : 2 * s.num_chains - 2 < UINT_MOD := by omega
  apply hne
  rw [drawCount_eq_two _ p q h2 hp hq hpq, drawCount_eq_two _ p1 q1 h2 hp1 hq1 hpq1]

/-- C12, amended: the pair-selection scheme of `swapChains` is uniform over
unordered pairs: for every `n >= 2` with `2n-2` representable as an `unsigned`
(in particular for every ensemble) each unordered pair of distinct chain
indices is produced by exactly two of the `n*(n-1)` draw combinations `(i, r)`. -/
theorem pair_selection_two_draws (n p q : Nat) (_hn : 2 ≤ n) (h2 : 2 * n - 2 < UINT_MOD)
    (hp : p < n) (hq : q < n) (hpq : p ≠ q) :
    drawCount n p q = 2 :=
  drawCount_eq_two n p q h2 hp hq hpq

/-- Witness of C12 (amended): four chains, the pair {1, 3}. -/
theorem pair_selection_two_draws_witness :
    pickJ 4 1 1 = 3 ∧ pickJ 4 3 1 = 1 ∧ drawCount 4 1 3 = 2 :=
  ⟨by decide, by decide,
    pair_selection_two_draws 4 1 3 (by decide) (by decide) (by decide) (by decide) (by decide)⟩

end claims_pairs

/-! ## The single-chain case and the end of tuning (C13, C20) -/

section claims_lifecycle

variable {T L : Type}

/-- C13: with exactly one chain `swapChains` is a no-op: it returns before any
call on the generator, whose state is therefore unchanged, and the whole
ensemble state (swap matrix, and the chain's heating power, lambdas and tree)
is the one before the call; the body makes no use of draws either. -/
theorem swapChains_single_chain (lot_ops : Lot L) (LL LP : Chain T → ℚ) (s : Strom T)
    (lot : L) (hn : s.num_chains = 1) :
    swapChainsLot lot_ops LL LP s lot = some (s, lot) ∧
    ∀ (i r : Nat) (logu : ℚ), swapChains LL LP s i r logu = some s := by
  constructor
  · simp [swapChainsLot, hn]
  · intro i r logu
    simp [swapChains, hn]

/-- Witness of C13: the single-chain ensemble and a generator with three values
to come. -/
theorem swapChains_single_chain_witness :
    ensemble1.num_chains = 1 ∧
    swapChainsLot listLot demoLogLikelihood demoLogJointPrior ensemble1 [7, 8, 9] =
      some (ensemble1, [7, 8, 9]) ∧
    ∀ (i r : Nat) (logu : ℚ),
      swapChains demoLogLikelihood demoLogJointPrior ensemble1 i r logu = some ensemble1 :=
  ⟨rfl, swapChains_single_chain listLot demoLogLikelihood demoLogJointPrior ensemble1
    [7, 8, 9] rfl⟩

/-- C20, as stated, fails: in the ensemble that `run` builds for 65536 chains
`stopTuningChains` leaves a swap matrix with no cell at all (the size
`65536*65536` wraps to 0), not one with `n*n` cells. -/
theorem stopTuningChains_matrix_empty :
    ∃ s, setupChains freshChain 0 strom65536 = some s ∧ s.num_chains = 65536 ∧
      (stopTuningChains s).swaps.length = 0 ∧
      (stopTuningChains s).swaps.length ≠ s.num_chains * s.num_chains := by
  refine ⟨_, setupChains_eq_built freshChain 0 strom65536 (by decide), rfl, ?_, ?_⟩
  · exact congrArg List.length assignSwaps_65536
  · have h : (stopTuningChains (builtEnsemble freshChain 0 strom65536)).swaps.length = 0 :=
      congrArg List.length assignSwaps_65536
    rw [h]
    decide

/-- C20, amended: for every ensemble state whose chain count `n` has `n*n`
representable as an `unsigned`, `stopTuningChains` leaves the swap matrix with
exactly `n*n` cells, all equal to zero, and sets every chain's tuning flag to
false, without changing the number of chains or any chain's heating power,
lambdas or tree. -/
theorem stopTuningChains_resets (s : Strom T)
    (hfit : s.num_chains * s.num_chains < UINT_MOD) :
    (stopTuningChains s).swaps = List.replicate (s.num_chains * s.num_chains) 0 ∧
    (stopTuningChains s).swaps.length = s.num_chains * s.num_chains ∧
    (∀ c ∈ (stopTuningChains s).chains, c.tuning = false) ∧
    (stopTuningChains s).num_chains = s.num_chains ∧
    (stopTuningChains s).chains.length = s.chains.length ∧
    (stopTuningChains s).chains.map Chain.getHeatingPower =
      s.chains.map Chain.getHeatingPower ∧
    (stopTuningChains s).chains.map Chain.getLambdas = s.chains.map Chain.getLambdas ∧
    (stopTuningChains s).chains.map Chain.tree = s.chains.map Chain.tree := by
  have hsw : (stopTuningChains s).swaps = List.replicate (s.num_chains * s.num_chains) 0 := by
    simp [stopTuningChains, assignSwaps, Nat.mod_eq_of_lt hfit]
  refine ⟨hsw, by rw [hsw, List.length_replicate], ?_, rfl, ?_, ?_, ?_, ?_⟩
  · intro c hc
    simp only [stopTuningChains, List.mem_map] at hc
    obtain ⟨c0, -, rfl⟩ := hc
    rfl
  · simp [stopTuningChains]
  · simp only [stopTuningChains, List.map_map]
    rfl
  · simp only [stopTuningChains, List.map_map]
    rfl
  · simp only [stopTuningChains, List.map_map]
    rfl

/-- Witness of C20 (amended): the three-chain ensemble. -/
theorem stopTuningChains_resets_witness :
    (stopTuningChains ensemble3).swaps = List.replicate (3 * 3) 0 ∧
    (∀ c ∈ (stopTuningChains ensemble3).chains, c.tuning = false) ∧
    (stopTuningChains ensemble3).chains.map Chain.tree = [10, 11, 12] :=
  have h := stopTuningChains_resets ensemble3 (by decide)
  ⟨h.1, h.2.2.1, h.2.2.2.2.2.2.2⟩

end claims_lifecycle

/-! ## Lemmas on the tree length and on scaling -/

section tree_lemmas

theorem calcTreeLengthLoop_eq (nodes : List Node) (l : List Nat) (TL : ℚ)
    (hv : ∀ nd ∈ l, nd < nodes.length) :
    calcTreeLengthLoop nodes l TL =
      some (TL + (l.filterMap (fun nd => (nodes[nd]?).map Node.edge_length)).sum) := by
  induction l generalizing TL with
  | nil => simp [calcTreeLengthLoop]
  | cons nd rest ih =>
    have hnd : nd < nodes.length := hv nd (List.mem_cons_self _ _)
    rw [calcTreeLengthLoop, List.getElem?_eq_getElem hnd]
    simp only
    rw [ih _ (fun x hx => hv x (List.mem_cons_of_mem _ hx))]
    simp only [List.filterMap_cons, List.getElem?_eq_getElem hnd, Option.map_some',
      List.sum_cons]
    rw [add_assoc]

theorem filterMap_edge_set_of_not_mem (nodes : List Node) (l : List Nat) (r : Nat)
    (x : Node) (hr : r ∉ l) :
    l.filterMap (fun nd => ((nodes.set r x)[nd]?).map Node.edge_length) =
      l.filterMap (fun nd => (nodes[nd]?).map Node.edge_length) := by
  induction l with
  | nil => rfl
  | cons nd rest ih =>
    have h1 : r ≠ nd := fun h => hr (h ▸ List.mem_cons_self _ _)
    have h2 : r ∉ rest := fun h => hr (List.mem_cons_of_mem _ h)
    simp only [List.filterMap_cons, List.getElem?_set_ne h1, ih h2]

theorem scaleLoop_spec (scaler : ℚ) (l : List Nat) (nodes : List Node)
    (hv : ∀ nd ∈ l, nd < nodes.length) (hnd : l.Nodup) :
    ∃ nodes1, scaleLoop scaler l nodes = some nodes1 ∧ nodes1.length = nodes.length ∧
      ∀ k, nodes1[k]? = if k ∈ l then (nodes[k]?).map (Node.scaled scaler) else nodes[k]? := by
  induction l generalizing nodes with
  | nil => exact ⟨nodes, rfl, rfl, fun k => by simp⟩
  | cons nd rest ih =>
    have hlt : nd < nodes.length := hv nd (List.mem_cons_self _ _)
    obtain ⟨hnot, hrest⟩ := List.nodup_cons.mp hnd
    obtain ⟨nodes1, h1, h2, h3⟩ := ih (nodes.set nd (Node.scaled scaler nodes[nd]))
      (fun x hx => by
        rw [List.length_set]
        exact hv x (List.mem_cons_of_mem _ hx)) hrest
    refine ⟨nodes1, ?_, by rw [h2, List.length_set], ?_⟩
    · rw [scaleLoop, List.getElem?_eq_getElem hlt]
      exact h1
    · intro k
      rw [h3 k]
      by_cases hk : k = nd
      · subst hk
        simp only [hnot, if_false, List.mem_cons, true_or, if_true]
        rw [List.getElem?_set_eq_of_lt _ hlt, List.getElem?_eq_getElem hlt]
        rfl
      · have hk2 : nd ≠ k := fun h => hk h.symm
        simp only [List.mem_cons, hk, false_or, List.getElem?_set_ne hk2]

theorem calcTreeLength_sum_lemma (tm : TreeManip) (t : Tree) (ht : tm.tree = some t)
    (hv : ∀ nd ∈ t.preorder, nd < t.nodes.length) :
    calcTreeLength tm = some (cachedEdgeLengths t).sum := by
  simp only [calcTreeLength, ht, cachedEdgeLengths]
  rw [calcTreeLengthLoop_eq _ _ _ hv, zero_add]

end tree_lemmas

/-! ## Tree length and scaling (C17, C18, C19) -/

section claims_tree_length

/-- C17: for every tree whose cached node pointers are valid, `calcTreeLength`
returns the sum of the edge lengths of exactly the nodes in the preorder cache;
it is 0 for an empty cache, non-negative whenever every cached node's edge
length is non-negative, and, the root not being in the cache, it does not
depend on the root's own edge length. -/
theorem calcTreeLength_sum (tm : TreeManip) (t : Tree) (ht : tm.tree = some t)
    (hv : ∀ nd ∈ t.preorder, nd < t.nodes.length) :
    calcTreeLength tm = some (cachedEdgeLengths t).sum ∧
    (cachedEdgeLengths t).length = t.preorder.length ∧
    (t.preorder = [] → calcTreeLength tm = some 0) ∧
    ((∀ nd ∈ t.preorder, ∀ node, t.nodes[nd]? = some node → 0 ≤ node.edge_length) →
      ∃ x, calcTreeLength tm = some x ∧ 0 ≤ x) ∧
    (∀ r rnode e, t.root = some r → r ∉ t.preorder → t.nodes[r]? = some rnode →
      calcTreeLength
          { tree := some { t with nodes := t.nodes.set r { rnode with edge_length := e } } } =
        calcTreeLength tm) := by
  have hmain := calcTreeLength_sum_lemma tm t ht hv
  refine ⟨hmain, ?_, ?_, ?_, ?_⟩
  · unfold cachedEdgeLengths
    have : ∀ l : List Nat, (∀ nd ∈ l, nd < t.nodes.length) →
        (l.filterMap (fun nd => (t.nodes[nd]?).map Node.edge_length)).length = l.length := by
      intro l
      induction l with
      | nil => intro _; rfl
      | cons nd rest ih =>
        intro hl
        have hnd : nd < t.nodes.length := hl nd (List.mem_cons_self _ _)
        simp only [List.filterMap_cons, List.getElem?_eq_getElem hnd, Option.map_some',
          List.length_cons, ih (fun x hx => hl x (List.mem_cons_of_mem _ hx))]
    exact this _ hv
  · intro he
    rw [hmain]
    simp [cachedEdgeLengths, he]
  · intro hpos
    refine ⟨_, hmain, ?_⟩
    apply List.sum_nonneg
    intro x hx
    simp only [cachedEdgeLengths, List.mem_filterMap, Option.map_eq_some'] at hx
    obtain ⟨nd, hnd, node, hnode, rfl⟩ := hx
    exact hpos nd hnd node hnode
  · intro r rnode e _ hr _
    rw [hmain]
    simp only [calcTreeLength]
    rw [calcTreeLengthLoop_eq _ _ _ (fun x hx => by
      simp only [List.length_set]
      exact hv x hx), zero_add]
    simp only [cachedEdgeLengths]
    rw [filterMap_edge_set_of_not_mem _ _ _ _ hr]

/-- Witness of C17: the tree of `createTestTree`, whose cache holds five nodes. -/
theorem calcTreeLength_sum_witness :
    calcTreeLength (createTestTree { tree := none }) = some (cachedEdgeLengths testTree).sum ∧
    (cachedEdgeLengths testTree).length = 5 :=
  ⟨(calcTreeLength_sum (createTestTree { tree := none }) testTree rfl (by decide)).1,
    (calcTreeLength_sum (createTestTree { tree := none }) testTree rfl (by decide)).2.1⟩

/-- C18 (the code at the fixture): `createTestTree` gives the third leaf the edge
length 0.1, not the 0.2 of its structure comment, so `calcTreeLength` returns
0.5 on the tree it builds, not 0.6. -/
theorem calcTreeLength_createTestTree :
    ((createTestTree { tree := none }).tree.bind (fun t => t.nodes[5]?)).map
      Node.edge_length = some (1 / 10) ∧
    calcTreeLength (createTestTree { tree := none }) = some (1 / 2) ∧
    calcTreeLength (createTestTree { tree := none }) ≠ some (3 / 5) := by
  have h := calcTreeLength_sum_lemma (createTestTree { tree := none }) testTree rfl (by decide)
  have hs : (cachedEdgeLengths testTree).sum = 1 / 2 := by
    simp [cachedEdgeLengths, testTree]
    norm_num
  refine ⟨rfl, ?_, ?_⟩
  · rw [h, hs]
  · rw [h, hs]
    intro hc
    have := Option.some.inj hc
    norm_num at this

/-- C19: for every tree whose cached node pointers are valid and distinct and
every factor, of either sign, `scaleAllEdgeLengths` completes and replaces the
edge length of every node in the preorder cache by its old value times the
factor; every node outside the cache, in particular the root (which is not in
the cache), is unchanged; every node keeps its number, name and
parent/child/sibling links; and the preorder cache, the rooted flag, the leaf
count and the root are unchanged. -/
theorem scaleAllEdgeLengths_spec (tm : TreeManip) (t : Tree) (scaler : ℚ)
    (ht : tm.tree = some t) (hv : ∀ nd ∈ t.preorder, nd < t.nodes.length)
    (hnd : t.preorder.Nodup) :
    ∃ t1, scaleAllEdgeLengths tm scaler = some { tree := some t1 } ∧
      (∀ nd ∈ t.preorder, ∃ node node1, t.nodes[nd]? = some node ∧
        t1.nodes[nd]? = some node1 ∧ node1.edge_length = node.edge_length * scaler) ∧
      (∀ k, k ∉ t.preorder → t1.nodes[k]? = t.nodes[k]?) ∧
      (∀ r, t.root = some r → r ∉ t.preorder →
        (t1.nodes[r]?).map Node.edge_length = (t.nodes[r]?).map Node.edge_length) ∧
      t1.nodes.length = t.nodes.length ∧
      (∀ (k : Nat) (node node1 : Node), t.nodes[k]? = some node → t1.nodes[k]? = some node1 →
        node1.number = node.number ∧ node1.name = node.name ∧
        node1.parent = node.parent ∧ node1.left_child = node.left_child ∧
        node1.right_sib = node.right_sib) ∧
      t1.preorder = t.preorder ∧ t1.is_rooted = t.is_rooted ∧ t1.nleaves = t.nleaves ∧
      t1.root = t.root := by
  obtain ⟨nodes1, h1, h2, h3⟩ := scaleLoop_spec scaler t.preorder t.nodes hv hnd
  refine ⟨{ t with nodes := nodes1 }, ?_, ?_, ?_, ?_, h2, ?_, rfl, rfl, rfl, rfl⟩
  · simp only [scaleAllEdgeLengths, ht, h1]
  · intro nd hmem
    have hlt := hv nd hmem
    refine ⟨t.nodes[nd], Node.scaled scaler t.nodes[nd], List.getElem?_eq_getElem hlt, ?_, rfl⟩
    simp only
    rw [h3 nd, if_pos hmem, List.getElem?_eq_getElem hlt]
    rfl
  · intro k hk
    simp only
    rw [h3 k, if_neg hk]
  · intro r _ hr
    simp only
    rw [h3 r, if_neg hr]
  · intro k node node1 hn hn1
    simp only at hn1
    rw [h3 k, hn] at hn1
    split at hn1
    · cases hn1
      exact ⟨rfl, rfl, rfl, rfl, rfl⟩
    · cases hn1
      exact ⟨rfl, rfl, rfl, rfl, rfl⟩

/-- Witness of C19: the tree of `createTestTree` scaled by -2. -/
theorem scaleAllEdgeLengths_spec_witness :
    ∃ t1, scaleAllEdgeLengths (createTestTree { tree := none }) (-2) = some { tree := some t1 } ∧
      (t1.nodes[5]?).map Node.edge_length = some (1 / 10 * (-2)) ∧
      (t1.nodes[0]?).map Node.edge_length = some 0 ∧
      t1.preorder = [1, 2, 3, 4, 5] := by
  obtain ⟨t1, h1, h2, -, h4, -, -, h7, -, -, -⟩ :=
    scaleAllEdgeLengths_spec (createTestTree { tree := none }) testTree (-2) rfl
      (by decide) (by decide)
  refine ⟨t1, h1, ?_, ?_, h7⟩
  · obtain ⟨node, node1, hn, hn1, he⟩ := h2 5 (by decide)
    rw [hn1]
    have hn5 : testTree.nodes[5]? =
        some { parent := some 1, left_child := none, right_sib := none, number := 2,
               name := "third leaf", edge_length := 1 / 10 } := rfl
    rw [hn5] at hn
    cases hn
    exact congrArg some he
  · exact h4 0 rfl (by decide)

end claims_tree_length

/-! ## Newick strings: the test tree (C14) -/

section claims_newick_fixture

/-- The pieces that `makeNewick` appends for the topology of `createTestTree`. -/
theorem makeNewickPieces_testTreeWith (e0 e1 e2 e3 e4 e5 : ℚ) :
    makeNewickPieces { tree := some (testTreeWith e0 e1 e2 e3 e4 e5) } =
      some ([.lparen 1, .lparen 2, .tip 3 1 e3, .comma, .tip 4 2 e4, .rparenLen 2 e2,
        .comma, .tip 5 3 e5, .rparen 1], []) := by
  rfl

theorem renderPieces_append (fmt : Nat → ℚ → String) (precision : Nat)
    (ps qs : List Piece) :
    renderPieces fmt precision (ps ++ qs) =
      renderPieces fmt precision ps ++ renderPieces fmt precision qs := by
  induction ps with
  | nil => simp [renderPieces]
  | cons x xs ih =>
    rw [List.cons_append, renderPieces, renderPieces, ih, String.append_assoc]

theorem formatFixed_tenth : formatFixed 1 (1 / 10) = "0.1" := by
  have hn : ((1 : ℚ) / 10).num = 1 := by norm_num
  have hd : ((1 : ℚ) / 10).den = 10 := by norm_num
  have hneg : ¬ ((1 : ℚ) / 10 < 0) := by norm_num
  simp only [formatFixed, hn, hd, hneg, if_false]
  decide

theorem makeNewick_testTreeWith_eq (f : Nat → ℚ → String) (q : Nat)
    (a0 a1 a2 a3 a4 a5 : ℚ) :
    makeNewick f { tree := some (testTreeWith a0 a1 a2 a3 a4 a5) } q =
      some ("((1:" ++ f q a3 ++ ",2:" ++ f q a4 ++ "):" ++ f q a2 ++ ",3:" ++
        f q a5 ++ ")") := by
  have h1 : toString ((1 : Int)) = "1" := by decide
  have h2 : toString ((2 : Int)) = "2" := by decide
  have h3 : toString ((3 : Int)) = "3" := by decide
  simp only [makeNewick, makeNewickPieces_testTreeWith, renderPieces, renderPiece, h1, h2,
    h3]
  congr 1
  apply String.ext
  simp only [String.data_append]
  simp

theorem makeNewick_testTreeWith_literal (a0 a1 : ℚ) :
    makeNewick formatFixed
        { tree := some (testTreeWith a0 a1 (1 / 10) (1 / 10) (1 / 10) (1 / 10)) } 1 =
      some "((1:0.1,2:0.1):0.1,3:0.1)" := by
  rw [makeNewick_testTreeWith_eq, formatFixed_tenth]
  decide

/-- C14: for the topology linked by `createTestTree` (root -> first internal ->
{second internal -> {leaf 0, leaf 1}, leaf 2}, rooted) and any edge lengths,
`makeNewick(p)` returns exactly
`"((1:" + f(leaf0) + ",2:" + f(leaf1) + "):" + f(second_internal) + ",3:" + f(leaf2) + ")"`,
`f` formatting an edge length to `p` decimal places; and on the tree that
`createTestTree` builds, at precision 1, the result is the literal
`"((1:0.1,2:0.1):0.1,3:0.1)"`. -/
theorem makeNewick_testTree (fmt : Nat → ℚ → String) (p : Nat) (e0 e1 e2 e3 e4 e5 : ℚ)
    (tm : TreeManip) :
    makeNewick fmt { tree := some (testTreeWith e0 e1 e2 e3 e4 e5) } p =
      some ("((1:" ++ fmt p e3 ++ ",2:" ++ fmt p e4 ++ "):" ++ fmt p e2 ++ ",3:" ++
        fmt p e5 ++ ")") ∧
    makeNewick formatFixed (createTestTree tm) 1 = some "((1:0.1,2:0.1):0.1,3:0.1)" :=
  ⟨makeNewick_testTreeWith_eq fmt p e0 e1 e2 e3 e4 e5,
    makeNewick_testTreeWith_literal 0 (1 / 10)⟩

end claims_newick_fixture

/-! ## Newick strings: the injected root tip (C16) -/

section claims_newick_root_tip

theorem closeNodes_plain (nodes : List Node) (stk : List Nat) (cs : List Piece)
    (stk1 : List Nat) (h : closeNodes nodes stk = some (cs, stk1)) :
    ∀ x ∈ cs, x.isLparen = false ∧ x.isRootTip = false := by
  induction stk generalizing cs stk1 with
  | nil =>
    simp only [closeNodes, Option.some.injEq, Prod.mk.injEq] at h
    obtain ⟨rfl, -⟩ := h
    simp
  | cons top rest ih =>
    rw [closeNodes] at h
    cases hn : nodes[top]? with
    | none => simp [hn] at h
    | some popped =>
      simp only [hn] at h
      split at h
      · simp only [Option.some.injEq, Prod.mk.injEq] at h
        obtain ⟨rfl, -⟩ := h
        intro x hx
        simp only [List.mem_cons, List.mem_singleton, List.not_mem_nil, or_false] at hx
        rcases hx with rfl | rfl <;> exact ⟨rfl, rfl⟩
      · cases rest with
        | nil =>
          simp only [Option.some.injEq, Prod.mk.injEq] at h
          obtain ⟨rfl, -⟩ := h
          intro x hx
          simp only [List.mem_singleton] at hx
          subst hx
          exact ⟨rfl, rfl⟩
        | cons y ys =>
          simp only at h
          cases hc : closeNodes nodes (y :: ys) with
          | none => simp [hc] at h
          | some res =>
            obtain ⟨ps, st⟩ := res
            simp only [hc, Option.some.injEq, Prod.mk.injEq] at h
            obtain ⟨rfl, -⟩ := h
            intro x hx
            rcases List.mem_cons.mp hx with rfl | hx
            · exact ⟨rfl, rfl⟩
            · exact ih ps st hc x hx

/-- The traversal with the root tip still to be injected, compared with the
traversal without root tip. -/
theorem newickLoop_root_tip (nodes : List Node) (r : Nat) (rnode : Node)
    (hr : nodes[r]? = some rnode) (l : List Nat) :
    ∀ (stk : List Nat) (ps : List Piece) (fin : List Nat),
      newickLoop nodes l stk none = some (ps, fin) →
      (∃ nd ∈ l, isInternalAt nodes nd = true) →
      ∃ A B nd node, ps = A ++ Piece.lparen nd :: B ∧
        (∀ x ∈ A, x.isLparen = false ∧ x.isRootTip = false) ∧
        l.find? (isInternalAt nodes) = some nd ∧ nodes[nd]? = some node ∧
        newickLoop nodes l stk (some r) =
          some (A ++ Piece.lparen nd ::
            Piece.rootTip (rnode.number + 1) node.edge_length :: Piece.comma :: B, fin) := by
  induction l with
  | nil =>
    intro stk ps fin _ hint
    obtain ⟨nd, hnd, -⟩ := hint
    cases hnd
  | cons nd rest ih =>
    intro stk ps fin h hint
    rw [newickLoop] at h
    cases hn : nodes[nd]? with
    | none => simp [hn] at h
    | some node =>
      simp only [hn] at h
      by_cases hlc : node.left_child.isSome = true
      · simp only [hlc, if_true] at h
        cases hrec : newickLoop nodes rest (nd :: stk) none with
        | none => simp [hrec] at h
        | some res =>
          obtain ⟨ps1, fin1⟩ := res
          simp only [hrec, Option.some.injEq, Prod.mk.injEq] at h
          obtain ⟨rfl, rfl⟩ := h
          refine ⟨[], ps1, nd, node, rfl, by simp, ?_, hn, ?_⟩
          · simp [List.find?, isInternalAt, hn, hlc]
          · rw [newickLoop]
            simp only [hn, hlc, if_true, hr, hrec, List.nil_append]
      · have hleaf : isInternalAt nodes nd = false := by
          simp only [isInternalAt, hn]
          simpa using hlc
        have hint2 : ∃ x ∈ rest, isInternalAt nodes x = true := by
          obtain ⟨x, hx, hxi⟩ := hint
          rcases List.mem_cons.mp hx with rfl | hx
          · rw [hleaf] at hxi
            cases hxi
          · exact ⟨x, hx, hxi⟩
        simp only [hlc, if_false] at h
        by_cases hsib : node.right_sib.isSome = true
        · simp only [hsib, if_true] at h
          cases hrec : newickLoop nodes rest stk none with
          | none => simp [hrec] at h
          | some res =>
            obtain ⟨ps1, fin1⟩ := res
            simp only [hrec, Option.some.injEq, Prod.mk.injEq] at h
            obtain ⟨rfl, rfl⟩ := h
            obtain ⟨A, B, x, xnode, hps, hA, hfind, hx, hrun⟩ := ih stk ps1 _ hrec hint2
            refine ⟨Piece.tip nd (node.number + 1) node.edge_length :: Piece.comma :: A, B, x,
              xnode, by rw [hps]; rfl, ?_, ?_, hx, ?_⟩
            · intro y hy
              rcases List.mem_cons.mp hy with rfl | hy
              · exact ⟨rfl, rfl⟩
              · rcases List.mem_cons.mp hy with rfl | hy
                · exact ⟨rfl, rfl⟩
                · exact hA y hy
            · simp only [List.find?, hleaf]
              exact hfind
            · rw [newickLoop]
              simp only [hn, hlc, if_false, hsib, if_true, hrun]
              rfl
        · simp only [hsib, if_false] at h
          cases hcl : closeNodes nodes stk with
          | none => simp [hcl] at h
          | some cres =>
            obtain ⟨cs, stk1⟩ := cres
            simp only [hcl] at h
            cases hrec : newickLoop nodes rest stk1 none with
            | none => simp [hrec] at h
            | some res =>
              obtain ⟨ps1, fin1⟩ := res
              simp only [hrec, Option.some.injEq, Prod.mk.injEq] at h
              obtain ⟨rfl, rfl⟩ := h
              obtain ⟨A, B, x, xnode, hps, hA, hfind, hx, hrun⟩ :=
                ih stk1 ps1 _ hrec hint2
              refine ⟨Piece.tip nd (node.number + 1) node.edge_length :: (cs ++ A), B, x,
                xnode, by rw [hps]; simp, ?_, ?_, hx, ?_⟩
              · intro y hy
                rcases List.mem_cons.mp hy with rfl | hy
                · exact ⟨rfl, rfl⟩
                · rcases List.mem_append.mp hy with hy | hy
                  · exact closeNodes_plain nodes stk cs stk1 hcl y hy
                  · exact hA y hy
              · simp only [List.find?, hleaf]
                exact hfind
              · rw [newickLoop]
                simp only [hn, hlc, if_false, hsib, hcl, hrun]
                simp

/-- The traversal without root tip appends no root tip text. -/
theorem newickLoop_no_root_tip (nodes : List Node) (l : List Nat) :
    ∀ (stk : List Nat) (ps : List Piece) (fin : List Nat),
      newickLoop nodes l stk none = some (ps, fin) → ∀ x ∈ ps, x.isRootTip = false := by
  induction l with
  | nil =>
    intro stk ps fin h
    simp only [newickLoop, Option.some.injEq, Prod.mk.injEq] at h
    obtain ⟨rfl, -⟩ := h
    simp
  | cons nd rest ih =>
    intro stk ps fin h
    rw [newickLoop] at h
    cases hn : nodes[nd]? with
    | none => simp [hn] at h
    | some node =>
      simp only [hn] at h
      split at h
      · cases hrec : newickLoop nodes rest (nd :: stk) none with
        | none => simp [hrec] at h
        | some res =>
          obtain ⟨ps1, fin1⟩ := res
          simp only [hrec, Option.some.injEq, Prod.mk.injEq] at h
          obtain ⟨rfl, rfl⟩ := h
          intro x hx
          rcases List.mem_cons.mp hx with rfl | hx
          · rfl
          · exact ih _ _ _ hrec x hx
      · split at h
        · cases hrec : newickLoop nodes rest stk none with
          | none => simp [hrec] at h
          | some res =>
            obtain ⟨ps1, fin1⟩ := res
            simp only [hrec, Option.some.injEq, Prod.mk.injEq] at h
            obtain ⟨rfl, rfl⟩ := h
            intro x hx
            rcases List.mem_cons.mp hx with rfl | hx
            · rfl
            · rcases List.mem_cons.mp hx with rfl | hx
              · rfl
              · exact ih _ _ _ hrec x hx
        · cases hcl : closeNodes nodes stk with
          | none => simp [hcl] at h
          | some cres =>
            obtain ⟨cs, stk1⟩ := cres
            simp only [hcl] at h
            cases hrec : newickLoop nodes rest stk1 none with
            | none => simp [hrec] at h
            | some res =>
              obtain ⟨ps1, fin1⟩ := res
              simp only [hrec, Option.some.injEq, Prod.mk.injEq] at h
              obtain ⟨rfl, rfl⟩ := h
              intro x hx
              rcases List.mem_cons.mp hx with rfl | hx
              · rfl
              · rcases List.mem_append.mp hx with hx | hx
                · exact (closeNodes_plain nodes stk cs stk1 hcl x hx).2
                · exact ih _ _ _ hrec x hx

/-- C16: for every tree with a valid root whose preorder cache contains at least
one internal node, and on which `makeNewick` is defined, `makeNewick` on the
unrooted version of the tree equals `makeNewick` on the same tree marked rooted
with the text `"<root number + 1>:<edge length of the first internal node
visited, formatted>,"` inserted immediately after the first `"("` that is
appended; the root tip is appended exactly once and nothing else differs. -/
theorem makeNewick_unrooted_inserts (fmt : Nat → ℚ → String) (p : Nat) (t : Tree)
    (r : Nat) (rnode : Node) (out : String)
    (hroot : t.root = some r) (hr : t.nodes[r]? = some rnode)
    (hint : ∃ nd ∈ t.preorder, isInternalAt t.nodes nd = true)
    (hrooted : makeNewick fmt { tree := some { t with is_rooted := true } } p = some out) :
    ∃ A B nd node fin,
      makeNewickPieces { tree := some { t with is_rooted := true } } =
        some (A ++ Piece.lparen nd :: B, fin) ∧
      makeNewickPieces { tree := some { t with is_rooted := false } } =
        some (A ++ Piece.lparen nd ::
          Piece.rootTip (rnode.number + 1) node.edge_length :: Piece.comma :: B, fin) ∧
      (∀ x ∈ A, x.isLparen = false ∧ x.isRootTip = false) ∧
      (∀ x ∈ B, x.isRootTip = false) ∧
      t.preorder.find? (isInternalAt t.nodes) = some nd ∧ t.nodes[nd]? = some node ∧
      out = renderPieces fmt p A ++ "(" ++ renderPieces fmt p B ∧
      makeNewick fmt { tree := some { t with is_rooted := false } } p =
        some (renderPieces fmt p A ++ "(" ++
          (toString (rnode.number + 1) ++ ":" ++ fmt p node.edge_length ++ ",") ++
          renderPieces fmt p B) := by
  cases hp : newickLoop t.nodes t.preorder [] none with
  | none => simp [makeNewick, makeNewickPieces, hp] at hrooted
  | some res =>
    obtain ⟨ps, fin⟩ := res
    obtain ⟨A, B, nd, node, hps, hA, hfind, hnd, hrun⟩ :=
      newickLoop_root_tip t.nodes r rnode hr t.preorder [] ps fin hp hint
    have hB : ∀ x ∈ B, x.isRootTip = false := by
      intro x hx
      apply newickLoop_no_root_tip t.nodes t.preorder [] ps fin hp x
      rw [hps]
      exact List.mem_append_right _ (List.mem_cons_of_mem _ hx)
    have h1 : makeNewickPieces { tree := some { t with is_rooted := true } } =
        some (A ++ Piece.lparen nd :: B, fin) := by
      simp only [makeNewickPieces, if_true, hp, hps]
    have h2 : makeNewickPieces { tree := some { t with is_rooted := false } } =
        some (A ++ Piece.lparen nd ::
          Piece.rootTip (rnode.number + 1) node.edge_length :: Piece.comma :: B, fin) := by
      simp only [makeNewickPieces, Bool.false_eq_true, if_false, hroot, hrun]
    refine ⟨A, B, nd, node, fin, h1, h2, hA, hB, hfind, hnd, ?_, ?_⟩
    · simp only [makeNewick, h1, Option.some.injEq] at hrooted
      rw [← hrooted, renderPieces_append, renderPieces, renderPiece, String.append_assoc]
    · simp only [makeNewick, h2]
      rw [renderPieces_append]
      simp only [renderPieces, renderPiece, String.append_assoc]

/-- Witness of C16: the tree of `createTestTree`, whose root has number 5 and whose
first internal node has edge length 0.1. -/
theorem makeNewick_unrooted_inserts_witness :
    makeNewick formatFixed { tree := some { testTree with is_rooted := true } } 1 =
      some "((1:0.1,2:0.1):0.1,3:0.1)" ∧
    ∃ A B nd node fin,
      makeNewickPieces { tree := some { testTree with is_rooted := true } } =
        some (A ++ Piece.lparen nd :: B, fin) ∧
      makeNewickPieces { tree := some { testTree with is_rooted := false } } =
        some (A ++ Piece.lparen nd ::
          Piece.rootTip ((5 : Int) + 1) node.edge_length :: Piece.comma :: B, fin) ∧
      testTree.preorder.find? (isInternalAt testTree.nodes) = some nd ∧
      testTree.nodes[nd]? = some node ∧
      makeNewick formatFixed { tree := some { testTree with is_rooted := false } } 1 =
        some (renderPieces formatFixed 1 A ++ "(" ++
          (toString ((5 : Int) + 1) ++ ":" ++ formatFixed 1 node.edge_length ++ ",") ++
          renderPieces formatFixed 1 B) := by
  have hfix2 : makeNewick formatFixed { tree := some { testTree with is_rooted := true } } 1 =
      some "((1:0.1,2:0.1):0.1,3:0.1)" := makeNewick_testTreeWith_literal 0 (1 / 10)
  obtain ⟨A, B, nd, node, fin, h1, h2, -, -, h5, h6, -, h8⟩ :=
    makeNewick_unrooted_inserts formatFixed 1 testTree 0
      { parent := none, left_child := some 1, right_sib := none, number := 5,
        name := "root node", edge_length := 0 }
      "((1:0.1,2:0.1):0.1,3:0.1)" rfl rfl ⟨1, by decide, by decide⟩ hfix2
  exact ⟨hfix2, A, B, nd, node, fin, h1, h2, h5, h6, h8⟩

end claims_newick_root_tip

/-! ## Newick strings: the pops of internal nodes (C15) -/

section claims_newick_pops

theorem closeNodes_head (nodes : List Node) (y : Nat) (ys : List Nat) (cs : List Piece)
    (stk1 : List Nat) (h : closeNodes nodes (y :: ys) = some (cs, stk1)) :
    ∃ x tl, cs = x :: tl ∧ x ≠ Piece.comma ∧ x.popped = some y := by
  rw [closeNodes] at h
  cases hn : nodes[y]? with
  | none => simp [hn] at h
  | some popped =>
    simp only [hn] at h
    split at h
    · simp only [Option.some.injEq, Prod.mk.injEq] at h
      obtain ⟨rfl, -⟩ := h
      exact ⟨_, _, rfl, by simp, rfl⟩
    · cases ys with
      | nil =>
        simp only [Option.some.injEq, Prod.mk.injEq] at h
        obtain ⟨rfl, -⟩ := h
        exact ⟨_, _, rfl, by simp, rfl⟩
      | cons z zs =>
        simp only at h
        cases hc : closeNodes nodes (z :: zs) with
        | none => simp [hc] at h
        | some res =>
          obtain ⟨ps, st⟩ := res
          simp only [hc, Option.some.injEq, Prod.mk.injEq] at h
          obtain ⟨rfl, -⟩ := h
          exact ⟨_, _, rfl, by simp, rfl⟩

theorem sound_cons (nodes : List Node) (x : Piece) (ps : List Piece)
    (hx : x.popped = none) (h : PopsFollowed nodes ps ∧ BarePops nodes ps) :
    PopsFollowed nodes (x :: ps) ∧ BarePops nodes (x :: ps) := by
  constructor
  · intro k nd len hk
    cases k with
    | zero =>
      simp only [List.getElem?_cons_zero, Option.some.injEq] at hk
      subst hk
      cases hx
    | succ k =>
      simp only [List.getElem?_cons_succ] at hk ⊢
      exact h.1 k nd len hk
  · intro k nd hk
    cases k with
    | zero =>
      simp only [List.getElem?_cons_zero, Option.some.injEq] at hk
      subst hk
      cases hx
    | succ k =>
      simp only [List.getElem?_cons_succ] at hk
      exact h.2 k nd hk

theorem sound_close (nodes : List Node) (stk : List Nat) :
    ∀ (cs : List Piece) (stk1 : List Nat) (ps : List Piece),
      closeNodes nodes stk = some (cs, stk1) →
      PopsFollowed nodes ps ∧ BarePops nodes ps →
      PopsFollowed nodes (cs ++ ps) ∧ BarePops nodes (cs ++ ps) := by
  induction stk with
  | nil =>
    intro cs stk1 ps h hps
    simp only [closeNodes, Option.some.injEq, Prod.mk.injEq] at h
    obtain ⟨rfl, -⟩ := h
    exact hps
  | cons top rest ih =>
    intro cs stk1 ps h hps
    have h0 := h
    rw [closeNodes] at h
    cases hn : nodes[top]? with
    | none => simp [hn] at h
    | some popped =>
      simp only [hn] at h
      by_cases hsib : popped.right_sib.isSome = true
      · simp only [hsib, if_true, Option.some.injEq, Prod.mk.injEq] at h
        obtain ⟨rfl, -⟩ := h
        have h1 := sound_cons nodes Piece.comma ps rfl hps
        constructor
        · intro k nd len hk
          cases k with
          | zero =>
            simp only [List.cons_append, List.nil_append, List.getElem?_cons_zero,
              Option.some.injEq, Piece.rparenLen.injEq] at hk
            obtain ⟨rfl, rfl⟩ := hk
            exact ⟨popped, hn, rfl, by simp [hsib]⟩
          | succ k =>
            simp only [List.cons_append, List.nil_append, List.getElem?_cons_succ] at hk
            have h2 := h1.1 k nd len hk
            simpa using h2
        · intro k nd hk
          cases k with
          | zero => simp at hk
          | succ k =>
            simp only [List.cons_append, List.nil_append, List.getElem?_cons_succ] at hk
            exact h1.2 k nd hk
      · simp only [hsib, if_false] at h
        cases rest with
        | nil =>
          simp only [Option.some.injEq, Prod.mk.injEq] at h
          obtain ⟨rfl, -⟩ := h
          constructor
          · intro k nd len hk
            cases k with
            | zero => simp at hk
            | succ k =>
              simp only [List.cons_append, List.nil_append, List.getElem?_cons_succ] at hk ⊢
              exact hps.1 k nd len hk
          · intro k nd hk
            cases k with
            | zero =>
              simp only [List.cons_append, List.nil_append, List.getElem?_cons_zero,
                Option.some.injEq, Piece.rparen.injEq] at hk
              subst hk
              refine ⟨popped, hn, ?_⟩
              simpa using hsib
            | succ k =>
              simp only [List.cons_append, List.nil_append, List.getElem?_cons_succ] at hk
              exact hps.2 k nd hk
        | cons y ys =>
          simp only at h
          cases hc : closeNodes nodes (y :: ys) with
          | none => simp [hc] at h
          | some res =>
            obtain ⟨cs1, st⟩ := res
            simp only [hc, Option.some.injEq, Prod.mk.injEq] at h
            obtain ⟨rfl, -⟩ := h
            have h1 := ih cs1 _ ps hc hps
            obtain ⟨x, tl, hcs1, hxc, -⟩ := closeNodes_head nodes y ys cs1 _ hc
            constructor
            · intro k nd len hk
              cases k with
              | zero =>
                simp only [List.cons_append, List.getElem?_cons_zero, Option.some.injEq,
                  Piece.rparenLen.injEq] at hk
                obtain ⟨rfl, rfl⟩ := hk
                refine ⟨popped, hn, rfl, ?_⟩
                simp only [hsib, iff_false]
                rw [hcs1]
                simp only [List.cons_append, Nat.zero_add, List.getElem?_cons_succ,
                  List.getElem?_cons_zero, Option.some.injEq]
                exact ⟨fun h => absurd h hxc, fun h => by cases h⟩
              | succ k =>
                simp only [List.cons_append, List.getElem?_cons_succ] at hk ⊢
                exact h1.1 k nd len hk
            · intro k nd hk
              cases k with
              | zero => simp at hk
              | succ k =>
                simp only [List.cons_append, List.getElem?_cons_succ] at hk
                exact h1.2 k nd hk

theorem sound_loop (nodes : List Node) (l : List Nat) :
    ∀ (stk : List Nat) (rt : Option Nat) (ps : List Piece) (fin : List Nat),
      newickLoop nodes l stk rt = some (ps, fin) →
      PopsFollowed nodes ps ∧ BarePops nodes ps := by
  induction l with
  | nil =>
    intro stk rt ps fin h
    simp only [newickLoop, Option.some.injEq, Prod.mk.injEq] at h
    obtain ⟨rfl, -⟩ := h
    exact ⟨fun k nd len hk => by simp at hk, fun k nd hk => by simp at hk⟩
  | cons nd rest ih =>
    intro stk rt ps fin h
    rw [newickLoop] at h
    cases hn : nodes[nd]? with
    | none => simp [hn] at h
    | some node =>
      simp only [hn] at h
      split at h
      · cases rt with
        | none =>
          simp only at h
          cases hrec : newickLoop nodes rest (nd :: stk) none with
          | none => simp [hrec] at h
          | some res =>
            obtain ⟨ps1, fin1⟩ := res
            simp only [hrec, Option.some.injEq, Prod.mk.injEq] at h
            obtain ⟨rfl, -⟩ := h
            exact sound_cons nodes _ _ rfl (ih _ _ _ _ hrec)
        | some r =>
          simp only at h
          cases hr : nodes[r]? with
          | none => simp [hr] at h
          | some rnode =>
            simp only [hr] at h
            cases hrec : newickLoop nodes rest (nd :: stk) none with
            | none => simp [hrec] at h
            | some res =>
              obtain ⟨ps1, fin1⟩ := res
              simp only [hrec, Option.some.injEq, Prod.mk.injEq] at h
              obtain ⟨rfl, -⟩ := h
              exact sound_cons nodes _ _ rfl (sound_cons nodes _ _ rfl
                (sound_cons nodes _ _ rfl (ih _ _ _ _ hrec)))
      · split at h
        · cases hrec : newickLoop nodes rest stk rt with
          | none => simp [hrec] at h
          | some res =>
            obtain ⟨ps1, fin1⟩ := res
            simp only [hrec, Option.some.injEq, Prod.mk.injEq] at h
            obtain ⟨rfl, -⟩ := h
            exact sound_cons nodes _ _ rfl (sound_cons nodes _ _ rfl (ih _ _ _ _ hrec))
        · cases hcl : closeNodes nodes stk with
          | none => simp [hcl] at h
          | some cres =>
            obtain ⟨cs, stk1⟩ := cres
            simp only [hcl] at h
            cases hrec : newickLoop nodes rest stk1 rt with
            | none => simp [hrec] at h
            | some res =>
              obtain ⟨ps1, fin1⟩ := res
              simp only [hrec, Option.some.injEq, Prod.mk.injEq] at h
              obtain ⟨rfl, -⟩ := h
              exact sound_cons nodes _ _ rfl
                (sound_close nodes stk cs stk1 ps1 hcl (ih _ _ _ _ hrec))

theorem popsOf_append (ps qs : List Piece) : popsOf (ps ++ qs) = popsOf ps ++ popsOf qs := by
  simp [popsOf, List.filterMap_append]

/-- The cascade of pops on a stack whose top has no right sibling starts with the
pop of the top and goes on as the cascade on the rest of the stack. -/
theorem closeNodes_push_last (nodes : List Node) (nd : Nat) (node : Node) (stk : List Nat)
    (cs : List Piece) (stk1 : List Nat) (hn : nodes[nd]? = some node)
    (hsib : node.right_sib = none) (h : closeNodes nodes stk = some (cs, stk1)) :
    ∃ x, x.popped = some nd ∧ closeNodes nodes (nd :: stk) = some (x :: cs, stk1) := by
  cases stk with
  | nil =>
    simp only [closeNodes, Option.some.injEq, Prod.mk.injEq] at h
    obtain ⟨rfl, rfl⟩ := h
    exact ⟨Piece.rparen nd, rfl, by simp [closeNodes, hn, hsib]⟩
  | cons y ys =>
    exact ⟨Piece.rparenLen nd node.edge_length, rfl, by
      rw [closeNodes]
      simp only [hn, hsib, Option.isSome_none, Bool.false_eq_true, if_false, h]⟩

/-- The traversal of a forest: whatever the stack and the rest of the cache, the
pieces appended are those of the forest, then those of the cascade of pops on
the stack, then those for the rest of the cache; the forest's own pieces pop
each of its internal nodes once. -/
theorem forest_run (nodes : List Node) (p : Nat) (l : List Nat) (hf : Forest nodes p l) :
    ∀ (stk rest : List Nat) (cs : List Piece) (stk1 : List Nat) (ps : List Piece)
      (fin : List Nat),
      closeNodes nodes stk = some (cs, stk1) →
      newickLoop nodes rest stk1 none = some (ps, fin) →
      ∃ F, newickLoop nodes (l ++ rest) stk none = some (F ++ (cs ++ ps), fin) ∧
        (popsOf F).Perm (l.filter (isInternalAt nodes)) := by
  induction hf with
  | lastLeaf p nd node hn _ hlc hsib =>
    intro stk rest cs stk1 ps fin hcl hrest
    refine ⟨[Piece.tip nd (node.number + 1) node.edge_length], ?_, ?_⟩
    · simp only [List.singleton_append]
      rw [newickLoop]
      simp only [hn, hlc, hsib, Option.isSome_none, Bool.false_eq_true, if_false, hcl, hrest]
    · simp [popsOf, Piece.popped, List.filter, isInternalAt, hn, hlc]
  | lastInner p nd node c cs0 hn _ hlc hsib _ ih =>
    intro stk rest cs stk1 ps fin hcl hrest
    obtain ⟨x, hx, hcl2⟩ := closeNodes_push_last nodes nd node stk cs stk1 hn hsib hcl
    obtain ⟨F1, hrun, hperm⟩ := ih (nd :: stk) rest (x :: cs) stk1 ps fin hcl2 hrest
    refine ⟨Piece.lparen nd :: (F1 ++ [x]), ?_, ?_⟩
    · rw [List.cons_append, newickLoop]
      simp only [hn, hlc, Option.isSome_some, if_true, hrun]
      simp
    · have hint : isInternalAt nodes nd = true := by simp [isInternalAt, hn, hlc]
      rw [List.filter_cons_of_pos hint]
      have hp : popsOf (Piece.lparen nd :: (F1 ++ [x])) = popsOf F1 ++ [nd] := by
        have h1 : popsOf [x] = [nd] := by
          unfold popsOf
          rw [List.filterMap_cons_some hx]
          rfl
        have h2 : popsOf (Piece.lparen nd :: (F1 ++ [x])) = popsOf (F1 ++ [x]) := rfl
        rw [h2, popsOf_append, h1]
      rw [hp]
      exact (List.perm_append_singleton nd (popsOf F1)).trans (List.Perm.cons nd hperm)
  | consLeaf p nd node nxt rest0 hn _ hlc hsib _ ih =>
    intro stk rest cs stk1 ps fin hcl hrest
    obtain ⟨F2, hrun, hperm⟩ := ih stk rest cs stk1 ps fin hcl hrest
    refine ⟨Piece.tip nd (node.number + 1) node.edge_length :: Piece.comma :: F2, ?_, ?_⟩
    · rw [List.cons_append, newickLoop]
      simp only [hn, hlc, hsib, Option.isSome_none, Bool.false_eq_true, if_false,
        Option.isSome_some, if_true, hrun]
      rfl
    · have hleaf : ¬ isInternalAt nodes nd = true := by simp [isInternalAt, hn, hlc]
      rw [List.filter_cons_of_neg hleaf]
      have hp : popsOf (Piece.tip nd (node.number + 1) node.edge_length :: Piece.comma :: F2) =
          popsOf F2 := by
        simp [popsOf, Piece.popped]
      rw [hp]
      exact hperm
  | consInner p nd node c cs0 nxt rest0 hn _ hlc hsib _ _ ih1 ih2 =>
    intro stk rest cs stk1 ps fin hcl hrest
    obtain ⟨F2, hrun2, hperm2⟩ := ih2 stk rest cs stk1 ps fin hcl hrest
    have hcl1 : closeNodes nodes (nd :: stk) =
        some ([Piece.rparenLen nd node.edge_length, Piece.comma], stk) := by
      rw [closeNodes]
      simp only [hn, hsib, Option.isSome_some, if_true]
    obtain ⟨F1, hrun1, hperm1⟩ := ih1 (nd :: stk) ((nxt :: rest0) ++ rest)
      [Piece.rparenLen nd node.edge_length, Piece.comma] stk _ fin hcl1 hrun2
    refine ⟨Piece.lparen nd ::
      (F1 ++ [Piece.rparenLen nd node.edge_length, Piece.comma] ++ F2), ?_, ?_⟩
    · have hl : (nd :: (c :: cs0 ++ nxt :: rest0)) ++ rest =
          nd :: ((c :: cs0) ++ ((nxt :: rest0) ++ rest)) := by simp
      rw [hl, newickLoop]
      simp only [hn, hlc, Option.isSome_some, if_true, hrun1]
      simp
    · have hint : isInternalAt nodes nd = true := by simp [isInternalAt, hn, hlc]
      rw [List.filter_cons_of_pos hint, List.filter_append]
      have hp : popsOf (Piece.lparen nd ::
          (F1 ++ [Piece.rparenLen nd node.edge_length, Piece.comma] ++ F2)) =
          popsOf F1 ++ nd :: popsOf F2 := by
        simp [popsOf, Piece.popped, List.filterMap_append]
      rw [hp]
      exact List.perm_middle.trans (List.Perm.cons nd (hperm1.append hperm2))

/-- Before the first internal node the root tip plays no part. -/
theorem newickLoop_leaves (nodes : List Node) (r : Nat) (l : List Nat)
    (hl : ∀ nd ∈ l, isInternalAt nodes nd = false) :
    ∀ stk, newickLoop nodes l stk (some r) = newickLoop nodes l stk none := by
  induction l with
  | nil => intro stk; rfl
  | cons nd rest ih =>
    intro stk
    have hnd := hl nd (List.mem_cons_self _ _)
    have ih2 := ih (fun x hx => hl x (List.mem_cons_of_mem _ hx))
    rw [newickLoop, newickLoop]
    cases hn : nodes[nd]? with
    | none => rfl
    | some node =>
      have hlc : node.left_child.isSome = false := by
        simpa [isInternalAt, hn] using hnd
      simp only [hlc, Bool.false_eq_true, if_false, ih2]

theorem testTreeWith_wf (e0 e1 e2 e3 e4 e5 : ℚ) :
    (testTreeWith e0 e1 e2 e3 e4 e5).WellFormed := by
  have h1 : 0 ∉ [1, 2, 3, 4, 5] := by decide
  have h2 : [1, 2, 3, 4, 5].Nodup := by decide
  refine ⟨0, _, rfl, rfl, rfl, rfl, h1, h2, Or.inr ⟨1, [2, 3, 4, 5], rfl, rfl, ?_⟩⟩
  refine Forest.lastInner 0 1 _ 2 [3, 4, 5] rfl rfl rfl rfl ?_
  refine Forest.consInner 1 2 _ 3 [4] 5 [] rfl rfl rfl rfl ?_ ?_
  · refine Forest.consLeaf 2 3 _ 4 [] rfl rfl rfl rfl ?_
    exact Forest.lastLeaf 2 4 _ rfl rfl rfl rfl
  · exact Forest.lastLeaf 1 5 _ rfl rfl rfl rfl

/-- The traversal of a well-formed tree, rooted or not, is defined and pops each
internal node of the cache once, and nothing else. -/
theorem wellFormed_run (t : Tree) (hwf : t.WellFormed) :
    ∃ ps fin, newickLoop t.nodes t.preorder [] (if t.is_rooted then none else t.root) =
        some (ps, fin) ∧
      (popsOf ps).Perm (t.preorder.filter (isInternalAt t.nodes)) := by
  obtain ⟨r, rnode, hroot, hr, -, -, -, -, hshape⟩ := hwf
  have hrooted : ∃ ps fin, newickLoop t.nodes t.preorder [] none = some (ps, fin) ∧
      (popsOf ps).Perm (t.preorder.filter (isInternalAt t.nodes)) := by
    rcases hshape with ⟨-, hnil⟩ | ⟨c, cs, -, hpre, hf⟩
    · rw [hnil]
      exact ⟨[], [], rfl, List.Perm.refl _⟩
    · rw [hpre]
      obtain ⟨F, hrun, hperm⟩ := forest_run t.nodes r (c :: cs) hf [] [] [] [] [] [] rfl rfl
      rw [List.append_nil] at hrun
      exact ⟨F ++ ([] ++ []), [], hrun, by simpa using hperm⟩
  obtain ⟨ps0, fin0, hrun0, hperm0⟩ := hrooted
  by_cases hrt : t.is_rooted = true
  · rw [if_pos hrt]
    exact ⟨ps0, fin0, hrun0, hperm0⟩
  · rw [if_neg hrt, hroot]
    by_cases hint : ∃ nd ∈ t.preorder, isInternalAt t.nodes nd = true
    · obtain ⟨A, B, nd, node, hps, -, -, -, hrun⟩ :=
        newickLoop_root_tip t.nodes r rnode hr t.preorder [] ps0 fin0 hrun0 hint
      refine ⟨_, fin0, hrun, ?_⟩
      have hp : popsOf (A ++ Piece.lparen nd ::
          Piece.rootTip (rnode.number + 1) node.edge_length :: Piece.comma :: B) =
          popsOf ps0 := by
        rw [hps, popsOf_append, popsOf_append]
        rfl
      rw [hp]
      exact hperm0
    · have hl : ∀ nd ∈ t.preorder, isInternalAt t.nodes nd = false := by
        intro nd hnd
        cases h : isInternalAt t.nodes nd with
        | false => rfl
        | true => exact absurd ⟨nd, hnd, h⟩ hint
      rw [newickLoop_leaves t.nodes r t.preorder hl []]
      exact ⟨ps0, fin0, hrun0, hperm0⟩

/-- The traversal of a forest below a node other than the root, under a non-empty
stack: every pop among the forest's own pieces writes `"):<len>"`. -/
theorem forest_deep_pops (nodes : List Node) (r : Nat) (par : Nat) (l : List Nat)
    (hf : Forest nodes par l) :
    par ≠ r → r ∉ l →
    ∃ F, (∀ x ∈ F, popRule nodes (some r) x = true) ∧
      ∀ (top : Nat) (stk rest : List Nat) (cs : List Piece) (stk1 : List Nat)
        (ps : List Piece) (fin : List Nat),
        closeNodes nodes (top :: stk) = some (cs, stk1) →
        newickLoop nodes rest stk1 none = some (ps, fin) →
        newickLoop nodes (l ++ rest) (top :: stk) none = some (F ++ (cs ++ ps), fin) := by
  induction hf with
  | lastLeaf par nd node hn _ hlc hsib =>
    intro _ _
    refine ⟨[Piece.tip nd (node.number + 1) node.edge_length], ?_, ?_⟩
    · intro x hx
      rw [List.mem_singleton] at hx
      subst hx
      rfl
    · intro top stk rest cs stk1 ps fin hcl hrest
      rw [List.singleton_append, newickLoop]
      simp only [hn, hlc, hsib, Option.isSome_none, Bool.false_eq_true, if_false, hcl, hrest]
      rfl
  | lastInner par nd node c cs0 hn hpar hlc hsib _ ih =>
    intro hne hnot
    have hnd : nd ≠ r := fun h => hnot (h ▸ List.mem_cons_self _ _)
    have hkids : r ∉ c :: cs0 := fun h => hnot (List.mem_cons_of_mem _ h)
    obtain ⟨F1, hrule1, hrun1⟩ := ih hnd hkids
    refine ⟨Piece.lparen nd :: (F1 ++ [Piece.rparenLen nd node.edge_length]), ?_, ?_⟩
    · intro x hx
      rcases List.mem_cons.mp hx with rfl | hx
      · rfl
      · rcases List.mem_append.mp hx with hx | hx
        · exact hrule1 x hx
        · rw [List.mem_singleton] at hx
          subst hx
          have hp : ¬ (some par = some r) := fun h => hne (Option.some.inj h)
          simp [popRule, hn, hpar, hp]
    · intro top stk rest cs stk1 ps fin hcl hrest
      have hcl2 : closeNodes nodes (nd :: top :: stk) =
          some (Piece.rparenLen nd node.edge_length :: cs, stk1) := by
        rw [closeNodes]
        simp only [hn, hsib, Option.isSome_none, Bool.false_eq_true, if_false, hcl]
      have h := hrun1 nd (top :: stk) rest _ stk1 ps fin hcl2 hrest
      rw [List.cons_append, newickLoop]
      simp only [hn, hlc, Option.isSome_some, if_true, h]
      simp
  | consLeaf par nd node nxt rest0 hn _ hlc hsib _ ih =>
    intro hne hnot
    have hrest0 : r ∉ nxt :: rest0 := fun h => hnot (List.mem_cons_of_mem _ h)
    obtain ⟨F2, hrule2, hrun2⟩ := ih hne hrest0
    refine ⟨Piece.tip nd (node.number + 1) node.edge_length :: Piece.comma :: F2, ?_, ?_⟩
    · intro x hx
      rcases List.mem_cons.mp hx with rfl | hx
      · rfl
      · rcases List.mem_cons.mp hx with rfl | hx
        · rfl
        · exact hrule2 x hx
    · intro top stk rest cs stk1 ps fin hcl hrest
      have h := hrun2 top stk rest cs stk1 ps fin hcl hrest
      rw [List.cons_append, newickLoop]
      simp only [hn, hlc, hsib, Option.isSome_none, Bool.false_eq_true, if_false,
        Option.isSome_some, if_true, h]
      rfl
  | consInner par nd node c cs0 nxt rest0 hn _ hlc hsib _ _ ih1 ih2 =>
    intro hne hnot
    have hnd : nd ≠ r := fun h => hnot (h ▸ List.mem_cons_self _ _)
    have hkids : r ∉ c :: cs0 := fun h =>
      hnot (List.mem_cons_of_mem _ (List.mem_append_left _ h))
    have hrest0 : r ∉ nxt :: rest0 := fun h =>
      hnot (List.mem_cons_of_mem _ (List.mem_append_right _ h))
    obtain ⟨F1, hrule1, hrun1⟩ := ih1 hnd hkids
    obtain ⟨F2, hrule2, hrun2⟩ := ih2 hne hrest0
    refine ⟨Piece.lparen nd ::
      (F1 ++ [Piece.rparenLen nd node.edge_length, Piece.comma] ++ F2), ?_, ?_⟩
    · intro x hx
      rcases List.mem_cons.mp hx with rfl | hx
      · rfl
      · rcases List.mem_append.mp hx with hx | hx
        · rcases List.mem_append.mp hx with hx | hx
          · exact hrule1 x hx
          · rcases List.mem_cons.mp hx with rfl | hx
            · simp [popRule, hn, hsib]
            · rw [List.mem_singleton] at hx
              subst hx
              rfl
        · exact hrule2 x hx
    · intro top stk rest cs stk1 ps fin hcl hrest
      have h2 := hrun2 top stk rest cs stk1 ps fin hcl hrest
      have hcl1 : closeNodes nodes (nd :: top :: stk) =
          some ([Piece.rparenLen nd node.edge_length, Piece.comma], top :: stk) := by
        rw [closeNodes]
        simp only [hn, hsib, Option.isSome_some, if_true]
      have h1 := hrun1 nd (top :: stk) ((nxt :: rest0) ++ rest)
        [Piece.rparenLen nd node.edge_length, Piece.comma] (top :: stk) _ fin hcl1 h2
      have hl : (nd :: (c :: cs0 ++ nxt :: rest0)) ++ rest =
          nd :: ((c :: cs0) ++ ((nxt :: rest0) ++ rest)) := by simp
      rw [hl, newickLoop]
      simp only [hn, hlc, Option.isSome_some, if_true, h1]
      simp

/-- The traversal of the forest of the root's children, from an empty stack: the
pop of a child of the root without right sibling empties the stack and writes
`")"` alone; every other pop writes `"):<len>"`. -/
theorem forest_top_pops (nodes : List Node) (r : Nat) (par : Nat) (l : List Nat)
    (hf : Forest nodes par l) :
    par = r → r ∉ l →
    ∃ F, (∀ x ∈ F, popRule nodes (some r) x = true) ∧
      ∀ (rest : List Nat) (ps : List Piece) (fin : List Nat),
        newickLoop nodes rest [] none = some (ps, fin) →
        newickLoop nodes (l ++ rest) [] none = some (F ++ ps, fin) := by
  induction hf with
  | lastLeaf par nd node hn _ hlc hsib =>
    intro _ _
    refine ⟨[Piece.tip nd (node.number + 1) node.edge_length], ?_, ?_⟩
    · intro x hx
      rw [List.mem_singleton] at hx
      subst hx
      rfl
    · intro rest ps fin hrest
      rw [List.singleton_append, newickLoop]
      simp only [hn, hlc, hsib, Option.isSome_none, Bool.false_eq_true, if_false, closeNodes,
        hrest]
      rfl
  | lastInner par nd node c cs0 hn hpar hlc hsib hkidsf _ =>
    intro hpr hnot
    have hnd : nd ≠ r := fun h => hnot (h ▸ List.mem_cons_self _ _)
    have hkids : r ∉ c :: cs0 := fun h => hnot (List.mem_cons_of_mem _ h)
    obtain ⟨F1, hrule1, hrun1⟩ := forest_deep_pops nodes r nd _ hkidsf hnd hkids
    refine ⟨Piece.lparen nd :: (F1 ++ [Piece.rparen nd]), ?_, ?_⟩
    · intro x hx
      rcases List.mem_cons.mp hx with rfl | hx
      · rfl
      · rcases List.mem_append.mp hx with hx | hx
        · exact hrule1 x hx
        · rw [List.mem_singleton] at hx
          subst hx
          simp [popRule, hn, hpar, hsib, hpr]
    · intro rest ps fin hrest
      have hcl : closeNodes nodes [nd] = some ([Piece.rparen nd], []) := by
        rw [closeNodes]
        simp only [hn, hsib, Option.isSome_none, Bool.false_eq_true, if_false]
      have h := hrun1 nd [] rest _ [] ps fin hcl hrest
      rw [List.cons_append, newickLoop]
      simp only [hn, hlc, Option.isSome_some, if_true, h]
      simp
  | consLeaf par nd node nxt rest0 hn _ hlc hsib _ ih =>
    intro hpr hnot
    have hrest0 : r ∉ nxt :: rest0 := fun h => hnot (List.mem_cons_of_mem _ h)
    obtain ⟨F2, hrule2, hrun2⟩ := ih hpr hrest0
    refine ⟨Piece.tip nd (node.number + 1) node.edge_length :: Piece.comma :: F2, ?_, ?_⟩
    · intro x hx
      rcases List.mem_cons.mp hx with rfl | hx
      · rfl
      · rcases List.mem_cons.mp hx with rfl | hx
        · rfl
        · exact hrule2 x hx
    · intro rest ps fin hrest
      have h := hrun2 rest ps fin hrest
      rw [List.cons_append, newickLoop]
      simp only [hn, hlc, hsib, Option.isSome_none, Bool.false_eq_true, if_false,
        Option.isSome_some, if_true, h]
      rfl
  | consInner par nd node c cs0 nxt rest0 hn _ hlc hsib hkidsf _ _ ih2 =>
    intro hpr hnot
    have hnd : nd ≠ r := fun h => hnot (h ▸ List.mem_cons_self _ _)
    have hkids : r ∉ c :: cs0 := fun h =>
      hnot (List.mem_cons_of_mem _ (List.mem_append_left _ h))
    have hrest0 : r ∉ nxt :: rest0 := fun h =>
      hnot (List.mem_cons_of_mem _ (List.mem_append_right _ h))
    obtain ⟨F1, hrule1, hrun1⟩ := forest_deep_pops nodes r nd _ hkidsf hnd hkids
    obtain ⟨F2, hrule2, hrun2⟩ := ih2 hpr hrest0
    refine ⟨Piece.lparen nd ::
      (F1 ++ [Piece.rparenLen nd node.edge_length, Piece.comma] ++ F2), ?_, ?_⟩
    · intro x hx
      rcases List.mem_cons.mp hx with rfl | hx
      · rfl
      · rcases List.mem_append.mp hx with hx | hx
        · rcases List.mem_append.mp hx with hx | hx
          · exact hrule1 x hx
          · rcases List.mem_cons.mp hx with rfl | hx
            · simp [popRule, hn, hsib]
            · rw [List.mem_singleton] at hx
              subst hx
              rfl
        · exact hrule2 x hx
    · intro rest ps fin hrest
      have h2 := hrun2 rest ps fin hrest
      have hcl1 : closeNodes nodes [nd] =
          some ([Piece.rparenLen nd node.edge_length, Piece.comma], []) := by
        rw [closeNodes]
        simp only [hn, hsib, Option.isSome_some, if_true]
      have h1 := hrun1 nd [] ((nxt :: rest0) ++ rest)
        [Piece.rparenLen nd node.edge_length, Piece.comma] [] _ fin hcl1 h2
      have hl : (nd :: (c :: cs0 ++ nxt :: rest0)) ++ rest =
          nd :: ((c :: cs0) ++ ((nxt :: rest0) ++ rest)) := by simp
      rw [hl, newickLoop]
      simp only [hn, hlc, Option.isSome_some, if_true, h1]
      simp

/-- In the traversal of a well-formed tree, rooted or not, every piece follows
the rule of the pops. -/
theorem wellFormed_pop_rule (t : Tree) (hwf : t.WellFormed) (ps : List Piece)
    (fin : List Nat)
    (hrun : newickLoop t.nodes t.preorder [] (if t.is_rooted then none else t.root) =
      some (ps, fin)) :
    ∀ x ∈ ps, popRule t.nodes t.root x = true := by
  obtain ⟨r, rnode, hroot, hr, -, -, hnot, -, hshape⟩ := hwf
  have hrooted : ∃ ps0 fin0, newickLoop t.nodes t.preorder [] none = some (ps0, fin0) ∧
      ∀ x ∈ ps0, popRule t.nodes (some r) x = true := by
    rcases hshape with ⟨-, hnil⟩ | ⟨c, cs, -, hpre, hf⟩
    · rw [hnil]
      exact ⟨[], [], rfl, fun x hx => by cases hx⟩
    · rw [hpre] at hnot ⊢
      obtain ⟨F, hrule, hrunF⟩ := forest_top_pops t.nodes r r (c :: cs) hf rfl hnot
      have h := hrunF [] [] [] rfl
      rw [List.append_nil, List.append_nil] at h
      exact ⟨F, [], h, hrule⟩
  obtain ⟨ps0, fin0, hrun0, hrule0⟩ := hrooted
  rw [hroot]
  by_cases hrt : t.is_rooted = true
  · rw [if_pos hrt, hrun0] at hrun
    cases hrun
    exact hrule0
  · rw [if_neg hrt, hroot] at hrun
    by_cases hint : ∃ nd ∈ t.preorder, isInternalAt t.nodes nd = true
    · obtain ⟨A, B, nd, node, hps, -, -, -, hrun1⟩ :=
        newickLoop_root_tip t.nodes r rnode hr t.preorder [] ps0 fin0 hrun0 hint
      rw [hrun1] at hrun
      cases hrun
      intro x hx
      have hmem : ∀ y, y ∈ ps0 ↔ y ∈ A ∨ y = Piece.lparen nd ∨ y ∈ B := by
        intro y
        rw [hps, List.mem_append, List.mem_cons]
      rcases List.mem_append.mp hx with hx | hx
      · exact hrule0 x ((hmem x).mpr (Or.inl hx))
      · rcases List.mem_cons.mp hx with rfl | hx
        · rfl
        · rcases List.mem_cons.mp hx with rfl | hx
          · rfl
          · rcases List.mem_cons.mp hx with rfl | hx
            · rfl
            · exact hrule0 x ((hmem x).mpr (Or.inr (Or.inr hx)))
    · have hl : ∀ nd ∈ t.preorder, isInternalAt t.nodes nd = false := by
        intro nd hnd
        cases h : isInternalAt t.nodes nd with
        | false => rfl
        | true => exact absurd ⟨nd, hnd, h⟩ hint
      rw [newickLoop_leaves t.nodes r t.preorder hl [], hrun0] at hrun
      cases hrun
      exact hrule0

/-- C15, as stated, fails: on the (well-formed) tree of `createTestTree` with the
edge length 0.7 given to the first internal node, that node is popped with `")"`
alone, the stack being empty after the pop: the text `"):0.7"` is never
appended and 0.7 does not appear in the output. -/
theorem makeNewick_last_pop_bare :
    (testTreeWith 0 (7 / 10) (1 / 10) (1 / 10) (1 / 10) (1 / 10)).WellFormed ∧
    (1 ∈ (testTreeWith 0 (7 / 10) (1 / 10) (1 / 10) (1 / 10) (1 / 10)).preorder ∧
      isInternalAt (testTreeWith 0 (7 / 10) (1 / 10) (1 / 10) (1 / 10) (1 / 10)).nodes 1 =
        true) ∧
    makeNewickPieces
        { tree := some (testTreeWith 0 (7 / 10) (1 / 10) (1 / 10) (1 / 10) (1 / 10)) } =
      some ([.lparen 1, .lparen 2, .tip 3 1 (1 / 10), .comma, .tip 4 2 (1 / 10),
        .rparenLen 2 (1 / 10), .comma, .tip 5 3 (1 / 10), .rparen 1], []) ∧
    makeNewick formatFixed
        { tree := some (testTreeWith 0 (7 / 10) (1 / 10) (1 / 10) (1 / 10) (1 / 10)) } 1 =
      some "((1:0.1,2:0.1):0.1,3:0.1)" :=
  ⟨testTreeWith_wf _ _ _ _ _ _, ⟨by decide, rfl⟩, makeNewickPieces_testTreeWith _ _ _ _ _ _,
    makeNewick_testTreeWith_literal 0 (7 / 10)⟩

/-- C15, amended: in `makeNewick`, for every well-formed tree, rooted or not, the
traversal is defined, each internal node in the preorder cache is popped from
the stack exactly once and nothing else is popped; the pop of a node that has a
following sibling, or whose parent is not the root (the pop leaves nodes on the
stack), appends `"):<that node's edge length>"`, followed by a comma exactly
when the popped node has a following sibling; the pop of a node without
following sibling whose parent is the root (the pop that empties the stack
inside the loop) appends `")"` alone, and that node's edge length is not
written. -/
theorem makeNewick_pops (tm : TreeManip) (t : Tree) (ht : tm.tree = some t)
    (hwf : t.WellFormed) :
    ∃ ps fin, makeNewickPieces tm = some (ps, fin) ∧
      (∀ nd ∈ t.preorder, isInternalAt t.nodes nd = true → (popsOf ps).count nd = 1) ∧
      (∀ nd ∈ popsOf ps, nd ∈ t.preorder ∧ isInternalAt t.nodes nd = true) ∧
      PopsFollowed t.nodes ps ∧ BarePops t.nodes ps ∧
      (∀ x ∈ ps, popRule t.nodes t.root x = true) := by
  obtain ⟨ps, fin, hrun, hperm⟩ := wellFormed_run t hwf
  have hrule := wellFormed_pop_rule t hwf ps fin hrun
  obtain ⟨r, rnode, -, -, -, -, -, hnodup, -⟩ := hwf
  have hsound := sound_loop t.nodes t.preorder [] _ ps fin hrun
  refine ⟨ps, fin, by simp only [makeNewickPieces, ht, hrun], ?_, ?_, hsound.1, hsound.2,
    hrule⟩
  · intro nd hnd hint
    rw [hperm.count_eq]
    exact List.count_eq_one_of_mem (hnodup.filter _) (List.mem_filter.mpr ⟨hnd, hint⟩)
  · intro nd hnd
    exact List.mem_filter.mp (hperm.mem_iff.mp hnd)

/-- Witness of C15 (amended): the tree of `createTestTree`. -/
theorem makeNewick_pops_witness :
    testTree.WellFormed ∧
    ∃ ps fin, makeNewickPieces (createTestTree { tree := none }) = some (ps, fin) ∧
      (∀ nd ∈ testTree.preorder, isInternalAt testTree.nodes nd = true →
        (popsOf ps).count nd = 1) ∧
      (∀ nd ∈ popsOf ps, nd ∈ testTree.preorder ∧ isInternalAt testTree.nodes nd = true) ∧
      PopsFollowed testTree.nodes ps ∧ BarePops testTree.nodes ps ∧
      (∀ x ∈ ps, popRule testTree.nodes testTree.root x = true) :=
  ⟨testTreeWith_wf 0 (1 / 10) (1 / 10) (1 / 10) (1 / 10) (1 / 10),
    makeNewick_pops (createTestTree { tree := none }) testTree rfl
      (testTreeWith_wf 0 (1 / 10) (1 / 10) (1 / 10) (1 / 10) (1 / 10))⟩

end claims_newick_pops

/-! ## Option validation (C21) -/

section claims_options

variable {T : Type}

theorem normalizeLoop_ok (msg : String) (sum : ℚ) (l : List ℚ) (h : ∀ x ∈ l, 0 < x) :
    normalizeLoop msg sum l = Except.ok (l.map (fun x => x / sum)) := by
  induction l with
  | nil => rfl
  | cons x xs ih =>
    have hx : ¬ x ≤ 0 := not_le.mpr (h x (List.mem_cons_self _ _))
    rw [normalizeLoop, if_neg hx, ih (fun y hy => h y (List.mem_cons_of_mem _ hy))]
    rfl

theorem normalizeLoop_error (msg : String) (sum : ℚ) (l : List ℚ) (h : ∃ x ∈ l, x ≤ 0) :
    normalizeLoop msg sum l = Except.error msg := by
  induction l with
  | nil => simp at h
  | cons x xs ih =>
    rw [normalizeLoop]
    by_cases hx : x ≤ 0
    · rw [if_pos hx]
    · rw [if_neg hx]
      obtain ⟨y, hy, hy0⟩ := h
      rcases List.mem_cons.mp hy with rfl | hmem
      · exact absurd hy0 hx
      · rw [ih ⟨y, hmem, hy0⟩]

/-- The six checks of the validation, as one condition on the option values. -/
theorem processCommandLineOptions_cases (s : Strom T) :
    (((∃ f ∈ s.state_frequencies, f ≤ 0) ∨ (∃ x ∈ s.exchangeabilities, x ≤ 0) ∨
        s.gamma_shape ≤ 0 ∨ s.num_categ < 1 ∨ s.num_chains < 1 ∨
        ¬ (0 < s.heating_lambda ∧ s.heating_lambda ≤ 1)) ∧
      ∃ msg, processCommandLineOptions s = Except.error msg) ∨
    (((∀ f ∈ s.state_frequencies, 0 < f) ∧ (∀ x ∈ s.exchangeabilities, 0 < x) ∧
        0 < s.gamma_shape ∧ 1 ≤ s.num_categ ∧ 1 ≤ s.num_chains ∧
        0 < s.heating_lambda ∧ s.heating_lambda ≤ 1) ∧
      processCommandLineOptions s = Except.ok
        { s with
          state_frequencies := s.state_frequencies.map
            (fun f => f / s.state_frequencies.foldl (fun a b => a + b) 0)
          exchangeabilities := s.exchangeabilities.map
            (fun x => x / s.exchangeabilities.foldl (fun a b => a + b) 0) }) := by
  by_cases h1 : ∃ f ∈ s.state_frequencies, f ≤ 0
  · have hres : ∃ msg, processCommandLineOptions s = Except.error msg := by
      simp only [processCommandLineOptions, normalizeLoop_error _ _ _ h1]
      exact ⟨_, rfl⟩
    exact Or.inl ⟨Or.inl h1, hres⟩
  have h1p : ∀ f ∈ s.state_frequencies, 0 < f := fun f hf =>
    not_le.mp (fun hle => h1 ⟨f, hf, hle⟩)
  by_cases h2 : ∃ x ∈ s.exchangeabilities, x ≤ 0
  · have hres : ∃ msg, processCommandLineOptions s = Except.error msg := by
      simp only [processCommandLineOptions, normalizeLoop_ok _ _ _ h1p,
      normalizeLoop_error _ _ _ h2]
      exact ⟨_, rfl⟩
    exact Or.inl ⟨Or.inr (Or.inl h2), hres⟩
  have h2p : ∀ x ∈ s.exchangeabilities, 0 < x := fun x hx =>
    not_le.mp (fun hle => h2 ⟨x, hx, hle⟩)
  by_cases h3 : s.gamma_shape ≤ 0
  · have hres : ∃ msg, processCommandLineOptions s = Except.error msg := by
      simp only [processCommandLineOptions, normalizeLoop_ok _ _ _ h1p,
      normalizeLoop_ok _ _ _ h2p, if_pos h3]
      exact ⟨_, rfl⟩
    exact Or.inl ⟨Or.inr (Or.inr (Or.inl h3)), hres⟩
  by_cases h4 : s.num_categ < 1
  · have hres : ∃ msg, processCommandLineOptions s = Except.error msg := by
      simp only [processCommandLineOptions, normalizeLoop_ok _ _ _ h1p,
      normalizeLoop_ok _ _ _ h2p, if_neg h3, if_pos h4]
      exact ⟨_, rfl⟩
    exact Or.inl ⟨Or.inr (Or.inr (Or.inr (Or.inl h4))), hres⟩
  by_cases h5 : s.num_chains < 1
  · have hres : ∃ msg, processCommandLineOptions s = Except.error msg := by
      simp only [processCommandLineOptions, normalizeLoop_ok _ _ _ h1p,
      normalizeLoop_ok _ _ _ h2p, if_neg h3, if_neg h4, if_pos h5]
      exact ⟨_, rfl⟩
    exact Or.inl ⟨Or.inr (Or.inr (Or.inr (Or.inr (Or.inl h5)))), hres⟩
  by_cases h6 : s.heating_lambda ≤ 0 ∨ s.heating_lambda > 1
  · have hres : ∃ msg, processCommandLineOptions s = Except.error msg := by
      simp only [processCommandLineOptions, normalizeLoop_ok _ _ _ h1p,
        normalizeLoop_ok _ _ _ h2p, if_neg h3, if_neg h4, if_neg h5, if_pos h6]
      exact ⟨_, rfl⟩
    refine Or.inl ⟨Or.inr (Or.inr (Or.inr (Or.inr (Or.inr ?_)))), hres⟩
    rintro ⟨ha, hb⟩
    rcases h6 with h6 | h6
    · exact absurd ha (not_lt.mpr h6)
    · exact absurd hb (not_le.mpr h6)
  · refine Or.inr ⟨⟨h1p, h2p, not_le.mp h3, by omega, by omega, ?_, ?_⟩, ?_⟩
    · exact not_le.mp (fun h => h6 (Or.inl h))
    · exact not_lt.mp (fun h => h6 (Or.inr h))
    · simp only [processCommandLineOptions, normalizeLoop_ok _ _ _ h1p,
        normalizeLoop_ok _ _ _ h2p, if_neg h3, if_neg h4, if_neg h5, if_neg h6]

/-- For option values that are numbers, the validation of
`processCommandLineOptions` throws `XStrom` if and only if some state frequency
is `<= 0`, or some exchangeability is `<= 0`, or the gamma shape is `<= 0`, or
`ncateg < 1`, or `nchains < 1`, or the heat factor is not in `(0, 1]`; it
succeeds if and only if all six conditions are met (leaving the frequencies and
exchangeabilities divided by their sums and nothing else changed); heat factor
1 is accepted and heat factor 0 is rejected. -/
theorem processCommandLineOptions_validation (s : Strom T) :
    ((∃ msg, processCommandLineOptions s = Except.error msg) ↔
      ((∃ f ∈ s.state_frequencies, f ≤ 0) ∨ (∃ x ∈ s.exchangeabilities, x ≤ 0) ∨
        s.gamma_shape ≤ 0 ∨ s.num_categ < 1 ∨ s.num_chains < 1 ∨
        ¬ (0 < s.heating_lambda ∧ s.heating_lambda ≤ 1))) ∧
    ((∃ s1, processCommandLineOptions s = Except.ok s1) ↔
      ((∀ f ∈ s.state_frequencies, 0 < f) ∧ (∀ x ∈ s.exchangeabilities, 0 < x) ∧
        0 < s.gamma_shape ∧ 1 ≤ s.num_categ ∧ 1 ≤ s.num_chains ∧
        0 < s.heating_lambda ∧ s.heating_lambda ≤ 1)) ∧
    (∀ s1, processCommandLineOptions s = Except.ok s1 →
      s1 = { s with
        state_frequencies := s.state_frequencies.map
          (fun f => f / s.state_frequencies.foldl (fun a b => a + b) 0)
        exchangeabilities := s.exchangeabilities.map
          (fun x => x / s.exchangeabilities.foldl (fun a b => a + b) 0) }) ∧
    ((∃ s1, processCommandLineOptions { s with heating_lambda := 1 } = Except.ok s1) ↔
      ((∀ f ∈ s.state_frequencies, 0 < f) ∧ (∀ x ∈ s.exchangeabilities, 0 < x) ∧
        0 < s.gamma_shape ∧ 1 ≤ s.num_categ ∧ 1 ≤ s.num_chains)) ∧
    (∃ msg, processCommandLineOptions { s with heating_lambda := 0 } = Except.error msg) := by
  refine ⟨?_, ?_, ?_, ?_, ?_⟩
  · rcases processCommandLineOptions_cases s with ⟨hbad, hres⟩ | ⟨-, hres⟩
    · exact ⟨fun _ => hbad, fun _ => hres⟩
    · constructor
      · rintro ⟨msg, hmsg⟩
        rw [hres] at hmsg
        cases hmsg
      · rintro (⟨f, hf, hf0⟩ | ⟨x, hx, hx0⟩ | h | h | h | h)
        all_goals
          rcases processCommandLineOptions_cases s with ⟨-, hres2⟩ | ⟨hgood, -⟩
          · exact hres2
          · obtain ⟨g1, g2, g3, g4, g5, g6, g7⟩ := hgood
            first
              | exact absurd (g1 f hf) (not_lt.mpr hf0)
              | exact absurd (g2 x hx) (not_lt.mpr hx0)
              | exact absurd g3 (not_lt.mpr h)
              | exact absurd ⟨g6, g7⟩ h
              | omega
  · rcases processCommandLineOptions_cases s with ⟨hbad, msg, hres⟩ | ⟨hgood, hres⟩
    · constructor
      · rintro ⟨s1, hs1⟩
        rw [hres] at hs1
        cases hs1
      · rintro ⟨g1, g2, g3, g4, g5, g6, g7⟩
        rcases hbad with ⟨f, hf, hf0⟩ | ⟨x, hx, hx0⟩ | h | h | h | h
        · exact absurd (g1 f hf) (not_lt.mpr hf0)
        · exact absurd (g2 x hx) (not_lt.mpr hx0)
        · exact absurd g3 (not_lt.mpr h)
        · omega
        · omega
        · exact absurd ⟨g6, g7⟩ h
    · exact ⟨fun _ => hgood, fun _ => ⟨_, hres⟩⟩
  · intro s1 hs1
    rcases processCommandLineOptions_cases s with ⟨-, msg, hres⟩ | ⟨-, hres⟩
    · rw [hres] at hs1
      cases hs1
    · rw [hres] at hs1
      cases hs1
      rfl
  · rcases processCommandLineOptions_cases { s with heating_lambda := 1 } with
      ⟨hbad, msg, hres⟩ | ⟨hgood, hres⟩
    · constructor
      · rintro ⟨s1, hs1⟩
        rw [hres] at hs1
        cases hs1
      · rintro ⟨g1, g2, g3, g4, g5⟩
        rcases hbad with ⟨f, hf, hf0⟩ | ⟨x, hx, hx0⟩ | h | h | h | h
        · exact absurd (g1 f hf) (not_lt.mpr hf0)
        · exact absurd (g2 x hx) (not_lt.mpr hx0)
        · exact absurd g3 (not_lt.mpr h)
        · exact absurd g4 (not_le.mpr h)
        · exact absurd g5 (not_le.mpr h)
        · exact absurd ⟨one_pos, le_refl (1 : ℚ)⟩ h
    · obtain ⟨g1, g2, g3, g4, g5, -, -⟩ := hgood
      exact ⟨fun _ => ⟨g1, g2, g3, g4, g5⟩, fun _ => ⟨_, hres⟩⟩
  · rcases processCommandLineOptions_cases { s with heating_lambda := 0 } with
      ⟨-, hres⟩ | ⟨hgood, -⟩
    · exact hres
    · obtain ⟨-, -, -, -, -, g6, -⟩ := hgood
      exact absurd g6 (lt_irrefl (0 : ℚ))

/-- With the default option values the validation succeeds. -/
theorem processCommandLineOptions_validation_witness :
    ∃ s1, processCommandLineOptions stromDefaults = Except.ok s1 :=
  (processCommandLineOptions_validation stromDefaults).2.1.mpr
    ⟨by simp [stromDefaults], by simp [stromDefaults], by norm_num [stromDefaults],
      by decide, by decide, by norm_num [stromDefaults], by norm_num [stromDefaults]⟩

end claims_options

/-! ## The lifecycle of the ensemble (C22) -/

section claims_lifecycle_order

variable {T L : Type}

/-- The loop of `stepChains` passes every chain to `nextStep`, in order, and
records one call per chain. -/
theorem stepChainsLoop_spec (nextStep : Chain T → Nat → Nat → L → Chain T × L)
    (iteration sampling_freq : Nat) (cs : List (Chain T)) :
    ∀ (k : Nat) (lot : L),
      (stepChainsLoop nextStep iteration sampling_freq cs k lot).1.length = cs.length ∧
      List.Forall₂ (fun c c1 => ∃ l, c1 = (nextStep c iteration sampling_freq l).1) cs
        (stepChainsLoop nextStep iteration sampling_freq cs k lot).1 ∧
      (stepChainsLoop nextStep iteration sampling_freq cs k lot).2.2 =
        (List.range cs.length).map
          (fun j => Call.nextStep (k + j) iteration sampling_freq) := by
  induction cs with
  | nil => intro k lot; exact ⟨rfl, List.Forall₂.nil, rfl⟩
  | cons c cs ih =>
    intro k lot
    obtain ⟨h1, h2, h3⟩ := ih (k + 1) (nextStep c iteration sampling_freq lot).2
    refine ⟨?_, ?_, ?_⟩
    · simp only [stepChainsLoop, List.length_cons, h1]
    · exact List.Forall₂.cons ⟨lot, rfl⟩ h2
    · simp only [stepChainsLoop, h3, List.length_cons, List.range_succ_eq_map, List.map_cons,
        List.map_map, Nat.add_zero]
      congr 1
      apply List.map_congr_left
      intro j _
      simp only [Function.comp]
      congr 1
      omega

/-- What `stepChains` changes: the chains (each passed to `nextStep`), the
generator and the record of calls. -/
theorem stepChains_spec (nextStep : Chain T → Nat → Nat → L → Chain T × L)
    (st : RunState T L) (iteration : Nat) (sampling : Bool) :
    (stepChains nextStep st iteration sampling).strom.chains.length =
      st.strom.chains.length ∧
    List.Forall₂
      (fun c c1 => ∃ l, c1 =
        (nextStep c iteration (if sampling then st.strom.sample_freq else 0) l).1)
      st.strom.chains (stepChains nextStep st iteration sampling).strom.chains ∧
    (stepChains nextStep st iteration sampling).calls =
      st.calls ++ (List.range st.strom.chains.length).map
        (fun k => Call.nextStep k iteration (if sampling then st.strom.sample_freq else 0)) ∧
    (stepChains nextStep st iteration sampling).strom.swaps = st.strom.swaps ∧
    (stepChains nextStep st iteration sampling).strom.num_chains = st.strom.num_chains ∧
    (stepChains nextStep st iteration sampling).strom.num_iter = st.strom.num_iter ∧
    (stepChains nextStep st iteration sampling).strom.sample_freq = st.strom.sample_freq := by
  obtain ⟨h1, h2, h3⟩ := stepChainsLoop_spec nextStep iteration
    (if sampling then st.strom.sample_freq else 0) st.strom.chains 0 st.lot
  refine ⟨h1, h2, ?_, rfl, rfl, rfl, rfl⟩
  simp only [stepChains, h3, Nat.zero_add]

/-- C22, as stated, fails: nothing checks the phase of the ensemble.  On the three
chains of `ensemble3`, `stepChains` called after `stopChains` calls `nextStep`
on every chain (the calls are recorded after the one of `stopChains`) and every
chain is advanced (its tree moves from 10, 11, 12 to 11, 12, 13); and `sample`
called on a `Strom` object that has no chain at all (`initChains` never ran),
for a chain that was never started, emits its record. -/
theorem stepChains_after_stopChains_advances :
    (stepChains demoNextStep (stopChains demoStop runState3) 1 true).calls =
      [Call.stopChains, Call.nextStep 0 1 1, Call.nextStep 1 1 1, Call.nextStep 2 1 1] ∧
    (stopChains demoStop runState3).strom.chains.map Chain.tree = [10, 11, 12] ∧
    (stepChains demoNextStep (stopChains demoStop runState3) 1 true).strom.chains.map
      Chain.tree = [11, 12, 13] ∧
    ({} : Strom Nat).chains = [] ∧
    sample demoLogLikelihood demoLogJointPrior ({} : Strom Nat) (some []) 0 freshChain
        (createTestTree { tree := none }) =
      some [OutputCall.outputConsole 0 0 0,
        OutputCall.outputTree 0 (createTestTree { tree := none }),
        OutputCall.outputParameters 0 0 0 (1 / 2)] := by
  refine ⟨rfl, rfl, rfl, rfl, ?_⟩
  have hTL : calcTreeLength (createTestTree { tree := none }) = some (1 / 2) := by
    simp only [calcTreeLength, createTestTree, testTree, calcTreeLengthLoop,
      List.getElem?_cons_succ, List.getElem?_cons_zero]
    norm_num
  have hLL : demoLogLikelihood freshChain = 0 := by
    simp [demoLogLikelihood, freshChain]
  have hLP : demoLogJointPrior freshChain = 0 := rfl
  simp only [sample, hTL, hLL, hLP]
  rfl

/-- C22, amended: the ensemble does not check its lifecycle.  `stepChains` is
never rejected: called after `stopChains` it calls `nextStep` on every chain, in
the order of `_chains`, with the iteration number and the sampling interval
requested (`_sample_freq` or 0), right after the call of `stopChains`, and each
chain it leaves is the result of `nextStep` on the stopped chain; `sample` does
not look at the chains of the ensemble: with a non-zero `_sample_freq` and an
open output manager it emits its three outputs exactly when
`iteration % _sample_freq == 0`, and leaves the output untouched otherwise. -/
theorem lifecycle_unchecked (nextStep : Chain T → Nat → Nat → L → Chain T × L)
    (stop : Chain T → Chain T) (LL LP : Chain T → ℚ) (st : RunState T L)
    (iteration : Nat) (sampling : Bool) (s : Strom T) (out : List OutputCall)
    (chain : Chain T) (tm : TreeManip) (TL : ℚ) (hfreq : s.sample_freq ≠ 0)
    (htm : calcTreeLength tm = some TL) :
    (stepChains nextStep (stopChains stop st) iteration sampling).strom.chains.length =
      st.strom.chains.length ∧
    List.Forall₂
      (fun c c1 => ∃ l, c1 =
        (nextStep (stop c) iteration (if sampling then st.strom.sample_freq else 0) l).1)
      st.strom.chains
      (stepChains nextStep (stopChains stop st) iteration sampling).strom.chains ∧
    (stepChains nextStep (stopChains stop st) iteration sampling).calls =
      st.calls ++ Call.stopChains :: (List.range st.strom.chains.length).map
        (fun k => Call.nextStep k iteration (if sampling then st.strom.sample_freq else 0)) ∧
    sample LL LP s (some out) iteration chain tm =
      some (if iteration % s.sample_freq = 0 then
        out ++ [OutputCall.outputConsole iteration (LL chain) (LP chain),
          OutputCall.outputTree iteration tm,
          OutputCall.outputParameters iteration (LL chain) (LP chain) TL]
      else out) := by
  obtain ⟨h1, h2, h3, -⟩ := stepChains_spec nextStep (stopChains stop st) iteration sampling
  refine ⟨?_, ?_, ?_, ?_⟩
  · rw [h1]
    simp only [stopChains, List.length_map]
  · have hmap : (stopChains stop st).strom.chains = st.strom.chains.map stop := rfl
    have hfreq2 : (stopChains stop st).strom.sample_freq = st.strom.sample_freq := rfl
    rw [hmap, hfreq2] at h2
    exact (List.forall₂_map_left_iff.mp h2)
  · rw [h3]
    simp only [stopChains, List.length_map, List.append_assoc, List.singleton_append]
  · simp only [sample, if_neg hfreq, htm]
    split_ifs <;> rfl

/-- Witness of C22 (amended): the three chains of `ensemble3`, and a sample of
the test tree at iteration 4 with `_sample_freq = 1`. -/
theorem lifecycle_unchecked_witness :
    (stepChains demoNextStep (stopChains demoStop runState3) 1 true).calls =
      runState3.calls ++ Call.stopChains :: (List.range runState3.strom.chains.length).map
        (fun k => Call.nextStep k 1 (if true = true then runState3.strom.sample_freq else 0)) :=
  (lifecycle_unchecked demoNextStep demoStop demoLogLikelihood demoLogJointPrior runState3 1
    true ensemble3 [] freshChain (createTestTree { tree := none }) (1 / 2) (by decide)
    (by
      simp only [calcTreeLength, createTestTree, testTree, calcTreeLengthLoop,
        List.getElem?_cons_succ, List.getElem?_cons_zero]
      norm_num)).2.2.1

end claims_lifecycle_order

/-! ## The run: swap proposals and the swap matrix (C24) -/

section claims_run

variable {T L : Type}

theorem SwapInv_zero (s : Strom T) (hwf : s.WellFormed)
    (hzero : s.swaps = List.replicate (s.num_chains * s.num_chains) 0) : SwapInv s 0 := by
  refine ⟨hwf, ?_, ?_, ?_, ?_⟩
  · rw [hzero]
    exact selSum_replicate_zero _ _ _
  · rw [hzero, lowerSum, selSum_replicate_zero]
  · intro r hr
    rw [hzero, List.getElem?_replicate, if_pos]
    exact (tri_diag_lt s.num_chains r hr)
  · intro idx c hc
    rw [hzero, List.getElem?_replicate] at hc
    split at hc
    · cases hc
      exact Nat.le_refl 0
    · cases hc

theorem SwapInv_congr (s s1 : Strom T) (k : Nat) (h1 : s1.swaps = s.swaps)
    (h2 : s1.num_chains = s.num_chains) (h3 : s1.chains.length = s.chains.length)
    (h : SwapInv s k) : SwapInv s1 k := by
  unfold SwapInv Strom.WellFormed at *
  rw [h1, h2, h3]
  exact h

/-- One iteration of a loop of `run` on a well-formed ensemble of at least two
chains: every chain is stepped, then the swap proposal is made and counted. -/
theorem iterationBody_spec (lot_ops : Lot L) (LL LP : Chain T → ℚ)
    (nextStep : Chain T → Nat → Nat → L → Chain T × L) (sampling : Bool) (iteration : Nat)
    (st : RunState T L) (k : Nat)
    (hdraw : ∀ l lo hi, lo ≤ hi →
      lo ≤ (lot_ops.randint l lo hi).1 ∧ (lot_ops.randint l lo hi).1 ≤ hi)
    (hinv : SwapInv st.strom k) (hn : 2 ≤ st.strom.num_chains) (hk : k + 1 < UINT_MOD) :
    ∃ st1, iterationBody lot_ops LL LP nextStep sampling iteration st = some st1 ∧
      SwapInv st1.strom (k + 1) ∧ st1.strom.num_chains = st.strom.num_chains ∧
      st1.strom.num_iter = st.strom.num_iter ∧
      st1.strom.sample_freq = st.strom.sample_freq ∧
      st1.calls = st.calls ++ iterationCalls st.strom.num_chains
        (if sampling then st.strom.sample_freq else 0) iteration := by
  have hM : UINT_MOD = 4294967296 := rfl
  obtain ⟨hlen, -, hcalls, hsw, hnc, hni, hsf⟩ := stepChains_spec nextStep st iteration sampling
  have hinv1 : SwapInv (stepChains nextStep st iteration sampling).strom k :=
    SwapInv_congr _ _ k hsw hnc hlen hinv
  have hn1 : 2 ≤ (stepChains nextStep st iteration sampling).strom.num_chains := by
    rw [hnc]; exact hn
  have hfit : st.strom.num_chains * st.strom.num_chains < UINT_MOD := hinv.1.2.2
  have hlt : st.strom.num_chains < UINT_MOD := by nlinarith
  have e1 : (st.strom.num_chains + UINT_MOD - 1) % UINT_MOD = st.strom.num_chains - 1 := by
    have h : st.strom.num_chains + UINT_MOD - 1 = (st.strom.num_chains - 1) + UINT_MOD := by
      omega
    rw [h, Nat.add_mod_right, Nat.mod_eq_of_lt (by omega)]
  have e2 : (st.strom.num_chains + UINT_MOD - 2) % UINT_MOD = st.strom.num_chains - 2 := by
    have h : st.strom.num_chains + UINT_MOD - 2 = (st.strom.num_chains - 2) + UINT_MOD := by
      omega
    rw [h, Nat.add_mod_right, Nat.mod_eq_of_lt (by omega)]
  have hne : ¬ (stepChains nextStep st iteration sampling).strom.num_chains = 1 := by
    rw [hnc]; omega
  have hi := (hdraw (stepChains nextStep st iteration sampling).lot 0
    (st.strom.num_chains - 1) (Nat.zero_le _)).2
  have hr := (hdraw (lot_ops.randint (stepChains nextStep st iteration sampling).lot 0
    (st.strom.num_chains - 1)).2 0 (st.strom.num_chains - 2) (Nat.zero_le _)).2
  rw [← hnc] at hi hr
  obtain ⟨s2, hs2, hnc2, hinv2⟩ := swapChains_inv_step LL LP
    (stepChains nextStep st iteration sampling).strom _ _
    (lot_ops.logUniform (lot_ops.randint (lot_ops.randint
      (stepChains nextStep st iteration sampling).lot 0
      ((stepChains nextStep st iteration sampling).strom.num_chains - 1)).2 0
      ((stepChains nextStep st iteration sampling).strom.num_chains - 2)).2).1
    k hinv1 hn1 hk hi hr
  obtain ⟨c, d, ci, cj, -, -, -, -, htot⟩ := swapChains_total LL LP
    (stepChains nextStep st iteration sampling).strom _ _
    (lot_ops.logUniform (lot_ops.randint (lot_ops.randint
      (stepChains nextStep st iteration sampling).lot 0
      ((stepChains nextStep st iteration sampling).strom.num_chains - 1)).2 0
      ((stepChains nextStep st iteration sampling).strom.num_chains - 2)).2).1
    hinv1.1 hn1 hi hr
  have hfields : s2.num_iter = (stepChains nextStep st iteration sampling).strom.num_iter ∧
      s2.sample_freq = (stepChains nextStep st iteration sampling).strom.sample_freq := by
    rw [hs2] at htot
    have hs := Option.some.inj htot
    rw [hs]
    split_ifs <;> exact ⟨rfl, rfl⟩
  have hbody : ∃ l2, iterationBody lot_ops LL LP nextStep sampling iteration st =
      some { strom := s2, lot := l2,
             calls := (stepChains nextStep st iteration sampling).calls ++
               [Call.swapChains] } := by
    simp only [iterationBody, swapChainsLot, if_neg hne]
    rw [hnc, e1, e2]
    rw [hnc] at hs2
    rw [hs2]
    exact ⟨_, rfl⟩
  obtain ⟨l2, hbody⟩ := hbody
  refine ⟨_, hbody, hinv2, hnc2.trans hnc, hfields.1.trans hni, hfields.2.trans hsf, ?_⟩
  simp only [hcalls, iterationCalls, hinv.1.1, List.append_assoc]

/-- A loop of `run` whose bound is below the largest `unsigned` value: with enough
fuel it ends, after one iteration for each of the values `iteration`, ...,
`num_iter` of the counter. -/
theorem iterationLoop_spec (lot_ops : Lot L) (LL LP : Chain T → ℚ)
    (nextStep : Chain T → Nat → Nat → L → Chain T × L) (sampling : Bool) (num_iter : Nat)
    (hN : num_iter + 1 < UINT_MOD)
    (hdraw : ∀ l lo hi, lo ≤ hi →
      lo ≤ (lot_ops.randint l lo hi).1 ∧ (lot_ops.randint l lo hi).1 ≤ hi) :
    ∀ (j fuel iteration : Nat) (st : RunState T L), iteration + j = num_iter + 1 →
      1 ≤ iteration → j < fuel → SwapInv st.strom (iteration - 1) →
      2 ≤ st.strom.num_chains →
      ∃ st1, iterationLoop (iterationBody lot_ops LL LP nextStep sampling) num_iter fuel
          iteration st = some st1 ∧
        SwapInv st1.strom num_iter ∧ st1.strom.num_chains = st.strom.num_chains ∧
        st1.strom.num_iter = st.strom.num_iter ∧
        st1.strom.sample_freq = st.strom.sample_freq ∧
        st1.calls = st.calls ++ (List.range j).flatMap
          (fun k => iterationCalls st.strom.num_chains
            (if sampling then st.strom.sample_freq else 0) (iteration + k)) := by
  have hM : UINT_MOD = 4294967296 := rfl
  intro j
  induction j with
  | zero =>
    intro fuel iteration st hsum _ hfuel hinv _
    obtain ⟨f, rfl⟩ : ∃ f, fuel = f + 1 := ⟨fuel - 1, by omega⟩
    have hgt : ¬ iteration ≤ num_iter := by omega
    have hk : iteration - 1 = num_iter := by omega
    refine ⟨st, ?_, ?_, rfl, rfl, rfl, ?_⟩
    · rw [iterationLoop, if_neg hgt]
    · rw [← hk]; exact hinv
    · simp
  | succ j ih =>
    intro fuel iteration st hsum hpos hfuel hinv hn
    obtain ⟨f, rfl⟩ : ∃ f, fuel = f + 1 := ⟨fuel - 1, by omega⟩
    have hle : iteration ≤ num_iter := by omega
    obtain ⟨st1, hbody, hinv1, hnc1, hni1, hsf1, hcalls1⟩ :=
      iterationBody_spec lot_ops LL LP nextStep sampling iteration st (iteration - 1) hdraw
        hinv hn (by omega)
    have hnext : (iteration + 1) % UINT_MOD = iteration + 1 := Nat.mod_eq_of_lt (by omega)
    have hinv1b : SwapInv st1.strom (iteration + 1 - 1) := by
      have e : iteration + 1 - 1 = iteration - 1 + 1 := by omega
      rw [e]; exact hinv1
    obtain ⟨st2, hloop, hinv2, hnc2, hni2, hsf2, hcalls2⟩ :=
      ih f (iteration + 1) st1 (by omega) (by omega) (by omega) hinv1b (by rw [hnc1]; exact hn)
    refine ⟨st2, ?_, hinv2, hnc2.trans hnc1, hni2.trans hni1, hsf2.trans hsf1, ?_⟩
    · rw [iterationLoop, if_pos hle, hbody]
      simp only [hnext]
      exact hloop
    · rw [hcalls2, hcalls1, hnc1, hsf1, List.range_succ_eq_map, List.flatMap_cons,
        List.flatMap_map, List.append_assoc, Nat.add_zero]
      congr 2
      apply congrArg
      funext k
      show iterationCalls _ _ (iteration + 1 + k) = iterationCalls _ _ (iteration + (k + 1))
      congr 1
      omega

theorem iterationCalls_count (n f iteration : Nat) :
    (iterationCalls n f iteration).count Call.swapChains = 1 := by
  have h0 : ((List.range n).map (fun k => Call.nextStep k iteration f)).count
      Call.swapChains = 0 := by
    apply List.count_eq_zero.mpr
    intro hmem
    obtain ⟨k, -, hk⟩ := List.mem_map.mp hmem
    cases hk
  simp only [iterationCalls, List.count_append, h0]
  rfl

theorem loopCalls_count (n f num_iter : Nat) :
    (loopCalls n f num_iter).count Call.swapChains = num_iter := by
  induction num_iter with
  | zero => rfl
  | succ m ih =>
    unfold loopCalls at ih ⊢
    rw [List.range_succ, List.flatMap_append, List.count_append, ih]
    simp only [List.flatMap_cons, List.flatMap_nil, List.append_nil, iterationCalls_count]

/-- The run on an ensemble of at least two chains whose swap matrix fits, with
loop bounds below the largest `unsigned` value: it ends, and this is the state
it ends in. -/
theorem run_spec (lot_ops : Lot L) (LL LP : Chain T → ℚ)
    (nextStep : Chain T → Nat → Nat → L → Chain T × L) (stop : Chain T → Chain T)
    (fresh : Chain T) (start_tree : T) (fuel : Nat) (s : Strom T) (lot : L)
    (hn : 2 ≤ s.num_chains) (hfit : s.num_chains * s.num_chains < UINT_MOD)
    (hB : s.num_burnin_iter + 1 < UINT_MOD) (hN : s.num_iter + 1 < UINT_MOD)
    (hdraw : ∀ l lo hi, lo ≤ hi →
      lo ≤ (lot_ops.randint l lo hi).1 ∧ (lot_ops.randint l lo hi).1 ≤ hi)
    (hfuel : s.num_burnin_iter < fuel ∧ s.num_iter < fuel) :
    ∃ st, run lot_ops LL LP nextStep stop fresh start_tree fuel s lot = some st ∧
      st.calls = loopCalls s.num_chains 0 s.num_burnin_iter ++ [Call.stopTuningChains] ++
        loopCalls s.num_chains s.sample_freq s.num_iter ++ [Call.stopChains] ∧
      st.strom.num_chains = s.num_chains ∧
      SwapInv st.strom s.num_iter := by
  have hM : UINT_MOD = 4294967296 := rfl
  have hI : INT_MAX = 2147483647 := rfl
  have hle : s.num_chains ≤ INT_MAX := by nlinarith
  have hwf := builtEnsemble_wf fresh start_tree s hfit
  have hinv0 : SwapInv (builtEnsemble fresh start_tree s) 0 :=
    SwapInv_zero _ hwf (by
      show List.replicate ((s.num_chains * s.num_chains) % UINT_MOD) 0 =
        List.replicate (s.num_chains * s.num_chains) 0
      rw [Nat.mod_eq_of_lt hfit])
  obtain ⟨st2, hloop1, hinv2, hnc2, hni2, hsf2, hcalls2⟩ :=
    iterationLoop_spec lot_ops LL LP nextStep false s.num_burnin_iter hB hdraw
      s.num_burnin_iter fuel 1 { strom := builtEnsemble fresh start_tree s, lot := lot, calls := [] }
      (by omega) (Nat.le_refl 1) hfuel.1 hinv0 hn
  have hnc2b : st2.strom.num_chains = s.num_chains := hnc2
  have hni2b : st2.strom.num_iter = s.num_iter := hni2
  have hsf2b : st2.strom.sample_freq = s.sample_freq := hsf2
  have hwf3 : (stopTuningChains st2.strom).WellFormed := by
    refine ⟨?_, ?_, ?_⟩
    · simp only [stopTuningChains, List.length_map]
      exact hinv2.1.1
    · simp only [stopTuningChains, assignSwaps, hnc2b, Nat.mod_eq_of_lt hfit,
        List.length_replicate]
    · show st2.strom.num_chains * st2.strom.num_chains < UINT_MOD
      rw [hnc2b]; exact hfit
  have hinv3 : SwapInv (stopTuningChains st2.strom) 0 :=
    SwapInv_zero _ hwf3 (by
      show List.replicate ((st2.strom.num_chains * st2.strom.num_chains) % UINT_MOD) 0 =
        List.replicate (st2.strom.num_chains * st2.strom.num_chains) 0
      rw [hnc2b, Nat.mod_eq_of_lt hfit])
  obtain ⟨st4, hloop2, hinv4, hnc4, hni4, hsf4, hcalls4⟩ :=
    iterationLoop_spec lot_ops LL LP nextStep true s.num_iter hN hdraw
      s.num_iter fuel 1
      { st2 with
        strom := stopTuningChains st2.strom
        calls := st2.calls ++ [Call.stopTuningChains] }
      (by omega) (Nat.le_refl 1) hfuel.2 hinv3 (by
        show 2 ≤ st2.strom.num_chains
        rw [hnc2b]; exact hn)
  have hnc4b : st4.strom.num_chains = s.num_chains := hnc4.trans hnc2b
  refine ⟨stopChains stop st4, ?_, ?_, hnc4b, ?_⟩
  · have hsetup := setupChains_eq_built fresh start_tree s hle
    have hB2 : (builtEnsemble fresh start_tree s).num_burnin_iter = s.num_burnin_iter := rfl
    have hN2 : (stopTuningChains st2.strom).num_iter = s.num_iter := hni2b
    simp only [run, hsetup, hB2, hloop1, hN2, hloop2]
  · have e1 : (fun k => iterationCalls s.num_chains 0 (1 + k)) =
        (fun k => iterationCalls s.num_chains 0 (k + 1)) := by
      funext k; rw [Nat.add_comm]
    have e2 : (fun k => iterationCalls s.num_chains s.sample_freq (1 + k)) =
        (fun k => iterationCalls s.num_chains s.sample_freq (k + 1)) := by
      funext k; rw [Nat.add_comm]
    have h2 : st2.calls = loopCalls s.num_chains 0 s.num_burnin_iter := by
      rw [hcalls2]
      show [] ++ (List.range s.num_burnin_iter).flatMap
        (fun k => iterationCalls s.num_chains 0 (1 + k)) = _
      rw [e1]; rfl
    have h4 : st4.calls = st2.calls ++ [Call.stopTuningChains] ++
        loopCalls s.num_chains s.sample_freq s.num_iter := by
      rw [hcalls4]
      show st2.calls ++ [Call.stopTuningChains] ++ (List.range s.num_iter).flatMap
        (fun k => iterationCalls st2.strom.num_chains
          (if true = true then st2.strom.sample_freq else 0) (1 + k)) = _
      rw [hnc2b, hsf2b, if_pos rfl, e2]; rfl
    show st4.calls ++ [Call.stopChains] = _
    rw [h4, h2]
  · exact SwapInv_congr st4.strom _ _ rfl rfl (by simp [stopChains]) hinv4

theorem iterationBody_none_of_no_cells (lot_ops : Lot L) (LL LP : Chain T → ℚ)
    (nextStep : Chain T → Nat → Nat → L → Chain T × L) (sampling : Bool) (iteration : Nat)
    (st : RunState T L) (hn1 : st.strom.num_chains ≠ 1) (hs : st.strom.swaps = []) :
    iterationBody lot_ops LL LP nextStep sampling iteration st = none := by
  have hn2 : ¬ (stepChains nextStep st iteration sampling).strom.num_chains = 1 := hn1
  simp only [iterationBody, swapChainsLot, if_neg hn2]
  rw [swapChains_none_of_no_cells LL LP (stepChains nextStep st iteration sampling).strom _ _ _
    hn2 hs]

/-- With `_swaps` left empty by the `unsigned` product, the first swap proposal of
the burn-in indexes a vector without cells: the run is undefined. -/
theorem run_none_of_no_cells (lot_ops : Lot L) (LL LP : Chain T → ℚ)
    (nextStep : Chain T → Nat → Nat → L → Chain T × L) (stop : Chain T → Chain T)
    (fresh : Chain T) (start_tree : T) (fuel : Nat) (s : Strom T) (lot : L)
    (hle : s.num_chains ≤ INT_MAX) (hn1 : s.num_chains ≠ 1)
    (hs : assignSwaps s.num_chains = []) (hB : 1 ≤ s.num_burnin_iter) :
    run lot_ops LL LP nextStep stop fresh start_tree fuel s lot = none := by
  have hB2 : (builtEnsemble fresh start_tree s).num_burnin_iter = s.num_burnin_iter := rfl
  have hloop : iterationLoop (iterationBody lot_ops LL LP nextStep false) s.num_burnin_iter
      fuel 1 { strom := builtEnsemble fresh start_tree s, lot := lot, calls := [] } = none := by
    cases fuel with
    | zero => rfl
    | succ f =>
      rw [iterationLoop, if_pos hB,
        iterationBody_none_of_no_cells lot_ops LL LP nextStep false 1 _ hn1 hs]
  simp only [run, setupChains_eq_built fresh start_tree s hle, hB2, hloop]

/-- A loop whose bound is the largest `unsigned` value never ends: the counter
wraps to 0 and the condition `iteration <= num_iter` always holds. -/
theorem iterationLoop_endless (body : Nat → RunState T L → Option (RunState T L)) :
    ∀ (fuel iteration : Nat) (st : RunState T L), iteration < UINT_MOD →
      iterationLoop body (UINT_MOD - 1) fuel iteration st = none := by
  intro fuel
  induction fuel with
  | zero => intro iteration st _; rfl
  | succ f ih =>
    intro iteration st hit
    have hle : iteration ≤ UINT_MOD - 1 := by omega
    rw [iterationLoop, if_pos hle]
    cases hb : body iteration st with
    | none => rfl
    | some st1 => exact ih _ st1 (Nat.mod_lt _ UINT_MOD_pos)

theorem run_endless (lot_ops : Lot L) (LL LP : Chain T → ℚ)
    (nextStep : Chain T → Nat → Nat → L → Chain T × L) (stop : Chain T → Chain T)
    (fresh : Chain T) (start_tree : T) (fuel : Nat) (s : Strom T) (lot : L)
    (hB : s.num_burnin_iter = 0) (hN : s.num_iter = UINT_MOD - 1) :
    run lot_ops LL LP nextStep stop fresh start_tree fuel s lot = none := by
  unfold run
  cases hsetup : setupChains fresh start_tree s with
  | none => rfl
  | some s1 =>
    have hs1 := setupChains_inv fresh start_tree s s1 hsetup
    have hB1 : s1.num_burnin_iter = 0 := by rw [hs1]; exact hB
    have hN1 : s1.num_iter = UINT_MOD - 1 := by rw [hs1]; exact hN
    cases fuel with
    | zero => rfl
    | succ f =>
      have hnot : ¬ 1 ≤ s1.num_burnin_iter := by omega
      have hN2 : (stopTuningChains s1).num_iter = UINT_MOD - 1 := hN1
      have hloop1 : iterationLoop (iterationBody lot_ops LL LP nextStep false)
          s1.num_burnin_iter (f + 1) 1 { strom := s1, lot := lot, calls := [] } =
          some { strom := s1, lot := lot, calls := [] } := by
        rw [iterationLoop, if_neg hnot]
      simp only [hloop1, hN2]
      rw [iterationLoop_endless _ (f + 1) 1 _ (by decide)]

/-- C24, as stated, fails for chain counts and iteration counts at the limits of
`unsigned`.  With `--nchains 65536` the swap matrix has no cell (65536*65536 is
0 in `unsigned` arithmetic) and the first swap proposal of the burn-in is
undefined: the run has no result, whatever the bound on its loops; with
`--nchains 2 --burnin 0 --niter 4294967295` the sampling loop never ends (its
counter wraps to 0 before it can exceed the bound), so no matrix is reported. -/
theorem run_no_result_at_unsigned_limits :
    (∀ fuel lot, run listLot demoLogLikelihood demoLogJointPrior demoNextStep demoStop
      freshChain 0 fuel strom65536 lot = none) ∧
    (2 ≤ stromMaxIter.num_chains ∧ ∀ fuel lot, run listLot demoLogLikelihood
      demoLogJointPrior demoNextStep demoStop freshChain 0 fuel stromMaxIter lot = none) :=
  ⟨fun fuel lot => run_none_of_no_cells _ _ _ _ _ _ _ fuel strom65536 lot (by decide)
      (by decide) assignSwaps_65536 (by decide),
    by decide, fun fuel lot => run_endless _ _ _ _ _ _ _ fuel stromMaxIter lot rfl rfl⟩

/-- C24, amended: in `run` with `n >= 2` chains, `n*n` representable as an
`unsigned`, `B` burn-in iterations and `N` sampling iterations, both below the
largest `unsigned` value, and a generator whose `randint(lo, hi)` returns a
value in `[lo, hi]`, the run ends (for every bound on the loops above `B` and
`N`) and the calls made are: for each burn-in iteration 1, ..., B `nextStep` on
the chains 0, ..., n-1 with sampling interval 0 and then `swapChains`; then
`stopTuningChains`; for each sampling iteration 1, ..., N `nextStep` on the
chains 0, ..., n-1 with the configured sample frequency and then `swapChains`;
then `stopChains`.  So exactly `B + N` swap proposals are made, each after all
`n` chains have been advanced for that iteration, and the swap matrix at the end
has upper-triangle sum exactly `N`, lower-triangle sum at most `N` and a zero
diagonal. -/
theorem run_swap_accounting (lot_ops : Lot L) (LL LP : Chain T → ℚ)
    (nextStep : Chain T → Nat → Nat → L → Chain T × L) (stop : Chain T → Chain T)
    (fresh : Chain T) (start_tree : T) (fuel : Nat) (s : Strom T) (lot : L)
    (hn : 2 ≤ s.num_chains) (hfit : s.num_chains * s.num_chains < UINT_MOD)
    (hB : s.num_burnin_iter + 1 < UINT_MOD) (hN : s.num_iter + 1 < UINT_MOD)
    (hdraw : ∀ l lo hi, lo ≤ hi →
      lo ≤ (lot_ops.randint l lo hi).1 ∧ (lot_ops.randint l lo hi).1 ≤ hi)
    (hfuel : s.num_burnin_iter < fuel ∧ s.num_iter < fuel) :
    ∃ st, run lot_ops LL LP nextStep stop fresh start_tree fuel s lot = some st ∧
      st.calls = loopCalls s.num_chains 0 s.num_burnin_iter ++ [Call.stopTuningChains] ++
        loopCalls s.num_chains s.sample_freq s.num_iter ++ [Call.stopChains] ∧
      st.calls.count Call.swapChains = s.num_burnin_iter + s.num_iter ∧
      st.strom.swaps.length = s.num_chains * s.num_chains ∧
      upperSum s.num_chains st.strom.swaps = s.num_iter ∧
      lowerSum s.num_chains st.strom.swaps ≤ s.num_iter ∧
      ∀ r, r < s.num_chains → st.strom.swaps[r * s.num_chains + r]? = some 0 := by
  obtain ⟨st, hrun, hcalls, hnc, hwf, hup, hlow, hdiag, -⟩ :=
    run_spec lot_ops LL LP nextStep stop fresh start_tree fuel s lot hn hfit hB hN hdraw hfuel
  rw [hnc] at hup hlow hdiag
  refine ⟨st, hrun, hcalls, ?_, ?_, hup, hlow, hdiag⟩
  · rw [hcalls]
    simp only [List.count_append, loopCalls_count]
    rfl
  · have := hwf.2.1
    rw [hnc] at this
    exact this

/-- Witness of C24 (amended): two chains, one burn-in iteration and two sampling
iterations, with the generator of the concrete inputs. -/
theorem run_swap_accounting_witness :
    ∃ st, run listLot demoLogLikelihood demoLogJointPrior demoNextStep demoStop freshChain 7
        10 strom2 [0, 0, 0, 0, 1, 1, 1, 0, 1, 2, 3, 4, 5] = some st ∧
      st.calls = loopCalls strom2.num_chains 0 strom2.num_burnin_iter ++
        [Call.stopTuningChains] ++
        loopCalls strom2.num_chains strom2.sample_freq strom2.num_iter ++ [Call.stopChains] ∧
      st.calls.count Call.swapChains = strom2.num_burnin_iter + strom2.num_iter ∧
      st.strom.swaps.length = strom2.num_chains * strom2.num_chains ∧
      upperSum strom2.num_chains st.strom.swaps = strom2.num_iter ∧
      lowerSum strom2.num_chains st.strom.swaps ≤ strom2.num_iter ∧
      ∀ r, r < strom2.num_chains → st.strom.swaps[r * strom2.num_chains + r]? = some 0 :=
  run_swap_accounting listLot demoLogLikelihood demoLogJointPrior demoNextStep demoStop
    freshChain 7 10 strom2 [0, 0, 0, 0, 1, 1, 1, 0, 1, 2, 3, 4, 5] (by decide) (by decide)
    (by decide) (by decide)
    (fun l lo hi hle => by
      have h : l.headD 0 % (hi - lo + 1) < hi - lo + 1 := Nat.mod_lt _ (Nat.succ_pos _)
      show lo ≤ lo + l.headD 0 % (hi - lo + 1) ∧ lo + l.headD 0 % (hi - lo + 1) ≤ hi
      omega)
    ⟨by decide, by decide⟩

end claims_run

/-! ## Newick strings: the recursive serializer (C23) -/

section claims_newick_recursive

theorem parenDepth_append (ps qs : List Piece) :
    ∀ d, parenDepth (ps ++ qs) d = (parenDepth ps d).bind (parenDepth qs) := by
  induction ps with
  | nil => intro d; rfl
  | cons x xs ih =>
    intro d
    rw [List.cons_append]
    cases x with
    | lparen nd => simp only [parenDepth, ih]
    | rootTip number len => simp only [parenDepth, ih]
    | tip nd number len => simp only [parenDepth, ih]
    | comma => simp only [parenDepth, ih]
    | rparen nd =>
      simp only [parenDepth, ih]
      split <;> rfl
    | rparenLen nd len =>
      simp only [parenDepth, ih]
      split <;> rfl

theorem tipsOf_append (ps qs : List Piece) : tipsOf (ps ++ qs) = tipsOf ps ++ tipsOf qs := by
  induction ps with
  | nil => rfl
  | cons x xs ih =>
    rw [List.cons_append]
    cases x <;> simp only [tipsOf, ih, List.cons_append]

theorem leafLabels_append (nodes : List Node) (l1 l2 : List Nat) :
    leafLabels nodes (l1 ++ l2) = leafLabels nodes l1 ++ leafLabels nodes l2 := by
  simp only [leafLabels, List.filterMap_append]

theorem leafLabels_leaf (nodes : List Node) (nd : Nat) (node : Node) (l : List Nat)
    (hn : nodes[nd]? = some node) (hlc : node.left_child = none) :
    leafLabels nodes (nd :: l) = (nd, node.number + 1) :: leafLabels nodes l := by
  simp [leafLabels, List.filterMap_cons, hn, hlc]

theorem leafLabels_inner (nodes : List Node) (nd : Nat) (node : Node) (c : Nat) (l : List Nat)
    (hn : nodes[nd]? = some node) (hlc : node.left_child = some c) :
    leafLabels nodes (nd :: l) = leafLabels nodes l := by
  simp [leafLabels, List.filterMap_cons, hn, hlc]

theorem leafLabels_fst_sublist (nodes : List Node) (l : List Nat) :
    ((leafLabels nodes l).map Prod.fst).Sublist l := by
  induction l with
  | nil => exact List.Sublist.slnil
  | cons nd rest ih =>
    cases hn : nodes[nd]? with
    | none =>
      have : leafLabels nodes (nd :: rest) = leafLabels nodes rest := by
        simp [leafLabels, List.filterMap_cons, hn]
      rw [this]
      exact List.Sublist.cons nd ih
    | some node =>
      cases hlc : node.left_child with
      | none =>
        rw [leafLabels_leaf nodes nd node rest hn hlc]
        exact List.Sublist.cons₂ nd ih
      | some c =>
        rw [leafLabels_inner nodes nd node c rest hn hlc]
        exact List.Sublist.cons nd ih

/-- The traversal of a forest under a non-empty stack: the pieces appended for the
forest render to the recursive serialization of its sibling chain, are balanced
and write the forest's leaves in order; then come the pieces of the cascade of
pops and those for the rest of the cache. -/
theorem forest_serial (fmt : Nat → ℚ → String) (p : Nat) (nodes : List Node) (par : Nat)
    (l : List Nat) (hf : Forest nodes par l) :
    ∃ F hd, l.head? = some hd ∧
      (∀ fuel, 2 * l.length ≤ fuel →
        serializeSiblings fmt p nodes fuel hd = some (renderPieces fmt p F)) ∧
      (∀ d, parenDepth F d = some d) ∧
      tipsOf F = leafLabels nodes l ∧
      ∀ (top : Nat) (stk rest : List Nat) (cs : List Piece) (stk1 : List Nat)
        (ps : List Piece) (fin : List Nat),
        closeNodes nodes (top :: stk) = some (cs, stk1) →
        newickLoop nodes rest stk1 none = some (ps, fin) →
        newickLoop nodes (l ++ rest) (top :: stk) none = some (F ++ (cs ++ ps), fin) := by
  induction hf with
  | lastLeaf par nd node hn _ hlc hsib =>
    refine ⟨[Piece.tip nd (node.number + 1) node.edge_length], nd, rfl, ?_, ?_, ?_, ?_⟩
    · intro fuel hfuel
      obtain ⟨f, rfl⟩ : ∃ f, fuel = f + 2 := ⟨fuel - 2, by simp at hfuel; omega⟩
      simp only [serializeSiblings, serializeNode, hn, hlc, hsib, renderPieces, renderPiece,
        String.append_empty]
    · intro d; rfl
    · rw [leafLabels_leaf nodes nd node [] hn hlc]; rfl
    · intro top stk rest cs stk1 ps fin hcl hrest
      rw [List.singleton_append, newickLoop]
      simp only [hn, hlc, hsib, Option.isSome_none, Bool.false_eq_true, if_false, hcl, hrest]
      rfl
  | lastInner par nd node c cs0 hn _ hlc hsib _ ih =>
    obtain ⟨F1, hd1, hhd1, hser1, hbal1, htips1, hrun1⟩ := ih
    have hc : hd1 = c := by
      simp only [List.head?_cons, Option.some.injEq] at hhd1
      exact hhd1.symm
    subst hc
    refine ⟨Piece.lparen nd :: (F1 ++ [Piece.rparenLen nd node.edge_length]), nd, rfl,
      ?_, ?_, ?_, ?_⟩
    · intro fuel hfuel
      obtain ⟨f, rfl⟩ : ∃ f, fuel = f + 2 := ⟨fuel - 2, by
        simp only [List.length_cons] at hfuel; omega⟩
      have h1 := hser1 f (by simp only [List.length_cons] at hfuel ⊢; omega)
      simp only [serializeSiblings, serializeNode, hn, hlc, hsib, h1, renderPieces,
        renderPieces_append, renderPiece, Option.some.injEq]
      apply String.ext
      simp only [String.data_append]
      simp
    · intro d
      simp only [parenDepth, parenDepth_append, hbal1, Option.some_bind, Nat.add_sub_cancel]
      simp
    · rw [leafLabels_inner nodes nd node hd1 _ hn hlc]
      simp only [tipsOf, tipsOf_append, htips1, List.append_nil]
    · intro top stk rest cs stk1 ps fin hcl hrest
      have hcl2 : closeNodes nodes (nd :: top :: stk) =
          some (Piece.rparenLen nd node.edge_length :: cs, stk1) := by
        rw [closeNodes]
        simp only [hn, hsib, Option.isSome_none, Bool.false_eq_true, if_false, hcl]
      have h := hrun1 nd (top :: stk) rest _ stk1 ps fin hcl2 hrest
      rw [List.cons_append, newickLoop]
      simp only [hn, hlc, Option.isSome_some, if_true, h]
      simp
  | consLeaf par nd node nxt rest0 hn _ hlc hsib _ ih =>
    obtain ⟨F2, hd2, hhd2, hser2, hbal2, htips2, hrun2⟩ := ih
    have hc : hd2 = nxt := by
      simp only [List.head?_cons, Option.some.injEq] at hhd2
      exact hhd2.symm
    subst hc
    refine ⟨Piece.tip nd (node.number + 1) node.edge_length :: Piece.comma :: F2, nd, rfl,
      ?_, ?_, ?_, ?_⟩
    · intro fuel hfuel
      obtain ⟨f, rfl⟩ : ∃ f, fuel = f + 2 := ⟨fuel - 2, by
        simp only [List.length_cons] at hfuel; omega⟩
      have h2 := hser2 (f + 1) (by simp only [List.length_cons] at hfuel ⊢; omega)
      rw [serializeSiblings]
      simp only [hn, serializeNode, hlc, hsib, h2, renderPieces, renderPiece,
        Option.some.injEq]
      apply String.ext
      simp only [String.data_append]
      simp
    · intro d
      simp only [parenDepth, hbal2]
    · rw [leafLabels_leaf nodes nd node _ hn hlc]
      simp only [tipsOf, htips2]
    · intro top stk rest cs stk1 ps fin hcl hrest
      have h := hrun2 top stk rest cs stk1 ps fin hcl hrest
      rw [List.cons_append, newickLoop]
      simp only [hn, hlc, hsib, Option.isSome_none, Bool.false_eq_true, if_false,
        Option.isSome_some, if_true, h]
      rfl
  | consInner par nd node c cs0 nxt rest0 hn _ hlc hsib _ _ ih1 ih2 =>
    obtain ⟨F1, hd1, hhd1, hser1, hbal1, htips1, hrun1⟩ := ih1
    obtain ⟨F2, hd2, hhd2, hser2, hbal2, htips2, hrun2⟩ := ih2
    have hc1 : hd1 = c := by
      simp only [List.head?_cons, Option.some.injEq] at hhd1
      exact hhd1.symm
    have hc2 : hd2 = nxt := by
      simp only [List.head?_cons, Option.some.injEq] at hhd2
      exact hhd2.symm
    subst hc1
    subst hc2
    refine ⟨Piece.lparen nd ::
      (F1 ++ [Piece.rparenLen nd node.edge_length, Piece.comma] ++ F2), nd, rfl,
      ?_, ?_, ?_, ?_⟩
    · intro fuel hfuel
      have hlen : (nd :: (hd1 :: cs0 ++ hd2 :: rest0)).length =
          (hd1 :: cs0).length + (hd2 :: rest0).length + 1 := by
        simp only [List.length_cons, List.length_append]
      rw [hlen] at hfuel
      have hpos1 : 1 ≤ (hd1 :: cs0).length := by simp only [List.length_cons]; omega
      have hpos2 : 1 ≤ (hd2 :: rest0).length := by simp only [List.length_cons]; omega
      obtain ⟨f, rfl⟩ : ∃ f, fuel = f + 2 := ⟨fuel - 2, by omega⟩
      have h1 := hser1 f (by omega)
      have h2 := hser2 (f + 1) (by omega)
      rw [serializeSiblings]
      simp only [hn, serializeNode, hlc, hsib, h1, h2, renderPieces, renderPieces_append,
        renderPiece, Option.some.injEq]
      apply String.ext
      simp only [String.data_append]
      simp
    · intro d
      simp only [parenDepth, parenDepth_append, hbal1, hbal2, Option.some_bind]
      simp
    · rw [leafLabels_inner nodes nd node hd1 _ hn hlc, leafLabels_append]
      simp only [tipsOf, tipsOf_append, htips1, htips2, List.append_nil]
    · intro top stk rest cs stk1 ps fin hcl hrest
      have h2 := hrun2 top stk rest cs stk1 ps fin hcl hrest
      have hcl1 : closeNodes nodes (nd :: top :: stk) =
          some ([Piece.rparenLen nd node.edge_length, Piece.comma], top :: stk) := by
        rw [closeNodes]
        simp only [hn, hsib, Option.isSome_some, if_true]
      have h1 := hrun1 nd (top :: stk) ((hd2 :: rest0) ++ rest)
        [Piece.rparenLen nd node.edge_length, Piece.comma] (top :: stk) _ fin hcl1 h2
      have hl : (nd :: (hd1 :: cs0 ++ hd2 :: rest0)) ++ rest =
          nd :: ((hd1 :: cs0) ++ ((hd2 :: rest0) ++ rest)) := by simp
      rw [hl, newickLoop]
      simp only [hn, hlc, Option.isSome_some, if_true, h1]
      simp

/-- The traversal of a rooted well-formed tree whose root has the single child
`c`: the pieces appended, and the recursive serialization from `c`. -/
theorem single_child_run (fmt : Nat → ℚ → String) (p : Nat) (nodes : List Node)
    (r c : Nat) (cnode : Node) (cs : List Nat) (hcn : nodes[c]? = some cnode)
    (hone : cnode.right_sib = none) (hf : Forest nodes r (c :: cs)) :
    ∃ ps, newickLoop nodes (c :: cs) [] none = some (ps, []) ∧
      (∀ fuel, 2 * (c :: cs).length ≤ fuel →
        serializeTop fmt p nodes fuel c = some (renderPieces fmt p ps)) ∧
      parenDepth ps 0 = some 0 ∧ tipsOf ps = leafLabels nodes (c :: cs) := by
  cases hf with
  | lastLeaf _ _ node hn _ hlc hsib =>
    refine ⟨[Piece.tip c (node.number + 1) node.edge_length], ?_, ?_, rfl, ?_⟩
    · rw [newickLoop]
      simp only [hn, hlc, hsib, Option.isSome_none, Bool.false_eq_true, if_false, closeNodes,
        newickLoop]
      rfl
    · intro fuel _
      simp only [serializeTop, hn, hlc, renderPieces, renderPiece, String.append_empty]
    · rw [leafLabels_leaf nodes c node [] hn hlc]; rfl
  | lastInner _ _ node k ks hn _ hlc hsib hkids =>
    obtain ⟨F1, hd1, hhd1, hser1, hbal1, htips1, hrun1⟩ := forest_serial fmt p nodes c _ hkids
    have hk : hd1 = k := by
      simp only [List.head?_cons, Option.some.injEq] at hhd1
      exact hhd1.symm
    subst hk
    have hcl : closeNodes nodes [c] = some ([Piece.rparen c], []) := by
      rw [closeNodes]
      simp only [hn, hsib, Option.isSome_none, Bool.false_eq_true, if_false]
    have hrun := hrun1 c [] [] [Piece.rparen c] [] [] [] hcl rfl
    rw [List.append_nil] at hrun
    refine ⟨Piece.lparen c :: (F1 ++ [Piece.rparen c]), ?_, ?_, ?_, ?_⟩
    · rw [newickLoop]
      simp only [hn, hlc, Option.isSome_some, if_true, hrun, List.append_nil]
    · intro fuel hfuel
      have h1 := hser1 fuel (by simp only [List.length_cons] at hfuel ⊢; omega)
      simp only [serializeTop, hn, hlc, h1, renderPieces, renderPieces_append, renderPiece,
        Option.some.injEq]
      apply String.ext
      simp only [String.data_append]
      simp
    · simp only [parenDepth, parenDepth_append, hbal1, Option.some_bind]
      simp
    · rw [leafLabels_inner nodes c node hd1 _ hn hlc]
      simp only [tipsOf, tipsOf_append, htips1, List.append_nil]
  | consLeaf _ _ node nxt rest0 hn _ _ hsib _ =>
    rw [hcn] at hn
    cases hn
    rw [hone] at hsib
    cases hsib
  | consInner _ _ node k ks nxt rest0 hn _ _ hsib _ _ =>
    rw [hcn] at hn
    cases hn
    rw [hone] at hsib
    cases hsib

/-- C23: for every well-formed rooted tree whose root has exactly one child `c`
(the preorder cache being the true preorder of the nodes below the root), the
stack-based `makeNewick` returns what the recursive serializer `S` gives at top
level for `c` (for every recursion bound of at least twice the number of cached
nodes), where `S(leaf)` is `"<number+1>:<len>"`, `S(internal)` is
`"(" + S(child_1) + "," + ... + "," + S(child_k) + "):<len>"` and the top-level
internal node is closed with `")"` alone; the parentheses appended are balanced,
the stack is empty when the traversal ends, and the leaves written are the
leaves of the cache, each once, in cache order, under the label `number + 1`. -/
theorem makeNewick_refines_serializer (fmt : Nat → ℚ → String) (p : Nat) (tm : TreeManip)
    (t : Tree) (r : Nat) (rnode : Node) (c : Nat) (cnode : Node)
    (ht : tm.tree = some t) (hwf : t.WellFormed) (hrooted : t.is_rooted = true)
    (hroot : t.root = some r) (hr : t.nodes[r]? = some rnode)
    (hc : rnode.left_child = some c) (hcn : t.nodes[c]? = some cnode)
    (hone : cnode.right_sib = none) :
    ∃ out ps, makeNewick fmt tm p = some out ∧
      (∀ fuel, 2 * t.preorder.length ≤ fuel → makeNewickRec fmt tm p fuel = some out) ∧
      makeNewickPieces tm = some (ps, []) ∧
      out = renderPieces fmt p ps ∧
      parenDepth ps 0 = some 0 ∧
      tipsOf ps = leafLabels t.nodes t.preorder ∧
      ((tipsOf ps).map Prod.fst).Nodup := by
  obtain ⟨r1, rnode1, hroot1, hr1, -, -, -, hnodup, hshape⟩ := hwf
  rw [hroot] at hroot1
  cases hroot1
  rw [hr] at hr1
  cases hr1
  rcases hshape with ⟨hnone, -⟩ | ⟨c1, cs, hc1, hpre, hf⟩
  · rw [hc] at hnone
    cases hnone
  · rw [hc] at hc1
    cases hc1
    obtain ⟨ps, hrun, hser, hbal, htips⟩ :=
      single_child_run fmt p t.nodes r c cnode cs hcn hone hf
    have hpieces : makeNewickPieces tm = some (ps, []) := by
      simp only [makeNewickPieces, ht, hrooted, if_true, hpre, hrun]
    refine ⟨renderPieces fmt p ps, ps, ?_, ?_, hpieces, rfl, hbal, ?_, ?_⟩
    · simp only [makeNewick, hpieces]
    · intro fuel hfuel
      rw [hpre] at hfuel
      simp only [makeNewickRec, ht, hroot, hr, hc, hser fuel hfuel]
    · rw [hpre]; exact htips
    · rw [htips, ← hpre]
      exact hnodup.sublist (leafLabels_fst_sublist t.nodes t.preorder)

/-- Witness of C23: the tree of `createTestTree`, whose root (node 0) has the
single child 1. -/
theorem makeNewick_refines_serializer_witness :
    ∃ out ps, makeNewick formatFixed (createTestTree { tree := none }) 1 = some out ∧
      (∀ fuel, 2 * testTree.preorder.length ≤ fuel →
        makeNewickRec formatFixed (createTestTree { tree := none }) 1 fuel = some out) ∧
      makeNewickPieces (createTestTree { tree := none }) = some (ps, []) ∧
      out = renderPieces formatFixed 1 ps ∧
      parenDepth ps 0 = some 0 ∧
      tipsOf ps = leafLabels testTree.nodes testTree.preorder ∧
      ((tipsOf ps).map Prod.fst).Nodup :=
  makeNewick_refines_serializer formatFixed 1 (createTestTree { tree := none }) testTree 0 _
    1 _ rfl (testTreeWith_wf 0 (1 / 10) (1 / 10) (1 / 10) (1 / 10) (1 / 10)) rfl rfl rfl rfl
    rfl rfl

end claims_newick_recursive

/-! ## The heating schedule in double arithmetic (C6) -/

section claims_double_schedule

theorem roundDouble_near_one (x : ℚ) (h0 : 0 ≤ x) (h1 : x < 1 / 2 ^ 53) :
    roundDouble (1 + x) = 1 := by
  have hpos : (0 : ℚ) < 1 + x := by linarith
  have hx1 : x < 1 := lt_of_lt_of_le h1 (by norm_num)
  have hfl : ⌊1 + x⌋₊ = 1 := by
    rw [Nat.floor_eq_iff hpos.le]
    constructor
    · push_cast; linarith
    · push_cast; linarith
  have hlog : Int.log 2 |1 + x| = 0 := by
    rw [abs_of_pos hpos, Int.log_of_one_le_right 2 (by linarith), hfl]
    simp
  have hsmall : x * 4503599627370496 < 1 / 2 := by
    have := mul_lt_mul_of_pos_right h1 (show (0 : ℚ) < 4503599627370496 by norm_num)
    norm_num at this ⊢
    linarith
  unfold roundDouble
  rw [if_neg (ne_of_gt hpos), hlog]
  have hm : (1 + x) / (2 : ℚ) ^ ((0 : Int) - 52) =
      4503599627370496 + x * 4503599627370496 := by
    norm_num [zpow_neg]
    ring
  rw [hm]
  have hfloor : ⌊(4503599627370496 : ℚ) + x * 4503599627370496⌋ = 4503599627370496 := by
    rw [Int.floor_eq_iff]
    constructor
    · push_cast; nlinarith
    · push_cast; linarith
  have hr : roundTiesEven ((4503599627370496 : ℚ) + x * 4503599627370496) =
      4503599627370496 := by
    unfold roundTiesEven
    rw [hfloor, if_pos]
    push_cast
    linarith
  rw [hr]
  norm_num [zpow_neg]

theorem heatFactorTiny_pos : 0 < heatFactorTiny := by norm_num [heatFactorTiny]

theorem heatFactorTiny_small : heatFactorTiny < 1 / 2 ^ 53 := by norm_num [heatFactorTiny]

/-- The value `heatFactorTiny` is a `double`: rounding leaves it as it is. -/
theorem roundDouble_heatFactorTiny : roundDouble heatFactorTiny = heatFactorTiny := by
  have hpos := heatFactorTiny_pos
  have hlog : Int.log 2 |heatFactorTiny| = -57 := by
    rw [abs_of_pos hpos]
    have h1 : (-57 : Int) ≤ Int.log 2 heatFactorTiny := by
      rw [← Int.zpow_le_iff_le_log (by norm_num) hpos]
      norm_num [heatFactorTiny, zpow_neg]
    have h2 : Int.log 2 heatFactorTiny < -56 := by
      rw [← Int.lt_zpow_iff_log_lt (by norm_num) hpos]
      norm_num [heatFactorTiny, zpow_neg]
    omega
  unfold roundDouble
  rw [if_neg (ne_of_gt hpos), hlog]
  have hm : heatFactorTiny / (2 : ℚ) ^ ((-57 : Int) - 52) = ((6490371073168535 : Int) : ℚ) := by
    norm_num [heatFactorTiny, zpow_neg]
  rw [hm]
  have hr : roundTiesEven ((6490371073168535 : Int) : ℚ) = 6490371073168535 := by
    unfold roundTiesEven
    rw [Int.floor_intCast]
    norm_num
  rw [hr]
  norm_num [heatFactorTiny, zpow_neg]

/-- In `double` arithmetic the schedule for two chains and heat factor 1e-17 is
1.0 for both chains: `1.0 + 1e-17` rounds to 1.0. -/
theorem calcHeatingPowersLoopDouble_tiny :
    calcHeatingPowersLoopDouble heatFactorTiny [1, 1] 0 = [1, 1] := by
  have hone : roundDouble 1 = 1 := by
    have h := roundDouble_near_one 0 (le_refl 0) (by norm_num)
    rwa [add_zero] at h
  have h0 : divDouble 1 (addDouble 1 (mulDouble heatFactorTiny ((0 : Nat) : ℚ))) = 1 := by
    simp only [divDouble, addDouble, mulDouble, Nat.cast_zero, mul_zero]
    have hz : roundDouble 0 = 0 := by simp [roundDouble]
    rw [hz, add_zero, hone, div_one, hone]
  have h1 : divDouble 1 (addDouble 1
      (mulDouble heatFactorTiny ((((0 : Nat) + 1) % UINT_MOD : Nat) : ℚ))) = 1 := by
    have e : ((0 : Nat) + 1) % UINT_MOD = 1 := by decide
    simp only [divDouble, addDouble, mulDouble, e, Nat.cast_one, mul_one,
      roundDouble_heatFactorTiny]
    rw [roundDouble_near_one heatFactorTiny heatFactorTiny_pos.le heatFactorTiny_small,
      div_one, hone]
  simp only [calcHeatingPowersLoopDouble, h0, h1]

/-- C6, as stated, fails in the `double` arithmetic of the source: with
`--nchains 2 --heatfactor 1e-17` (a heat factor in `(0, 1]`, stored as the
`double` 6490371073168535 * 2^-109) `calcHeatingPowers` computes
`1.0/(1.0 + 1e-17*1)`, where `1.0 + 1e-17` rounds to 1.0, so `initChains` gives
both chains the power 1.0: two chains hold power 1.0, before any swap.  The
validation accepts this heat factor. -/
theorem heating_powers_double_two_cold :
    0 < stromTiny.heating_lambda ∧ stromTiny.heating_lambda ≤ 1 ∧
    roundDouble stromTiny.heating_lambda = stromTiny.heating_lambda ∧
    (∃ s1, processCommandLineOptions stromTiny = Except.ok s1) ∧
    ∃ s0, setupChainsDouble freshChain 0 stromTiny = some s0 ∧
      swapChainsSeq s0 [] = some s0 ∧
      s0.chains.map Chain.getHeatingPower = [1, 1] ∧
      (s0.chains.map Chain.getHeatingPower).count 1 = 2 := by
  have hsetup : setupChainsDouble freshChain 0 stromTiny =
      some { stromTiny with
        chains := [ { tree := 0, heating_power := 1, lambdas := [], tuning := true },
          { tree := 0, heating_power := 1, lambdas := [], tuning := true } ]
        swaps := [0, 0, 0, 0]
        heating_powers := [1, 1] } := by
    have h : setupChainsDouble freshChain 0 stromTiny =
        initChains 0
          { stromTiny with
            chains := [freshChain, freshChain]
            swaps := [0, 0, 0, 0]
            heating_powers := calcHeatingPowersLoopDouble heatFactorTiny [1, 1] 0 } := rfl
    rw [h, calcHeatingPowersLoopDouble_tiny]
    rfl
  have hle : heatFactorTiny ≤ 1 :=
    le_of_lt (lt_of_lt_of_le heatFactorTiny_small (by norm_num))
  refine ⟨heatFactorTiny_pos, hle, roundDouble_heatFactorTiny, ?_, _, hsetup, rfl, rfl, ?_⟩
  · exact (processCommandLineOptions_validation stromTiny).2.1.mpr
      ⟨by simp [stromTiny, stromDefaults], by simp [stromTiny, stromDefaults],
        by norm_num [stromTiny, stromDefaults], by decide, by decide, heatFactorTiny_pos, hle⟩
  · simp [Chain.getHeatingPower]

end claims_double_schedule

/-! ## Option validation: a heat factor that is NaN (C21) -/

section claims_options_nan

variable {T : Type}

/-- On a heat factor that is a number the validation with a `double` heat factor
is the validation on numbers. -/
theorem processCommandLineOptionsDouble_num (s : Strom T) :
    processCommandLineOptionsDouble s (DoubleValue.num s.heating_lambda) =
      processCommandLineOptions s := by
  simp only [processCommandLineOptionsDouble, processCommandLineOptions, DoubleValue.le,
    DoubleValue.gt, Bool.or_eq_true, decide_eq_true_eq]

/-- With a heat factor that is NaN the validation succeeds as soon as the five
other checks pass. -/
theorem processCommandLineOptionsDouble_nan (s : Strom T)
    (h1 : ∀ f ∈ s.state_frequencies, 0 < f) (h2 : ∀ x ∈ s.exchangeabilities, 0 < x)
    (h3 : 0 < s.gamma_shape) (h4 : 1 ≤ s.num_categ) (h5 : 1 ≤ s.num_chains) :
    processCommandLineOptionsDouble s DoubleValue.nan =
      Except.ok
        { s with
          state_frequencies := s.state_frequencies.map
            (fun f => f / s.state_frequencies.foldl (fun a b => a + b) 0)
          exchangeabilities := s.exchangeabilities.map
            (fun x => x / s.exchangeabilities.foldl (fun a b => a + b) 0) } := by
  have g3 : ¬ s.gamma_shape ≤ 0 := not_le.mpr h3
  have g4 : ¬ s.num_categ < 1 := by omega
  have g5 : ¬ s.num_chains < 1 := by omega
  simp only [processCommandLineOptionsDouble, normalizeLoop_ok _ _ _ h1,
    normalizeLoop_ok _ _ _ h2, if_neg g3, if_neg g4, if_neg g5, DoubleValue.le,
    DoubleValue.gt, Bool.or_self, Bool.false_eq_true, if_false]

/-- C21 (a defect of the code): the validation does not throw for a heat factor
that is NaN, although NaN is not a real number in the interval `(0.0, 1.0]`:
both comparisons of the test `_heating_lambda <= 0.0 || _heating_lambda > 1.0`
are false for NaN.  With `--heatfactor nan` and every other option at its
default the validation succeeds.  For every heat factor that is a number the
test does what the claim says: the validation is the one on numbers, and it
throws if and only if one of the six conditions of the claim holds. -/
theorem processCommandLineOptions_accepts_nan :
    DoubleValue.inUnitInterval DoubleValue.nan = false ∧
    (∃ s1, processCommandLineOptionsDouble stromDefaults DoubleValue.nan = Except.ok s1) ∧
    (∀ msg, processCommandLineOptionsDouble stromDefaults DoubleValue.nan ≠
      Except.error msg) ∧
    (∀ s : Strom Nat, processCommandLineOptionsDouble s (DoubleValue.num s.heating_lambda) =
      processCommandLineOptions s) ∧
    (∀ s : Strom Nat,
      (∃ msg, processCommandLineOptionsDouble s (DoubleValue.num s.heating_lambda) =
        Except.error msg) ↔
        ((∃ f ∈ s.state_frequencies, f ≤ 0) ∨ (∃ y ∈ s.exchangeabilities, y ≤ 0) ∨
          s.gamma_shape ≤ 0 ∨ s.num_categ < 1 ∨ s.num_chains < 1 ∨
          DoubleValue.inUnitInterval (DoubleValue.num s.heating_lambda) = false)) := by
  have hnan := processCommandLineOptionsDouble_nan stromDefaults
    (by simp [stromDefaults]) (by simp [stromDefaults]) (by norm_num [stromDefaults])
    (by decide) (by decide)
  refine ⟨rfl, ⟨_, hnan⟩, ?_, fun s => processCommandLineOptionsDouble_num s, ?_⟩
  · intro msg h
    rw [hnan] at h
    cases h
  · intro s
    rw [processCommandLineOptionsDouble_num s]
    simp only [DoubleValue.inUnitInterval, decide_eq_false_iff_not]
    exact (processCommandLineOptions_validation s).1

end claims_options_nan

end strom
